import Mathlib

/-! Support counting over an SCC graph and a dependence graph.

A shallow embedding of `CountSupport.cpp` (namespace `SupportCount`) and a
verification of its item-set algebra, its dependence-graph check and its
depth-first search over the graph of strongly connected components.

Conventions of the embedding.

* Pointers are identities: a `BasicBlock*` is a natural number, an `SCCNode*`
  or `SDDGNode*` is an index `Fin m` / `Fin n` into the arena that owns the
  nodes.
* `std::map<hash_t,int>` is an association list kept in increasing key order;
  `operator[]` inserts a zero entry for a missing key, exactly as in C++.
* `std::set<T>` is a list in increasing order without duplicates; a set of
  pointers is ordered by the index of the node pointed to.
* Every member function that writes to an object returns the new value of that
  object next to its result.
* Recursions whose termination depends on the shape of a graph take a fuel
  argument and return `none` when it runs out.
* A stored count, of type `int`, is an `Int`: `addItem` adds one per call, so a
  count leaves the range of `int` only after `2^31` calls. The accumulators of
  `getSize` and `getCommon` add stored counts, and their sums can leave that
  range: they wrap around to 32 bits (`toInt32`).
* A function that does not return on some input (a null pointer dereferenced)
  returns `none` there.
* The diagnostic table `hash2Str` is written but never read by the algorithm
  and is left out.
-/

namespace SupportCount

/-! ## Basic types -/

/-- The type `hash_t` of item keys. -/
abbrev hash_t := Nat

/-- The identity of a control-flow block (`BasicBlock *`). -/
abbrev BasicBlock := Nat

/-! ## `std::map<hash_t,int>` -/

/-- The representation of `std::map<hash_t,int>`: entries in increasing key order. -/
abbrev ItemMap := List (hash_t × Int)

/-- The method `std::map::find`, as an optional value. -/
def mapFind : ItemMap → hash_t → Option Int
  | [], _ => none
  | (a, x) :: rest, k => if k = a then some x else mapFind rest k

/-- Store `v` under key `k`, keeping the key order (insert or overwrite). -/
def mapAssign : ItemMap → hash_t → Int → ItemMap
  | [], k, v => [(k, v)]
  | (a, x) :: rest, k, v =>
    if k < a then (k, v) :: (a, x) :: rest
    else if k = a then (a, v) :: rest
    else (a, x) :: mapAssign rest k v

/-- The operator `std::map::operator[]` used as an rvalue: the stored value, or a
freshly inserted zero entry when the key is missing. Returns the value and the
map after the access. -/
def mapIndex (m : ItemMap) (k : hash_t) : Int × ItemMap :=
  match mapFind m k with
  | some v => (v, m)
  | none => (0, mapAssign m k 0)

/-- The count a map gives to a key, an absent key counting as zero. -/
def mapCount (m : ItemMap) (k : hash_t) : Int := (mapFind m k).getD 0

/-- The representation invariant of `std::map`: keys strictly increasing. -/
def mapWF (m : ItemMap) : Prop := (m.map Prod.fst).Pairwise (fun a b => a < b)

instance (m : ItemMap) : Decidable (mapWF m) := by
  unfold mapWF; infer_instance

/-- Every stored count is non-negative. -/
def mapNonneg (m : ItemMap) : Prop := ∀ p ∈ m, 0 ≤ p.2

instance (m : ItemMap) : Decidable (mapNonneg m) := by
  unfold mapNonneg; infer_instance

/-! ## `itemSet` -/

/-- The value of type `int` that an arithmetic result `z` leaves: 32 bits in
two's complement, so a sum beyond `2147483647` wraps around. (Signed overflow is
undefined in C++; this is what the usual targets compute.) -/
def toInt32 (z : Int) : Int := (z + 2147483648) % 4294967296 - 2147483648

/-- The class `itemSet`: its only data member is `mItems`. -/
structure itemSet where
  mItems : ItemMap
deriving DecidableEq, Repr

namespace itemSet

/-- The constructor `itemSet::itemSet()`. -/
def empty : itemSet := ⟨[]⟩

/-- The method `addItem`: `mItems[item]++`. -/
def addItem (self : itemSet) (item : hash_t) : itemSet :=
  let r := mapIndex self.mItems item
  ⟨mapAssign r.2 item (r.1 + 1)⟩

/-- The method `getnumItem`: `return mItems[item]`. The access goes through
`operator[]`, so the object may change. -/
def getnumItem (self : itemSet) (item : hash_t) : Int × itemSet :=
  let r := mapIndex self.mItems item
  (r.1, ⟨r.2⟩)

/-- The loop of `islarger` over the entries of `I`, threading `this->mItems`. -/
def islargerLoop : ItemMap → ItemMap → Bool × ItemMap
  | [], self => (true, self)
  | (k, v) :: rest, self =>
    let r := mapIndex self k
    if v > r.1 then (false, r.2) else islargerLoop rest r.2

/-- The method `islarger`: false as soon as an entry of `I` exceeds the count of
`this`. Returns the result and `this` after the call. -/
def islarger (self I : itemSet) : Bool × itemSet :=
  let r := islargerLoop I.mItems self.mItems
  (r.1, ⟨r.2⟩)

/-- The method `issame`: `islarger(I) && I->islarger(this)`, with the short
circuit of `&&`. Returns the result, `this` and `I` after the call. -/
def issame (self I : itemSet) : Bool × itemSet × itemSet :=
  let r1 := self.islarger I
  if r1.1 then
    let r2 := I.islarger r1.2
    (r2.1, r1.2, r2.2)
  else (false, r1.2, I)

/-- The method `isempty`: `mItems.empty()`. -/
def isempty (self : itemSet) : Bool := self.mItems.isEmpty

/-- The method `getSet`. -/
def getSet (self : itemSet) : ItemMap := self.mItems

/-- The loop of `getCommon`: `ans += min(mItems[item.first], item.second)`, with
`ans` of type `int`. -/
def getCommonLoop : ItemMap → ItemMap → Int → Int × ItemMap
  | [], self, ans => (ans, self)
  | (k, v) :: rest, self, ans =>
    let r := mapIndex self k
    getCommonLoop rest r.2 (toInt32 (ans + min r.1 v))

/-- The method `getCommon`. Returns the sum and `this` after the call. -/
def getCommon (self I : itemSet) : Int × itemSet :=
  let r := getCommonLoop I.mItems self.mItems 0
  (r.1, ⟨r.2⟩)

/-- The method `getSize`: `ans += item.second` over the stored entries, with
`ans` of type `int`. -/
def getSize (self : itemSet) : Int :=
  self.mItems.foldl (fun ans item => toInt32 (ans + item.2)) 0

/-- The count of a hash in an item-set, an absent hash counting as zero. -/
def count (self : itemSet) (h : hash_t) : Int := mapCount self.mItems h

/-- Representation invariant of the underlying `std::map`. -/
def WF (self : itemSet) : Prop := mapWF self.mItems

instance (s : itemSet) : Decidable (WF s) := by
  unfold WF; infer_instance

/-- All stored counts are non-negative. -/
def Nonneg (self : itemSet) : Prop := mapNonneg self.mItems

instance (s : itemSet) : Decidable (Nonneg s) := by
  unfold Nonneg; infer_instance

end itemSet

/-- One loop of `merge_itemSet`: for every entry of the iterated map,
`newItems[k] = max(fst->getnumItem(k), snd->getnumItem(k))`. The three maps are
threaded because `getnumItem` may insert. Returns `(fst, snd, newItems)`. -/
def mergeLoop : ItemMap → ItemMap → ItemMap → ItemMap → ItemMap × ItemMap × ItemMap
  | [], f, s, nw => (f, s, nw)
  | (k, _) :: rest, f, s, nw =>
    let a := mapIndex f k
    let b := mapIndex s k
    mergeLoop rest a.2 b.2 (mapAssign (mapIndex nw k).2 k (max a.1 b.1))

/-- The function `merge_itemSet`. Returns the new item-set, then `fst` and `snd`
after the call. When both arguments are the same object every key looked up is
present, nothing is inserted, and the two threaded copies stay equal. -/
def merge_itemSet (fst snd : itemSet) : itemSet × itemSet × itemSet :=
  let r1 := mergeLoop fst.mItems fst.mItems snd.mItems []
  let r2 := mergeLoop r1.2.1 r1.1 r1.2.1 r1.2.2
  (⟨r2.2.2⟩, ⟨r2.1⟩, ⟨r2.2.1⟩)

/-! ## Instructions and the signature codec -/

/-- The static function type of a call: printed return type, printed parameter
types and the variadic flag. -/
structure FunctionType where
  returnType : String
  params : List String
  isVarArg : Bool
deriving DecidableEq, Repr

/-- The method `Type::isVoidTy` on a printed type. -/
def FunctionType.returnIsVoid (ft : FunctionType) : Bool := ft.returnType == "void"

/-- The instructions `transition` is handed: returns and calls. An instruction
knows its parent block; a call also carries its operands, which normalisation
ignores. `call` is a call whose `getCalledFunction()` is a function, with or
without a name; `indirectCall` is a call through a pointer, for which
`getCalledFunction()` is null. -/
inductive Instruction where
  | ret (parent : BasicBlock) (type : String)
  | call (parent : BasicBlock) (calleeName : Option String) (ftype : FunctionType)
      (operands : List Nat)
  | indirectCall (parent : BasicBlock) (ftype : FunctionType) (operands : List Nat)
deriving DecidableEq, Repr

/-- The method `Instruction::getParent`. -/
def Instruction.getParent : Instruction → BasicBlock
  | .ret p _ => p
  | .call p _ _ _ => p
  | .indirectCall p _ _ => p

/-- The parameter list printed by `transition`: types separated by a comma and a
blank. -/
def printParams : List String → String
  | [] => ""
  | [p] => p
  | p :: q :: rest => p ++ ", " ++ printParams (q :: rest)

/-- The function `transition`: append the normalised signature of `inst` to
`normalizedStr`. For an indirect call `cfunc` is null and `cfunc->hasName()`
dereferences it: the function does not return, which is `none`. -/
def transition (normalizedStr : String) (inst : Instruction) : Option String :=
  match inst with
  | .ret _ ty => some (normalizedStr ++ "return " ++ ty)
  | .call _ name ft _ =>
    some (normalizedStr
      ++ (if ft.returnIsVoid then "" else ft.returnType ++ " = ")
      ++ (match name with | some s => s | none => "")
      ++ "("
      ++ printParams ft.params
      ++ (if ft.isVarArg then (if ft.params.length ≠ 0 then ", " else "") ++ "..." else "")
      ++ ")")
  | .indirectCall _ _ _ => none

/-! ## `std::set` -/

/-- The method `std::set::insert`: the list stays in increasing order and
without duplicates. -/
def setInsert {α : Type} [DecidableEq α] [LT α] [DecidableRel (fun a b : α => a < b)] :
    List α → α → List α
  | [], a => [a]
  | b :: s, a =>
    if a < b then a :: b :: s
    else if a = b then b :: s
    else b :: setInsert s a

/-- The method `std::set::erase` by key. -/
def setErase {α : Type} [DecidableEq α] (s : List α) (a : α) : List α :=
  s.filter (fun x => decide (x ≠ a))

/-- Insert every element of a list into a set, in order. -/
def setInsertAll {α : Type} [DecidableEq α] [LT α] [DecidableRel (fun a b : α => a < b)]
    (s : List α) (l : List α) : List α :=
  l.foldl setInsert s

/-- Erase every element of a list from a set, in order. -/
def setEraseAll {α : Type} [DecidableEq α] (s : List α) (l : List α) : List α :=
  l.foldl setErase s

/-! ## The dependence graph (SDDG) -/

/-- Modelled from the spec: the class `SDDGNode` is declared in
`SimpleDataDependenceGraph.h`, which is not part of the sources. A node of the
dependence graph holds its instruction and its successor and predecessor
lists. The spec has the collaborator hand over, for a call, the callee name, and
leaves indirect calls out of scope: the instruction of a node is a return or a
call with a called function, which is the field `resolved`. -/
structure SDDGNode (n : Nat) where
  mInst : Instruction
  mSuccessors : List (Fin n)
  mPredecessors : List (Fin n)
  resolved : (transition "" mInst).isSome = true

/-- The string `transition(label, Node->getInst())` leaves in the empty `label`
for a node of the dependence graph. -/
def SDDGNode.label {n : Nat} (self : SDDGNode n) : String :=
  (transition "" self.mInst).get self.resolved

/-- Modelled from the spec: the methods `SDDGNode::addSuccessor` and
`SDDGNode::addPredecessor` are declared in `SimpleDataDependenceGraph.h`, which
is not part of the sources; the spec says an edge is added, and the model
appends the new neighbour to the list. -/
def SDDGNode.addSuccessor {n : Nat} (self : SDDGNode n) (dst : Fin n) : SDDGNode n :=
  { self with mSuccessors := self.mSuccessors ++ [dst] }

/-- Modelled from the spec: see `SDDGNode.addSuccessor`. -/
def SDDGNode.addPredecessor {n : Nat} (self : SDDGNode n) (dst : Fin n) : SDDGNode n :=
  { self with mPredecessors := self.mPredecessors ++ [dst] }

/-- The dependence graph after flattening: an arena of `n` nodes and the
interesting nodes in the order `getInterestingNodes()` enumerates them. -/
structure SDDG (n : Nat) where
  node : Fin n → SDDGNode n
  interesting : List (Fin n)

/-- Overwrite one node of the arena. -/
def SDDG.setNode {n : Nat} (G : SDDG n) (i : Fin n) (x : SDDGNode n) : SDDG n :=
  { G with node := fun j => if j = i then x else G.node j }

/-- The body of the inner loop of `addShare` for one pair of interesting nodes. -/
def addSharePair {n : Nat} (inShare : Fin n → Fin n → Bool) (G : SDDG n) (fst snd : Fin n) :
    SDDG n :=
  if inShare fst snd then
    let G1 := G.setNode fst ((G.node fst).addSuccessor snd)
    let G2 := G1.setNode fst ((G1.node fst).addPredecessor snd)
    let G3 := G2.setNode snd ((G2.node snd).addSuccessor fst)
    G3.setNode snd ((G3.node snd).addPredecessor fst)
  else G

/-- The function `addShare`: both loops run over the interesting nodes; `inShare`
is the predicate of the dependence-graph collaborator, read on the
instructions of the two nodes. -/
def addShare {n : Nat} (inShare : Fin n → Fin n → Bool) (G : SDDG n) : SDDG n :=
  G.interesting.foldl
    (fun G1 fst => G.interesting.foldl (fun G2 snd => addSharePair inShare G2 fst snd) G1) G

/-- The state the dependence-graph search threads: the target `I`, the
accumulator `nowSet` and the set `visited`. -/
structure DfsState (n : Nat) where
  I : itemSet
  nowSet : itemSet
  visited : List (Fin n)
deriving DecidableEq

/-- Run a fallible step over a list, left to right, stopping at the first
failure. -/
def forEachM {α σ : Type} (f : α → σ → Option σ) : List α → σ → Option σ
  | [], s => some s
  | x :: xs, s =>
    match f x s with
    | none => none
    | some s1 => forEachM f xs s1

section Checker

variable (MD5encoding : String → hash_t)

/-- The hash under which an instruction is counted: `MD5encoding` of the
normalised signature that `transition` writes into an empty string (of the
empty string for an indirect call, for which `transition` writes none). -/
def nodeHash (inst : Instruction) : hash_t := MD5encoding ((transition "" inst).getD "")

/-- The function `NodeUseful`: the block of the node is in `UsefulBlocks` and the
target has a non-zero count for its hash. Returns the result and `I` after the
call (`getnumItem` may insert). -/
def NodeUseful {n : Nat} (UsefulBlocks : List BasicBlock) (Node : SDDGNode n) (I : itemSet) :
    Bool × itemSet :=
  let BB := Node.mInst.getParent
  if BB ∉ UsefulBlocks then (false, I)
  else
    let label := Node.label
    let hashValue := MD5encoding label
    let r := I.getnumItem hashValue
    (decide (r.1 ≠ 0), r.2)

/-- The function `dfsSDDG`. The fuel bounds the depth of the recursion; it is
only consumed when a node is entered. -/
def dfsSDDG {n : Nat} (G : SDDG n) (UsefulBlocks : List BasicBlock) :
    Nat → Fin n → DfsState n → Option (DfsState n)
  | fuel, Node, st =>
    let u := NodeUseful MD5encoding UsefulBlocks (G.node Node) st.I
    if !u.1 || decide (Node ∈ st.visited) then some { st with I := u.2 }
    else
      match fuel with
      | 0 => none
      | fuel1 + 1 =>
        let label := (G.node Node).label
        let hashValue := MD5encoding label
        let st1 : DfsState n :=
          { I := u.2, nowSet := st.nowSet.addItem hashValue, visited := setInsert st.visited Node }
        match forEachM (dfsSDDG G UsefulBlocks fuel1) (G.node Node).mSuccessors st1 with
        | none => none
        | some st2 => forEachM (dfsSDDG G UsefulBlocks fuel1) (G.node Node).mPredecessors st2

/-- The constructor `itemSet::itemSet(Instruction *)`: the empty item-set with
the hash of the instruction's signature added once; no object when `transition`
does not return. -/
def itemSet.ofInstruction (inst : Instruction) : Option itemSet :=
  match transition "" inst with
  | none => none
  | some label => some (itemSet.empty.addItem (MD5encoding label))

/-- The loop of `check` over the interesting nodes, threading `I` and `visited`.
Returns the result, `I` and `visited` at the moment of return. -/
def checkLoop {n : Nat} (G : SDDG n) (UsefulBlocks : List BasicBlock) (fuel : Nat) :
    List (Fin n) → itemSet → List (Fin n) → Option (Bool × itemSet × List (Fin n))
  | [], I, visited => some (false, I, visited)
  | x :: xs, I, visited =>
    if x ∈ visited then checkLoop G UsefulBlocks fuel xs I visited
    else
      match dfsSDDG MD5encoding G UsefulBlocks fuel x ⟨I, itemSet.empty, visited⟩ with
      | none => none
      | some st =>
        if (st.nowSet.islarger st.I).1 then some (true, st.I, st.visited)
        else checkLoop G UsefulBlocks fuel xs st.I st.visited

/-- The function `check`. Returns the result and `I` after the call. -/
def check {n : Nat} (G : SDDG n) (UsefulBlocks : List BasicBlock) (fuel : Nat) (I : itemSet) :
    Option (Bool × itemSet) :=
  (checkLoop MD5encoding G UsefulBlocks fuel G.interesting I []).map (fun r => (r.1, r.2.1))

end Checker

/-! ## The SCC graph -/

/-- The class `SCCNode`: the blocks of one component and the successor and
predecessor sets. -/
structure SCCNode (m : Nat) where
  blocks : List BasicBlock
  mSuccessors : List (Fin m)
  mPredecessors : List (Fin m)

/-- The method `SCCNode::addSuccessor`. -/
def SCCNode.addSuccessor {m : Nat} (self : SCCNode m) (Node : Fin m) : SCCNode m :=
  { self with mSuccessors := setInsert self.mSuccessors Node }

/-- The method `SCCNode::addPredecessor`. -/
def SCCNode.addPredecessor {m : Nat} (self : SCCNode m) (Node : Fin m) : SCCNode m :=
  { self with mPredecessors := setInsert self.mPredecessors Node }

/-- The class `SCCGraph`: the arena of nodes and the entry node. -/
structure SCCGraph (m : Nat) where
  SCCNodes : Fin m → SCCNode m
  EntryNode : Fin m

/-- The method `SCCGraph::getEntry`. -/
def SCCGraph.getEntry {m : Nat} (g : SCCGraph m) : Fin m := g.EntryNode

/-- What the core reads of an `llvm::Function`: its list of basic blocks, the
first one being the entry block, and the control-flow successors of a block. -/
structure Function where
  blocks : List BasicBlock
  succ : BasicBlock → List BasicBlock

/-- The method `Function::empty`. -/
def Function.empty (F : Function) : Bool := F.blocks.isEmpty

/-- The function `addBlockSCC`: `BBSCC[block] = SCC`. -/
def addBlockSCC {m : Nat} (BBSCC : BasicBlock → Option (Fin m)) (block : BasicBlock)
    (SCC : Fin m) : BasicBlock → Option (Fin m) :=
  fun b => if b = block then some SCC else BBSCC b

/-- The function `getSCC`: `BBSCC[block]`, the null pointer for an unknown block. -/
def getSCC {m : Nat} (BBSCC : BasicBlock → Option (Fin m)) (block : BasicBlock) :
    Option (Fin m) :=
  BBSCC block

/-- The table `BBSCC` after the constructor `SCCGraph::SCCGraph` has created
the nodes: `sccs i` is the component the `scc_iterator` enumerates in position
`i`, and the constructor of each node registers its blocks. The table starts
without entries for the blocks of the function. -/
def buildBBSCC {m : Nat} (sccs : Fin m → List BasicBlock) : BasicBlock → Option (Fin m) :=
  (List.finRange m).foldl
    (fun B i => (sccs i).foldl (fun B1 block => addBlockSCC B1 block i) B) (fun _ => none)

/-- The constructor `SCCGraph::SCCGraph(Function &)`: one node per component,
with empty edge sets, and the entry node looked up in `BBSCC`. A null entry
node would be dereferenced by the first use; the construction fails instead. -/
def SCCGraph.new {m : Nat} (F : Function) (sccs : Fin m → List BasicBlock) :
    Option (SCCGraph m) :=
  match F.blocks.head? with
  | none => none
  | some entryBlock =>
    match getSCC (buildBBSCC sccs) entryBlock with
    | none => none
    | some E => some ⟨fun i => ⟨sccs i, [], []⟩, E⟩

/-- Overwrite one node of the arena. -/
def setSCCNode {m : Nat} (nodes : Fin m → SCCNode m) (i : Fin m) (x : SCCNode m) :
    Fin m → SCCNode m :=
  fun j => if j = i then x else nodes j

/-- The method `SCCNode::buildRelation` of node `self`: for every block of the
node and every control-flow successor `SB` of the block, link the node with
`getSCC(SB)` in both directions. Fails when `getSCC` returns null. -/
def buildRelation {m : Nat} (F : Function) (BBSCC : BasicBlock → Option (Fin m)) (self : Fin m)
    (nodes : Fin m → SCCNode m) : Option (Fin m → SCCNode m) :=
  forEachM
    (fun block nodes1 =>
      forEachM
        (fun SB nodes2 =>
          match getSCC BBSCC SB with
          | none => none
          | some M =>
            let nodes3 := setSCCNode nodes2 self ((nodes2 self).addSuccessor M)
            some (setSCCNode nodes3 M ((nodes3 M).addPredecessor self)))
        (F.succ block) nodes1)
    (nodes self).blocks nodes

/-- The inner loop of `buildGraph`: push every successor not yet visited. -/
def pushSuccessors {m : Nat} (succs : List (Fin m)) (SCCqueue visited : List (Fin m)) :
    List (Fin m) × List (Fin m) :=
  succs.foldl
    (fun qv toNode =>
      if toNode ∈ qv.2 then qv else (qv.1 ++ [toNode], setInsert qv.2 toNode))
    (SCCqueue, visited)

/-- The `while` loop of `SCCGraph::buildGraph`; one unit of fuel per iteration. -/
def buildLoop {m : Nat} (F : Function) (BBSCC : BasicBlock → Option (Fin m)) :
    Nat → List (Fin m) → List (Fin m) → (Fin m → SCCNode m) → Option (Fin m → SCCNode m)
  | _, [], _, nodes => some nodes
  | 0, _ :: _, _, _ => none
  | fuel + 1, nowNode :: SCCqueue, visited, nodes =>
    match buildRelation F BBSCC nowNode nodes with
    | none => none
    | some nodes1 =>
      let qv := pushSuccessors (nodes1 nowNode).mSuccessors SCCqueue visited
      buildLoop F BBSCC fuel qv.1 qv.2 nodes1

/-- The loop of `buildGraph` with a ghost list `done` of the nodes on which
`buildRelation` has been called, in the order of the calls. Forgetting the list
gives `buildLoop` back. -/
def buildLoopTrace {m : Nat} (F : Function) (BBSCC : BasicBlock → Option (Fin m)) :
    Nat → List (Fin m) → List (Fin m) → (Fin m → SCCNode m) → List (Fin m) →
      Option ((Fin m → SCCNode m) × List (Fin m))
  | _, [], _, nodes, done => some (nodes, done)
  | 0, _ :: _, _, _, _ => none
  | fuel + 1, nowNode :: SCCqueue, visited, nodes, done =>
    match buildRelation F BBSCC nowNode nodes with
    | none => none
    | some nodes1 =>
      let qv := pushSuccessors (nodes1 nowNode).mSuccessors SCCqueue visited
      buildLoopTrace F BBSCC fuel qv.1 qv.2 nodes1 (done ++ [nowNode])

/-- The method `SCCGraph::buildGraph`. -/
def SCCGraph.buildGraph {m : Nat} (g : SCCGraph m) (F : Function)
    (BBSCC : BasicBlock → Option (Fin m)) (fuel : Nat) : Option (SCCGraph m) :=
  (buildLoop F BBSCC fuel [g.EntryNode] (setInsert [] g.EntryNode) g.SCCNodes).map
    (fun nodes => { g with SCCNodes := nodes })

/-- The state the search over the SCC graph threads: the target `I` and the
static set `UsefulBlocks`. -/
structure SearchState where
  I : itemSet
  UsefulBlocks : List BasicBlock
deriving DecidableEq

/-- Run a fallible test over a list, left to right, stopping at the first
element for which it answers true. -/
def firstM {α σ : Type} (f : α → σ → Option (Bool × σ)) : List α → σ → Option (Bool × σ)
  | [], s => some (false, s)
  | x :: xs, s =>
    match f x s with
    | none => none
    | some (true, s1) => some (true, s1)
    | some (false, s1) => firstM f xs s1

section Search

variable (MD5encoding : String → hash_t)

/-- The method `SCCNode::dfsNode` of node `N`. `fuelD` is handed to `check`; the
last fuel bounds the depth of the recursion over the SCC graph. -/
def dfsNode {m n : Nat} (g : SCCGraph m) (G : SDDG n) (fuelD : Nat) :
    Nat → Fin m → SearchState → Option (Bool × SearchState)
  | 0, _, _ => none
  | fuel + 1, N, st =>
    let st1 : SearchState :=
      { st with UsefulBlocks := setInsertAll st.UsefulBlocks (g.SCCNodes N).blocks }
    match firstM (dfsNode g G fuelD fuel) (g.SCCNodes N).mSuccessors st1 with
    | none => none
    | some (true, st2) =>
      some (true, { st2 with UsefulBlocks := setEraseAll st2.UsefulBlocks (g.SCCNodes N).blocks })
    | some (false, st2) =>
      if (g.SCCNodes N).mSuccessors.isEmpty then
        match check MD5encoding G st2.UsefulBlocks fuelD st2.I with
        | none => none
        | some r => some (r.1, { st2 with I := r.2 })
      else
        some (false,
          { st2 with UsefulBlocks := setEraseAll st2.UsefulBlocks (g.SCCNodes N).blocks })

/-- The method `SCCGraph::dfsGraph`. -/
def SCCGraph.dfsGraph {m n : Nat} (g : SCCGraph m) (G : SDDG n) (fuelD fuel : Nat)
    (st : SearchState) : Option (Bool × SearchState) :=
  dfsNode MD5encoding g G fuelD fuel g.getEntry st

/-- The function `CountSupport`. The components `sccs` are what the
`scc_iterator` enumerates for `F`, `SDDGF` is the dependence graph of `F` after
`buildSDDG` and `flattenSDDG`, and `inShare` is its share predicate. One fuel
bounds every loop and recursion. Returns the result, `I` and `UsefulBlocks`
after the call. -/
def CountSupport {m n : Nat} (F : Function) (sccs : Fin m → List BasicBlock) (SDDGF : SDDG n)
    (inShare : Fin n → Fin n → Bool) (fuel : Nat) (I : itemSet)
    (UsefulBlocks : List BasicBlock) : Option (Int × itemSet × List BasicBlock) :=
  if F.empty then some (0, I, UsefulBlocks)
  else
    match SCCGraph.new F sccs with
    | none => none
    | some SCCF =>
      match SCCF.buildGraph F (buildBBSCC sccs) fuel with
      | none => none
      | some SCCF1 =>
        let SDDGF1 := addShare inShare SDDGF
        match SCCF1.dfsGraph MD5encoding SDDGF1 fuel fuel ⟨I, UsefulBlocks⟩ with
        | none => none
        | some r => some (if r.1 then 1 else 0, r.2.I, r.2.UsefulBlocks)

end Search

/-! ## Vocabulary of the specification -/

section Vocabulary

variable (MD5encoding : String → hash_t)

/-- A node is useful for the counts `c` of a target and the activation set
`UsefulBlocks`: what `NodeUseful` answers. -/
def usefulAt {n : Nat} (G : SDDG n) (UsefulBlocks : List BasicBlock) (c : hash_t → Int)
    (x : Fin n) : Prop :=
  (G.node x).mInst.getParent ∈ UsefulBlocks ∧ c (nodeHash MD5encoding (G.node x).mInst) ≠ 0

instance {n : Nat} (G : SDDG n) (UsefulBlocks : List BasicBlock) (c : hash_t → Int) (x : Fin n) :
    Decidable (usefulAt MD5encoding G UsefulBlocks c x) := by
  unfold usefulAt; infer_instance

/-- The relation `dfsSDDG` follows: `y` is a successor or a predecessor of `x`. -/
def adjacent {n : Nat} (G : SDDG n) (x y : Fin n) : Prop :=
  y ∈ (G.node x).mSuccessors ∨ y ∈ (G.node x).mPredecessors

/-- One step of the search into a useful node that is not in `V`. -/
def whiteStep {n : Nat} (G : SDDG n) (UsefulBlocks : List BasicBlock) (c : hash_t → Int)
    (V : List (Fin n)) (x y : Fin n) : Prop :=
  adjacent G x y ∧ usefulAt MD5encoding G UsefulBlocks c y ∧ y ∉ V

/-- What a run of the dependence-graph search started on the nodes `roots`
does to the state: `new` lists the nodes it visits. -/
structure StepSpec {n : Nat} (G : SDDG n) (UsefulBlocks : List BasicBlock) (c : hash_t → Int)
    (roots : List (Fin n)) (st st1 : DfsState n) (new : List (Fin n)) : Prop where
  count_I : ∀ k, st1.I.count k = st.I.count k
  wf_I : st.I.WF → st1.I.WF
  perm : st1.visited.Perm (new ++ st.visited)
  nodup : st.visited.Nodup → st1.visited.Nodup
  roots_in : ∀ y ∈ roots, usefulAt MD5encoding G UsefulBlocks c y → y ∈ st1.visited
  new_spec : ∀ x ∈ new, usefulAt MD5encoding G UsefulBlocks c x ∧ x ∉ st.visited ∧
    ∃ y ∈ roots, usefulAt MD5encoding G UsefulBlocks c y ∧ y ∉ st.visited ∧
      Relation.ReflTransGen (whiteStep MD5encoding G UsefulBlocks c st.visited) y x
  closed : ∀ x ∈ new, ∀ y, adjacent G x y → usefulAt MD5encoding G UsefulBlocks c y →
    y ∈ st1.visited
  count_now : ∀ h, st1.nowSet.count h =
    st.nowSet.count h + (new.countP (fun x => decide (nodeHash MD5encoding (G.node x).mInst = h)))

/-- A set of visited nodes is closed: its members are useful and every useful
neighbour of a member is a member. -/
def closedSet {n : Nat} (G : SDDG n) (UsefulBlocks : List BasicBlock) (c : hash_t → Int)
    (V : List (Fin n)) : Prop :=
  ∀ x ∈ V, usefulAt MD5encoding G UsefulBlocks c x ∧
    ∀ y, adjacent G x y → usefulAt MD5encoding G UsefulBlocks c y → y ∈ V

/-- One step of the search from a node into a useful neighbour. -/
def stepUseful {n : Nat} (G : SDDG n) (UsefulBlocks : List BasicBlock) (c : hash_t → Int)
    (p q : Fin n) : Prop :=
  adjacent G p q ∧ usefulAt MD5encoding G UsefulBlocks c q

/-- The node `x` lies in the connected component of `v` in the dependence graph
induced on the useful nodes; no node does when `v` itself is not useful. -/
def inComponent {n : Nat} (G : SDDG n) (UsefulBlocks : List BasicBlock) (c : hash_t → Int)
    (v x : Fin n) : Prop :=
  usefulAt MD5encoding G UsefulBlocks c v ∧
    Relation.ReflTransGen (stepUseful MD5encoding G UsefulBlocks c) v x

/-- The multiset of the hashes of the nodes in the component of `v`, each node
counted once, dominates the target counts `c`: `comp` enumerates the component
without repetition. -/
def componentDominates {n : Nat} (G : SDDG n) (UsefulBlocks : List BasicBlock)
    (c : hash_t → Int) (v : Fin n) : Prop :=
  ∃ comp : List (Fin n), comp.Nodup ∧
    (∀ x, x ∈ comp ↔ inComponent MD5encoding G UsefulBlocks c v x) ∧
    ∀ h, c h ≤ (comp.countP (fun x => decide (nodeHash MD5encoding (G.node x).mInst = h)) : Nat)

end Vocabulary

/-- The successor and predecessor lists of the dependence graph agree: `b` is a
successor of `a` exactly when `a` is a predecessor of `b`. -/
def SDDG.consistent {n : Nat} (G : SDDG n) : Prop :=
  ∀ a b, b ∈ (G.node a).mSuccessors ↔ a ∈ (G.node b).mPredecessors

instance {n : Nat} (G : SDDG n) : Decidable G.consistent := by
  unfold SDDG.consistent; infer_instance

/-- The graph `G1` has the nodes, instructions and interesting nodes of `G` and
at least its edges. -/
def SDDG.extendedBy {n : Nat} (G G1 : SDDG n) : Prop :=
  G1.interesting = G.interesting ∧
    ∀ x, (G1.node x).mInst = (G.node x).mInst ∧
      (∀ y ∈ (G.node x).mSuccessors, y ∈ (G1.node x).mSuccessors) ∧
      (∀ y ∈ (G.node x).mPredecessors, y ∈ (G1.node x).mPredecessors)

/-- The two nodes are linked in both directions, as successors and as
predecessors. -/
def SDDG.linked {n : Nat} (G : SDDG n) (a b : Fin n) : Prop :=
  b ∈ (G.node a).mSuccessors ∧ b ∈ (G.node a).mPredecessors ∧
    a ∈ (G.node b).mSuccessors ∧ a ∈ (G.node b).mPredecessors

/-! ## Vocabulary on the SCC graph -/

/-- The edge the control-flow graph induces between two components: a block of
`N` has a control-flow successor that `getSCC` maps to `M`. -/
def sccEdge {m : Nat} (F : Function) (BBSCC : BasicBlock → Option (Fin m))
    (blocks : Fin m → List BasicBlock) (N M : Fin m) : Prop :=
  ∃ b ∈ blocks N, ∃ s ∈ F.succ b, getSCC BBSCC s = some M

/-- The invariant of the loop of `buildGraph`, for the components `sccs`, the
entry node `E`, the queue `q`, the visited set `v`, the arena `nodes` and the
list `done` of the nodes already handled. -/
structure BuildInv {m : Nat} (F : Function) (BBSCC : BasicBlock → Option (Fin m))
    (sccs : Fin m → List BasicBlock) (E : Fin m) (q v : List (Fin m))
    (nodes : Fin m → SCCNode m) (done : List (Fin m)) : Prop where
  blocks_eq : ∀ N, (nodes N).blocks = sccs N
  succ_done : ∀ N ∈ done, ∀ M, M ∈ (nodes N).mSuccessors ↔ sccEdge F BBSCC sccs N M
  succ_fresh : ∀ N, N ∉ done → ∀ M, M ∉ (nodes N).mSuccessors
  pred_iff : ∀ N M, M ∈ (nodes N).mSuccessors ↔ N ∈ (nodes M).mPredecessors
  visited_iff : ∀ N, N ∈ v ↔ N ∈ done ∨ N ∈ q
  done_nodup : done.Nodup
  queue_nodup : q.Nodup
  queue_fresh : ∀ N ∈ q, N ∉ done
  visited_nodup : v.Nodup
  reach : ∀ N ∈ v, Relation.ReflTransGen (sccEdge F BBSCC sccs) E N
  closed : ∀ N ∈ done, ∀ M, sccEdge F BBSCC sccs N M → M ∈ v
  entry : E ∈ v

/-- The successor relation of the SCC graph. -/
def SCCGraph.edge {m : Nat} (g : SCCGraph m) (N M : Fin m) : Prop :=
  M ∈ (g.SCCNodes N).mSuccessors

/-- The node is reachable from the entry node along successor edges. -/
def SCCGraph.reachable {m : Nat} (g : SCCGraph m) (N : Fin m) : Prop :=
  Relation.ReflTransGen g.edge g.EntryNode N

/-- The block belongs to a node reachable from the entry node. -/
def SCCGraph.reachBlock {m : Nat} (g : SCCGraph m) (b : BasicBlock) : Prop :=
  ∃ N, g.reachable N ∧ b ∈ (g.SCCNodes N).blocks

/-- The successor relation has no cycle. -/
def SCCGraph.acyclic {m : Nat} (g : SCCGraph m) : Prop :=
  ∀ N, ¬ Relation.TransGen g.edge N N

/-- The list `rest` continues a path from `N` along successor edges and ends in
a sink, a node without successors. -/
def SCCGraph.isSinkPath {m : Nat} (g : SCCGraph m) : Fin m → List (Fin m) → Bool
  | N, [] => (g.SCCNodes N).mSuccessors.isEmpty
  | N, M :: rest => decide (M ∈ (g.SCCNodes N).mSuccessors) && g.isSinkPath M rest

/-- The set of the blocks of the nodes of a path. -/
def SCCGraph.pathBlocks {m : Nat} (g : SCCGraph m) : List (Fin m) → List BasicBlock
  | [] => []
  | N :: rest => setInsertAll (g.pathBlocks rest) (g.SCCNodes N).blocks

/-- Block `b` can be reached from block `a` along control-flow edges. -/
def Function.reach (F : Function) (a b : BasicBlock) : Prop :=
  Relation.ReflTransGen (fun x y => y ∈ F.succ x) a b

/-! ## Sample inputs -/

/-- A stand-in for `MD5encoding` in the sample inputs: the digits of the
string in base 256, injective on the short signatures used below. -/
def sampleHash (s : String) : hash_t := s.toList.foldl (fun a c => a * 256 + c.toNat) 0

/-- A call `f(i32)` in block `b`, with one operand. -/
def callF (b : BasicBlock) (operand : Nat) : Instruction :=
  .call b (some "f") ⟨"void", ["i32"], false⟩ [operand]

/-- A call `g()` in block `b`. -/
def callG (b : BasicBlock) : Instruction :=
  .call b (some "g") ⟨"void", [], false⟩ []

/-- A procedure with the single block 0, which has no successor. -/
def oneBlockF : Function := ⟨[0], fun _ => []⟩

/-- The only component of `oneBlockF`. -/
def oneBlockSccs : Fin 1 → List BasicBlock := fun _ => [0]

/-- Two calls `f(i32)` in block 0 with no dependence edge between them. -/
def twoCallsApart : SDDG 2 :=
  ⟨fun i => if i.val = 0 then ⟨callF 0 1, [], [], rfl⟩ else ⟨callF 0 2, [], [], rfl⟩, [0, 1]⟩

/-- Two calls `f(i32)` in block 0, the second depending on the first. -/
def twoCallsLinked : SDDG 2 :=
  ⟨fun i => if i.val = 0 then ⟨callF 0 1, [1], [], rfl⟩ else ⟨callF 0 2, [], [0], rfl⟩, [0, 1]⟩

/-- No two nodes share. -/
def noShare {n : Nat} : Fin n → Fin n → Bool := fun _ _ => false

/-- The two nodes 0 and 1 share. -/
def share01 {n : Nat} : Fin n → Fin n → Bool :=
  fun a b => decide (a.val = 0 ∧ b.val = 1)

/-- A procedure whose entry block 0 branches to block 1, which branches to
itself: a loop that never exits. -/
def loopF : Function := ⟨[0, 1], fun b => if b = 0 then [1] else if b = 1 then [1] else []⟩

/-- The components of `loopF` in the order of the `scc_iterator`, which
enumerates a component after the components it leads to. -/
def loopSccs : Fin 2 → List BasicBlock := fun i => if i.val = 0 then [1] else [0]

/-- A procedure whose entry block 0 branches to the returning block 1 and to
block 2, which falls through to the returning block 3. -/
def leakF : Function :=
  ⟨[0, 1, 2, 3], fun b => if b = 0 then [1, 2] else if b = 2 then [3] else []⟩

/-- The components of `leakF` in the order of the `scc_iterator`. -/
def leakSccs : Fin 4 → List BasicBlock := fun i => [[1], [3], [2], [0]].getD i.val []

/-- The dependence graph of `leakF`: a call `f(i32)` in block 2 and a call `g()`
in block 1 that depends on it. -/
def leakSDDG : SDDG 2 :=
  ⟨fun i => if i.val = 0 then ⟨callF 2 1, [1], [], rfl⟩ else ⟨callG 1, [], [0], rfl⟩, [0, 1]⟩

/-- The target `{f(i32): 1, g(): 1}`, built by `addItem`. -/
def leakTarget : itemSet :=
  (itemSet.empty.addItem (sampleHash "f(i32)")).addItem (sampleHash "g()")

/-- The SCC graph `buildGraph` constructs for `leakF`: node 3 is the entry
component, with successors 0 and 2; node 2 has successor 1; nodes 0 and 1 are
sinks. -/
def leakGraph : SCCGraph 4 :=
  ⟨fun i => [⟨[1], [], [3]⟩, ⟨[3], [], [2]⟩, ⟨[2], [1], [3]⟩, ⟨[0], [0, 2], []⟩].getD i.val
    ⟨[], [], []⟩, 3⟩

/-- The graph `leakGraph` with the two successors of the entry node iterated in
the other order. -/
def leakGraphSwapped : SCCGraph 4 :=
  ⟨fun i => [⟨[1], [], [3]⟩, ⟨[3], [], [2]⟩, ⟨[2], [1], [3]⟩, ⟨[0], [2, 0], []⟩].getD i.val
    ⟨[], [], []⟩, 3⟩

/-- A call `h()` in block `b`. -/
def callH (b : BasicBlock) : Instruction :=
  .call b (some "h") ⟨"void", [], false⟩ []

/-- A procedure with the entry block 0 and a dead block 1 that branches to
block 0. -/
def deadF : Function := ⟨[0, 1], fun b => if b = 1 then [0] else []⟩

/-- The only component the `scc_iterator` enumerates for `deadF`. -/
def deadSccs : Fin 1 → List BasicBlock := fun _ => [0]

/-- The SCC graph of `deadF`. -/
def deadGraph : SCCGraph 1 := ⟨fun _ => ⟨[0], [], []⟩, 0⟩

/-- The dependence graph of `deadF`: a call `g()` in block 0 and a call `h()` in
the dead block 1. -/
def deadSDDG : SDDG 2 :=
  ⟨fun i => if i.val = 0 then ⟨callG 0, [], [], rfl⟩ else ⟨callH 1, [], [], rfl⟩, [0, 1]⟩

/-! ## Lemmas on `std::map` -/

theorem mapFind_mapAssign (m : ItemMap) (k k' : hash_t) (v : Int) :
    mapFind (mapAssign m k v) k' = if k' = k then some v else mapFind m k' := by
  induction m with
  | nil => simp [mapAssign, mapFind]
  | cons p rest ih =>
    obtain ⟨a, x⟩ := p
    unfold mapAssign
    by_cases h1 : k < a
    · simp only [h1, if_true, mapFind]
    · by_cases h2 : k = a
      · subst h2
        simp only [h1, if_false, if_true, mapFind]
        split <;> rfl
      · simp only [h1, h2, if_false, mapFind, ih]
        by_cases h3 : k' = a
        · have : k' ≠ k := fun h => h2 (h ▸ h3)
          simp [h3, this, Ne.symm h2]
        · simp [h3]

theorem mapCount_mapAssign (m : ItemMap) (k k' : hash_t) (v : Int) :
    mapCount (mapAssign m k v) k' = if k' = k then v else mapCount m k' := by
  unfold mapCount
  rw [mapFind_mapAssign]
  split <;> rfl

theorem mapIndex_fst (m : ItemMap) (k : hash_t) : (mapIndex m k).1 = mapCount m k := by
  unfold mapIndex mapCount
  cases mapFind m k <;> rfl

theorem mapCount_mapIndex (m : ItemMap) (k k' : hash_t) :
    mapCount (mapIndex m k).2 k' = mapCount m k' := by
  unfold mapIndex
  cases h : mapFind m k with
  | some v => rfl
  | none =>
    simp only [mapCount_mapAssign]
    split
    · next h' => subst h'; simp [mapCount, h]
    · rfl

theorem keys_mapAssign (m : ItemMap) (k : hash_t) (v : Int) (x : hash_t) :
    x ∈ (mapAssign m k v).map Prod.fst ↔ x = k ∨ x ∈ m.map Prod.fst := by
  induction m with
  | nil => simp [mapAssign]
  | cons p rest ih =>
    obtain ⟨a, y⟩ := p
    unfold mapAssign
    by_cases h1 : k < a
    · simp [h1]
    · by_cases h2 : k = a
      · subst h2; simp
      · simp only [h1, h2, if_false, List.map_cons, List.mem_cons, ih]
        tauto

theorem mapWF_mapAssign (m : ItemMap) (k : hash_t) (v : Int) (h : mapWF m) :
    mapWF (mapAssign m k v) := by
  induction m with
  | nil => simp [mapAssign, mapWF]
  | cons p rest ih =>
    obtain ⟨a, y⟩ := p
    unfold mapWF at h ⊢
    simp only [List.map_cons, List.pairwise_cons] at h
    unfold mapAssign
    by_cases h1 : k < a
    · simp only [h1, if_true, List.map_cons, List.pairwise_cons]
      refine ⟨?_, h⟩
      intro b hb
      rcases List.mem_cons.mp hb with rfl | hb
      · exact h1
      · exact lt_trans h1 (h.1 b hb)
    · by_cases h2 : k = a
      · subst h2
        simpa using h
      · simp only [h1, h2, if_false, List.map_cons, List.pairwise_cons]
        refine ⟨?_, ih h.2⟩
        intro b hb
        rcases (keys_mapAssign rest k v b).mp hb with rfl | hb
        · exact Nat.lt_of_le_of_ne (Nat.le_of_not_lt h1) (Ne.symm h2)
        · exact h.1 b hb

theorem mapWF_mapIndex (m : ItemMap) (k : hash_t) (h : mapWF m) : mapWF (mapIndex m k).2 := by
  unfold mapIndex
  cases mapFind m k with
  | some v => exact h
  | none => exact mapWF_mapAssign m k 0 h

theorem mapFind_some_mem (m : ItemMap) (k : hash_t) (v : Int) (h : mapFind m k = some v) :
    (k, v) ∈ m := by
  induction m with
  | nil => simp [mapFind] at h
  | cons p rest ih =>
    obtain ⟨a, y⟩ := p
    unfold mapFind at h
    by_cases h1 : k = a
    · simp only [h1, if_true, Option.some.injEq] at h
      simp [h1, h]
    · simp only [h1, if_false] at h
      exact List.mem_cons_of_mem _ (ih h)

theorem mapFind_none_iff (m : ItemMap) (k : hash_t) :
    mapFind m k = none ↔ k ∉ m.map Prod.fst := by
  induction m with
  | nil => simp [mapFind]
  | cons p rest ih =>
    obtain ⟨a, y⟩ := p
    unfold mapFind
    by_cases h1 : k = a
    · simp [h1]
    · simp only [h1, if_false, ih, List.map_cons, List.mem_cons, false_or]

theorem mapFind_of_mem (m : ItemMap) (h : mapWF m) (k : hash_t) (v : Int) (hm : (k, v) ∈ m) :
    mapFind m k = some v := by
  induction m with
  | nil => simp at hm
  | cons p rest ih =>
    obtain ⟨a, y⟩ := p
    unfold mapWF at h
    simp only [List.map_cons, List.pairwise_cons] at h
    unfold mapFind
    rcases List.mem_cons.mp hm with heq | hm
    · simp only [Prod.mk.injEq] at heq
      simp [heq.1, heq.2]
    · have hk : k ∈ rest.map Prod.fst := List.mem_map.mpr ⟨(k, v), hm, rfl⟩
      have : a < k := h.1 k hk
      have hne : k ≠ a := Nat.ne_of_gt this
      simp only [hne, if_false]
      exact ih h.2 hm

theorem mapCount_of_mem (m : ItemMap) (h : mapWF m) (p : hash_t × Int) (hm : p ∈ m) :
    mapCount m p.1 = p.2 := by
  unfold mapCount
  rw [mapFind_of_mem m h p.1 p.2 hm]
  rfl

theorem mapCount_nonneg (m : ItemMap) (h : mapNonneg m) (k : hash_t) : 0 ≤ mapCount m k := by
  unfold mapCount
  cases hf : mapFind m k with
  | none => simp
  | some v => exact h (k, v) (mapFind_some_mem m k v hf)

theorem mapCount_eq_zero_of_not_mem (m : ItemMap) (k : hash_t) (h : k ∉ m.map Prod.fst) :
    mapCount m k = 0 := by
  unfold mapCount
  rw [(mapFind_none_iff m k).mpr h]
  rfl

theorem keys_mapIndex (m : ItemMap) (k x : hash_t) :
    x ∈ (mapIndex m k).2.map Prod.fst ↔ x = k ∨ x ∈ m.map Prod.fst := by
  unfold mapIndex
  cases h : mapFind m k with
  | some v =>
    have hk : k ∈ m.map Prod.fst := List.mem_map.mpr ⟨(k, v), mapFind_some_mem m k v h, rfl⟩
    constructor
    · exact Or.inr
    · rintro (rfl | hx)
      · exact hk
      · exact hx
  | none => exact keys_mapAssign m k 0 x

/-! ## Lemmas on `islarger` -/

theorem islargerLoop_count (items self : ItemMap) (k : hash_t) :
    mapCount (itemSet.islargerLoop items self).2 k = mapCount self k := by
  induction items generalizing self with
  | nil => rfl
  | cons p rest ih =>
    obtain ⟨a, v⟩ := p
    unfold itemSet.islargerLoop
    by_cases h : v > (mapIndex self a).1
    · simp only [h, if_true, mapCount_mapIndex]
    · simp only [h, if_false, ih, mapCount_mapIndex]

theorem islargerLoop_WF (items self : ItemMap) (h : mapWF self) :
    mapWF (itemSet.islargerLoop items self).2 := by
  induction items generalizing self with
  | nil => exact h
  | cons p rest ih =>
    obtain ⟨a, v⟩ := p
    unfold itemSet.islargerLoop
    by_cases h1 : v > (mapIndex self a).1
    · simp only [h1, if_true]
      exact mapWF_mapIndex self a h
    · simp only [h1, if_false]
      exact ih _ (mapWF_mapIndex self a h)

theorem islargerLoop_true_iff (items self : ItemMap) :
    (itemSet.islargerLoop items self).1 = true ↔ ∀ p ∈ items, p.2 ≤ mapCount self p.1 := by
  induction items generalizing self with
  | nil => simp [itemSet.islargerLoop]
  | cons p rest ih =>
    obtain ⟨a, v⟩ := p
    unfold itemSet.islargerLoop
    by_cases h : v > (mapIndex self a).1
    · simp only [h, if_true, List.mem_cons, forall_eq_or_imp]
      rw [mapIndex_fst] at h
      constructor
      · intro hf; cases hf
      · intro hall; exact absurd hall.1 (by omega)
    · simp only [h, if_false, ih, List.mem_cons, forall_eq_or_imp, mapCount_mapIndex]
      rw [mapIndex_fst] at h
      constructor
      · intro hall; exact ⟨by omega, hall⟩
      · intro hall; exact hall.2

theorem islarger_true_iff (A I : itemSet) :
    (A.islarger I).1 = true ↔ ∀ p ∈ I.mItems, p.2 ≤ A.count p.1 :=
  islargerLoop_true_iff I.mItems A.mItems

theorem islarger_count (A I : itemSet) (k : hash_t) : (A.islarger I).2.count k = A.count k :=
  islargerLoop_count I.mItems A.mItems k

theorem islarger_WF (A I : itemSet) (h : A.WF) : (A.islarger I).2.WF :=
  islargerLoop_WF I.mItems A.mItems h

/-- On a well-formed target whose counts a non-negative evidence bounds entry by
entry, the bound holds for every hash, and conversely. -/
theorem entries_le_iff_count_le (X : ItemMap) (hX : mapWF X) (c : hash_t → Int)
    (hc : ∀ k, 0 ≤ c k) :
    (∀ p ∈ X, p.2 ≤ c p.1) ↔ ∀ k, mapCount X k ≤ c k := by
  constructor
  · intro h k
    unfold mapCount
    cases hf : mapFind X k with
    | none => simpa using hc k
    | some v => exact h (k, v) (mapFind_some_mem X k v hf)
  · intro h p hp
    rw [← mapCount_of_mem X hX p hp]
    exact h p.1

theorem count_nonneg (A : itemSet) (h : A.Nonneg) (k : hash_t) : 0 ≤ A.count k :=
  mapCount_nonneg A.mItems h k

theorem islarger_true_iff_count (A I : itemSet) (hI : I.WF) (hA : ∀ k, 0 ≤ A.count k) :
    (A.islarger I).1 = true ↔ ∀ k, I.count k ≤ A.count k := by
  rw [islarger_true_iff]
  exact entries_le_iff_count_le I.mItems hI A.count hA

/-! ## Lemmas on `merge_itemSet` -/

theorem mergeLoop_count_fst (items f s nw : ItemMap) (k : hash_t) :
    mapCount (mergeLoop items f s nw).1 k = mapCount f k := by
  induction items generalizing f s nw with
  | nil => rfl
  | cons p rest ih =>
    obtain ⟨a, v⟩ := p
    unfold mergeLoop
    simp only [ih, mapCount_mapIndex]

theorem mergeLoop_count_snd (items f s nw : ItemMap) (k : hash_t) :
    mapCount (mergeLoop items f s nw).2.1 k = mapCount s k := by
  induction items generalizing f s nw with
  | nil => rfl
  | cons p rest ih =>
    obtain ⟨a, v⟩ := p
    unfold mergeLoop
    simp only [ih, mapCount_mapIndex]

theorem mergeLoop_count_new (items f s nw : ItemMap) (k : hash_t) :
    mapCount (mergeLoop items f s nw).2.2 k =
      if k ∈ items.map Prod.fst then max (mapCount f k) (mapCount s k) else mapCount nw k := by
  induction items generalizing f s nw with
  | nil => simp [mergeLoop]
  | cons p rest ih =>
    obtain ⟨a, v⟩ := p
    unfold mergeLoop
    simp only [ih, mapCount_mapIndex, mapCount_mapAssign, mapIndex_fst, List.map_cons,
      List.mem_cons]
    by_cases h1 : k ∈ rest.map Prod.fst
    · simp [h1]
    · by_cases h2 : k = a
      · subst h2; simp [h1]
      · simp [h1, h2]

theorem mergeLoop_WF_fst (items f s nw : ItemMap) (h : mapWF f) :
    mapWF (mergeLoop items f s nw).1 := by
  induction items generalizing f s nw with
  | nil => exact h
  | cons p rest ih =>
    obtain ⟨a, v⟩ := p
    unfold mergeLoop
    exact ih _ _ _ (mapWF_mapIndex f a h)

theorem mergeLoop_WF_snd (items f s nw : ItemMap) (h : mapWF s) :
    mapWF (mergeLoop items f s nw).2.1 := by
  induction items generalizing f s nw with
  | nil => exact h
  | cons p rest ih =>
    obtain ⟨a, v⟩ := p
    unfold mergeLoop
    exact ih _ _ _ (mapWF_mapIndex s a h)

theorem mergeLoop_WF_new (items f s nw : ItemMap) (h : mapWF nw) :
    mapWF (mergeLoop items f s nw).2.2 := by
  induction items generalizing f s nw with
  | nil => exact h
  | cons p rest ih =>
    obtain ⟨a, v⟩ := p
    unfold mergeLoop
    exact ih _ _ _ (mapWF_mapAssign _ a _ (mapWF_mapIndex nw a h))

theorem mergeLoop_keys_snd (items f s nw : ItemMap) (x : hash_t) :
    x ∈ (mergeLoop items f s nw).2.1.map Prod.fst ↔
      x ∈ items.map Prod.fst ∨ x ∈ s.map Prod.fst := by
  induction items generalizing f s nw with
  | nil => simp [mergeLoop]
  | cons p rest ih =>
    obtain ⟨a, v⟩ := p
    unfold mergeLoop
    simp only [ih, keys_mapIndex, List.map_cons, List.mem_cons]
    tauto

theorem mapIndex_of_mem_keys (m : ItemMap) (k : hash_t) (h : k ∈ m.map Prod.fst) :
    (mapIndex m k).2 = m := by
  unfold mapIndex
  cases hf : mapFind m k with
  | some v => rfl
  | none => exact absurd h ((mapFind_none_iff m k).mp hf)

theorem mergeLoop_unchanged (items f s nw : ItemMap)
    (hf : ∀ x ∈ items.map Prod.fst, x ∈ f.map Prod.fst)
    (hs : ∀ x ∈ items.map Prod.fst, x ∈ s.map Prod.fst) :
    (mergeLoop items f s nw).1 = f ∧ (mergeLoop items f s nw).2.1 = s := by
  induction items generalizing nw with
  | nil => exact ⟨rfl, rfl⟩
  | cons p rest ih =>
    obtain ⟨a, v⟩ := p
    unfold mergeLoop
    have ha : a ∈ f.map Prod.fst := hf a (by simp)
    have hb : a ∈ s.map Prod.fst := hs a (by simp)
    simp only [mapIndex_of_mem_keys f a ha, mapIndex_of_mem_keys s a hb]
    exact ih _ (fun x hx => hf x (by simp at hx ⊢; exact Or.inr hx))
      (fun x hx => hs x (by simp at hx ⊢; exact Or.inr hx))

theorem merge_count (A B : itemSet) (h : hash_t) :
    (merge_itemSet A B).1.count h = max (A.count h) (B.count h) := by
  unfold merge_itemSet itemSet.count
  simp only [mergeLoop_count_new, mergeLoop_count_fst, mergeLoop_count_snd, mergeLoop_keys_snd]
  by_cases h1 : h ∈ A.mItems.map Prod.fst
  · simp [h1]
  · by_cases h2 : h ∈ B.mItems.map Prod.fst
    · simp [h2]
    · simp [h1, h2, mapCount_eq_zero_of_not_mem]

theorem merge_fst_count (A B : itemSet) (h : hash_t) :
    (merge_itemSet A B).2.1.count h = A.count h := by
  unfold merge_itemSet itemSet.count
  simp only [mergeLoop_count_fst]

theorem merge_snd_count (A B : itemSet) (h : hash_t) :
    (merge_itemSet A B).2.2.count h = B.count h := by
  unfold merge_itemSet itemSet.count
  simp only [mergeLoop_count_snd]

theorem merge_fst_WF (A B : itemSet) (hA : A.WF) : (merge_itemSet A B).2.1.WF := by
  unfold merge_itemSet itemSet.WF
  exact mergeLoop_WF_fst _ _ _ _ (mergeLoop_WF_fst _ _ _ _ hA)

theorem merge_snd_WF (A B : itemSet) (hB : B.WF) : (merge_itemSet A B).2.2.WF := by
  unfold merge_itemSet itemSet.WF
  exact mergeLoop_WF_snd _ _ _ _ (mergeLoop_WF_snd _ _ _ _ hB)

theorem merge_new_WF (A B : itemSet) : (merge_itemSet A B).1.WF := by
  unfold merge_itemSet itemSet.WF
  exact mergeLoop_WF_new _ _ _ _ (mergeLoop_WF_new _ _ _ _ (by simp [mapWF]))

theorem merge_self_unchanged (A : itemSet) :
    (merge_itemSet A A).2.1 = A ∧ (merge_itemSet A A).2.2 = A := by
  unfold merge_itemSet
  have h1 := mergeLoop_unchanged A.mItems A.mItems A.mItems [] (fun _ h => h) (fun _ h => h)
  simp only [h1.1, h1.2]
  have h2 := mergeLoop_unchanged A.mItems A.mItems A.mItems
    (mergeLoop A.mItems A.mItems A.mItems []).2.2 (fun _ h => h) (fun _ h => h)
  simp only [h2.1, h2.2, and_self]

theorem islarger_of_count_le (M X : itemSet) (hX : X.WF) (h : ∀ k, X.count k ≤ M.count k) :
    (M.islarger X).1 = true := by
  rw [islarger_true_iff]
  intro p hp
  have := mapCount_of_mem X.mItems hX p hp
  have h2 := h p.1
  unfold itemSet.count at h2
  rw [this] at h2
  exact h2

/-! ## Item-set claims -/

/-- C7 (evaluation at the failing input): `getnumItem` on a hash that is not
stored goes through `operator[]` and leaves an entry with count zero, and so
does `islarger` on the receiver; afterwards `isempty()` answers false although
`getSize()` is 0. -/
theorem C7_query_inserts_zero_entry :
    (itemSet.empty.getnumItem 7).1 = 0 ∧
    (itemSet.empty.getnumItem 7).2.mItems = [(7, 0)] ∧
    (itemSet.empty.getnumItem 7).2.isempty = false ∧
    (itemSet.empty.getnumItem 7).2.getSize = 0 ∧
    (itemSet.empty.islarger ⟨[(7, 1)]⟩).2.mItems = [(7, 0)] ∧
    (merge_itemSet ⟨[(7, 1)]⟩ itemSet.empty).2.2.mItems = [(7, 0)] := by
  decide

/-- C8: for well-formed item-sets `A` and `B` with non-negative counts,
`A.issame(B)` is true iff `A.islarger(B)` and `B.islarger(A)` are both true, and
this is so exactly when every hash has the same count in `A` and in `B`. -/
theorem C8_issame_iff_mutual_islarger (A B : itemSet) (hA : A.WF) (hB : B.WF)
    (hAn : A.Nonneg) (hBn : B.Nonneg) :
    ((A.issame B).1 = true ↔ ((A.islarger B).1 = true ∧ (B.islarger A).1 = true)) ∧
    ((A.issame B).1 = true ↔ ∀ h, A.count h = B.count h) := by
  have hA0 : ∀ k, 0 ≤ A.count k := count_nonneg A hAn
  have hB0 : ∀ k, 0 ≤ B.count k := count_nonneg B hBn
  have hA1 : (A.islarger B).2.WF := islarger_WF A B hA
  have e1 : (A.islarger B).1 = true ↔ ∀ k, B.count k ≤ A.count k :=
    islarger_true_iff_count A B hB hA0
  have e2 : (B.islarger A).1 = true ↔ ∀ k, A.count k ≤ B.count k :=
    islarger_true_iff_count B A hA hB0
  have e3 : (B.islarger (A.islarger B).2).1 = true ↔ ∀ k, A.count k ≤ B.count k := by
    rw [islarger_true_iff_count B _ hA1 hB0]
    simp only [islarger_count]
  have key : (A.issame B).1 = true ↔
      ((A.islarger B).1 = true ∧ (B.islarger (A.islarger B).2).1 = true) := by
    unfold itemSet.issame
    by_cases h : (A.islarger B).1 = true
    · simp only [h, if_true, true_and]
    · simp only [h, if_false, false_and]
      simp
  refine ⟨?_, ?_⟩
  · rw [key, e3, e2]
  · rw [key, e1, e3]
    constructor
    · rintro ⟨h1, h2⟩ k
      exact le_antisymm (h2 k) (h1 k)
    · intro h
      exact ⟨fun k => (h k).ge, fun k => (h k).le⟩

/-- C8, applied to `A = {3: 2}` and `B = {3: 2, 5: 0}`. -/
theorem C8_issame_iff_mutual_islarger_witness :
    ((itemSet.issame ⟨[(3, 2)]⟩ ⟨[(3, 2), (5, 0)]⟩).1 = true ↔
      ((itemSet.islarger ⟨[(3, 2)]⟩ ⟨[(3, 2), (5, 0)]⟩).1 = true ∧
        (itemSet.islarger ⟨[(3, 2), (5, 0)]⟩ ⟨[(3, 2)]⟩).1 = true)) ∧
    ((itemSet.issame ⟨[(3, 2)]⟩ ⟨[(3, 2), (5, 0)]⟩).1 = true ↔
      ∀ h, itemSet.count ⟨[(3, 2)]⟩ h = itemSet.count ⟨[(3, 2), (5, 0)]⟩ h) :=
  C8_issame_iff_mutual_islarger ⟨[(3, 2)]⟩ ⟨[(3, 2), (5, 0)]⟩ (by decide) (by decide)
    (by decide) (by decide)

/-- C9: for well-formed item-sets `A` and `B`, the item-set `M` returned by
`merge_itemSet(A, B)` counts every hash `h` as `max(count_A(h), count_B(h))`,
and `M.islarger(A)` and `M.islarger(B)` are true, both for the arguments as they
were before the call and as the call leaves them. -/
theorem C9_merge_is_max_and_dominates (A B : itemSet) (hA : A.WF) (hB : B.WF) :
    (∀ h, (merge_itemSet A B).1.count h = max (A.count h) (B.count h)) ∧
    ((merge_itemSet A B).1.islarger A).1 = true ∧
    ((merge_itemSet A B).1.islarger B).1 = true ∧
    ((merge_itemSet A B).1.islarger (merge_itemSet A B).2.1).1 = true ∧
    ((merge_itemSet A B).1.islarger (merge_itemSet A B).2.2).1 = true := by
  refine ⟨merge_count A B, ?_, ?_, ?_, ?_⟩
  · exact islarger_of_count_le _ A hA (fun k => by rw [merge_count]; exact le_max_left _ _)
  · exact islarger_of_count_le _ B hB (fun k => by rw [merge_count]; exact le_max_right _ _)
  · exact islarger_of_count_le _ _ (merge_fst_WF A B hA)
      (fun k => by rw [merge_count, merge_fst_count]; exact le_max_left _ _)
  · exact islarger_of_count_le _ _ (merge_snd_WF A B hB)
      (fun k => by rw [merge_count, merge_snd_count]; exact le_max_right _ _)

/-- C9, applied to `A = {1: 2, 4: 1}` and `B = {1: 1, 9: 3}`. -/
theorem C9_merge_is_max_and_dominates_witness :
    (∀ h, (merge_itemSet ⟨[(1, 2), (4, 1)]⟩ ⟨[(1, 1), (9, 3)]⟩).1.count h =
      max (itemSet.count ⟨[(1, 2), (4, 1)]⟩ h) (itemSet.count ⟨[(1, 1), (9, 3)]⟩ h)) ∧
    ((merge_itemSet ⟨[(1, 2), (4, 1)]⟩ ⟨[(1, 1), (9, 3)]⟩).1.islarger ⟨[(1, 2), (4, 1)]⟩).1
      = true :=
  have h := C9_merge_is_max_and_dominates ⟨[(1, 2), (4, 1)]⟩ ⟨[(1, 1), (9, 3)]⟩
    (by decide) (by decide)
  ⟨h.1, h.2.1⟩

/-- C10: for every well-formed item-set `A`, `merge_itemSet(A, A)` leaves `A` as
it was and `merge_itemSet(A, A).issame(A)` is true. -/
theorem C10_merge_self_issame (A : itemSet) (hA : A.WF) :
    (merge_itemSet A A).2.1 = A ∧ (merge_itemSet A A).2.2 = A ∧
    ((merge_itemSet A A).1.issame A).1 = true := by
  refine ⟨(merge_self_unchanged A).1, (merge_self_unchanged A).2, ?_⟩
  have hcount : ∀ k, (merge_itemSet A A).1.count k = A.count k := by
    intro k; rw [merge_count]; exact max_self _
  have h1 : ((merge_itemSet A A).1.islarger A).1 = true :=
    islarger_of_count_le _ A hA (fun k => (hcount k).ge)
  have hWF : ((merge_itemSet A A).1.islarger A).2.WF := islarger_WF _ _ (merge_new_WF A A)
  have h2 : (A.islarger ((merge_itemSet A A).1.islarger A).2).1 = true :=
    islarger_of_count_le _ _ hWF (fun k => by rw [islarger_count, hcount])
  unfold itemSet.issame
  simp only [h1, if_true, h2]

/-- C10, applied to `A = {2: 3, 6: 1}`. -/
theorem C10_merge_self_issame_witness :
    ((merge_itemSet ⟨[(2, 3), (6, 1)]⟩ ⟨[(2, 3), (6, 1)]⟩).1.issame ⟨[(2, 3), (6, 1)]⟩).1
      = true :=
  (C10_merge_self_issame ⟨[(2, 3), (6, 1)]⟩ (by decide)).2.2

/-! ## Lemmas on `std::set` -/

theorem mem_setInsert {α : Type} [DecidableEq α] [LT α] [DecidableRel (fun a b : α => a < b)]
    (s : List α) (a x : α) : x ∈ setInsert s a ↔ x = a ∨ x ∈ s := by
  induction s with
  | nil => simp [setInsert]
  | cons b rest ih =>
    unfold setInsert
    by_cases h1 : a < b
    · simp [h1]
    · by_cases h2 : a = b
      · subst h2; simp [h1]
      · simp only [h1, h2, if_false, List.mem_cons, ih]
        tauto

theorem setInsert_perm {α : Type} [DecidableEq α] [LT α] [DecidableRel (fun a b : α => a < b)]
    (s : List α) (a : α) (h : a ∉ s) : (setInsert s a).Perm (a :: s) := by
  induction s with
  | nil => simp [setInsert]
  | cons b rest ih =>
    unfold setInsert
    have hab : a ≠ b := fun e => h (by simp [e])
    have har : a ∉ rest := fun e => h (List.mem_cons_of_mem _ e)
    by_cases h1 : a < b
    · simp [h1]
    · simp only [h1, hab, if_false]
      exact ((ih har).cons b).trans (List.Perm.swap a b rest)

theorem mem_setErase {α : Type} [DecidableEq α] (s : List α) (a x : α) :
    x ∈ setErase s a ↔ x ∈ s ∧ x ≠ a := by
  unfold setErase
  simp [List.mem_filter]

theorem mem_setInsertAll {α : Type} [DecidableEq α] [LT α]
    [DecidableRel (fun a b : α => a < b)] (l s : List α) (x : α) :
    x ∈ setInsertAll s l ↔ x ∈ l ∨ x ∈ s := by
  unfold setInsertAll
  induction l generalizing s with
  | nil => simp
  | cons b rest ih =>
    simp only [List.foldl_cons, ih, mem_setInsert, List.mem_cons]
    tauto

theorem mem_setEraseAll {α : Type} [DecidableEq α] (l s : List α) (x : α) :
    x ∈ setEraseAll s l ↔ x ∈ s ∧ x ∉ l := by
  unfold setEraseAll
  induction l generalizing s with
  | nil => simp
  | cons b rest ih =>
    simp only [List.foldl_cons, ih, mem_setErase, List.mem_cons]
    tauto

/-! ## Lemmas on `addItem`, `getnumItem` and `NodeUseful` -/

theorem getnumItem_fst (I : itemSet) (h : hash_t) : (I.getnumItem h).1 = I.count h :=
  mapIndex_fst I.mItems h

theorem getnumItem_count (I : itemSet) (h k : hash_t) :
    (I.getnumItem h).2.count k = I.count k :=
  mapCount_mapIndex I.mItems h k

theorem getnumItem_WF (I : itemSet) (h : hash_t) (hI : I.WF) : (I.getnumItem h).2.WF :=
  mapWF_mapIndex I.mItems h hI

theorem addItem_count (A : itemSet) (k h : hash_t) :
    (A.addItem k).count h = A.count h + if h = k then 1 else 0 := by
  unfold itemSet.addItem itemSet.count
  simp only [mapCount_mapAssign, mapIndex_fst, mapCount_mapIndex]
  by_cases e : h = k
  · simp [e]
  · simp [e]

theorem empty_count (h : hash_t) : itemSet.empty.count h = 0 := rfl

section CheckerLemmas

variable (MD5encoding : String → hash_t)

theorem transition_eq_some_label {n : Nat} (nd : SDDGNode n) :
    transition "" nd.mInst = some nd.label := by
  unfold SDDGNode.label
  simp

theorem hash_label {n : Nat} (nd : SDDGNode n) :
    MD5encoding nd.label = nodeHash MD5encoding nd.mInst := by
  unfold nodeHash
  rw [transition_eq_some_label nd]
  rfl

theorem NodeUseful_fst {n : Nat} (G : SDDG n) (U : List BasicBlock) (I : itemSet) (x : Fin n) :
    (NodeUseful MD5encoding U (G.node x) I).1 = true ↔
      usefulAt MD5encoding G U I.count x := by
  unfold NodeUseful usefulAt
  rw [← hash_label]
  by_cases h : (G.node x).mInst.getParent ∈ U
  · simp [h, getnumItem_fst]
  · simp [h]

theorem NodeUseful_count {n : Nat} (U : List BasicBlock) (nd : SDDGNode n) (I : itemSet)
    (k : hash_t) : (NodeUseful MD5encoding U nd I).2.count k = I.count k := by
  unfold NodeUseful
  by_cases h : nd.mInst.getParent ∈ U
  · simp [h, getnumItem_count]
  · simp [h]

theorem NodeUseful_WF {n : Nat} (U : List BasicBlock) (nd : SDDGNode n) (I : itemSet)
    (hI : I.WF) : (NodeUseful MD5encoding U nd I).2.WF := by
  unfold NodeUseful
  by_cases h : nd.mInst.getParent ∈ U
  · simp only [h, not_true_eq_false, if_false]
    exact getnumItem_WF I _ hI
  · simp only [h, not_false_eq_true, if_true]
    exact hI

theorem usefulAt_congr {n : Nat} (G : SDDG n) (U : List BasicBlock) (c d : hash_t → Int)
    (h : ∀ k, c k = d k) (x : Fin n) :
    usefulAt MD5encoding G U c x ↔ usefulAt MD5encoding G U d x := by
  unfold usefulAt
  rw [h]

theorem whiteStep_mono {n : Nat} (G : SDDG n) (U : List BasicBlock) (c : hash_t → Int)
    (V W : List (Fin n)) (hVW : ∀ x ∈ V, x ∈ W) (a b : Fin n)
    (h : Relation.ReflTransGen (whiteStep MD5encoding G U c W) a b) :
    Relation.ReflTransGen (whiteStep MD5encoding G U c V) a b := by
  refine Relation.ReflTransGen.mono ?_ h
  intro x y hxy
  exact ⟨hxy.1, hxy.2.1, fun hy => hxy.2.2 (hVW y hy)⟩

/-! ## The specification of `dfsSDDG` -/

theorem StepSpec.refl_of_useless {n : Nat} (G : SDDG n) (U : List BasicBlock) (c : hash_t → Int)
    (roots : List (Fin n)) (st st1 : DfsState n)
    (hI : ∀ k, st1.I.count k = st.I.count k) (hwf : st.I.WF → st1.I.WF)
    (hv : st1.visited = st.visited) (hn : st1.nowSet = st.nowSet)
    (hroots : ∀ y ∈ roots, usefulAt MD5encoding G U c y → y ∈ st.visited) :
    StepSpec MD5encoding G U c roots st st1 [] where
  count_I := hI
  wf_I := hwf
  perm := by simp [hv]
  nodup := by rw [hv]; exact id
  roots_in := by rw [hv]; exact hroots
  new_spec := by simp
  closed := by simp
  count_now := by simp [hn]

theorem StepSpec.append {n : Nat} (G : SDDG n) (U : List BasicBlock) (c : hash_t → Int)
    (L1 L2 : List (Fin n)) (st st1 st2 : DfsState n) (new1 new2 : List (Fin n))
    (h1 : StepSpec MD5encoding G U c L1 st st1 new1)
    (h2 : StepSpec MD5encoding G U c L2 st1 st2 new2) :
    StepSpec MD5encoding G U c (L1 ++ L2) st st2 (new2 ++ new1) where
  count_I := fun k => (h2.count_I k).trans (h1.count_I k)
  wf_I := fun h => h2.wf_I (h1.wf_I h)
  perm := by
    have := h2.perm.trans (List.Perm.append_left new2 h1.perm)
    simpa [List.append_assoc] using this
  nodup := fun h => h2.nodup (h1.nodup h)
  roots_in := by
    intro y hy hu
    rcases List.mem_append.mp hy with hy | hy
    · exact h2.perm.mem_iff.mpr (List.mem_append_right _ (h1.roots_in y hy hu))
    · exact h2.roots_in y hy hu
  new_spec := by
    intro x hx
    have hsub : ∀ z ∈ st.visited, z ∈ st1.visited := fun z hz =>
      h1.perm.mem_iff.mpr (List.mem_append_right _ hz)
    rcases List.mem_append.mp hx with hx | hx
    · obtain ⟨hu, hnv, y, hy, hyu, hyv, hpath⟩ := h2.new_spec x hx
      exact ⟨hu, fun hz => hnv (hsub x hz), y, List.mem_append_right _ hy, hyu,
        fun hz => hyv (hsub y hz), whiteStep_mono MD5encoding G U c _ _ hsub _ _ hpath⟩
    · obtain ⟨hu, hnv, y, hy, hyu, hyv, hpath⟩ := h1.new_spec x hx
      exact ⟨hu, hnv, y, List.mem_append_left _ hy, hyu, hyv, hpath⟩
  closed := by
    intro x hx y hadj hu
    rcases List.mem_append.mp hx with hx | hx
    · exact h2.closed x hx y hadj hu
    · exact h2.perm.mem_iff.mpr (List.mem_append_right _ (h1.closed x hx y hadj hu))
  count_now := by
    intro h
    rw [h2.count_now, h1.count_now, List.countP_append]
    push_cast
    ring

theorem StepSpec.length_le {n : Nat} (G : SDDG n) (U : List BasicBlock) (c : hash_t → Int)
    (L : List (Fin n)) (st st1 : DfsState n) (new : List (Fin n))
    (h : StepSpec MD5encoding G U c L st st1 new) :
    st.visited.length ≤ st1.visited.length := by
  rw [h.perm.length_eq, List.length_append]
  omega

/-- The loop over a list of neighbours inherits the specification of the body. -/
theorem forEachM_spec {n : Nat} (G : SDDG n) (U : List BasicBlock) (c : hash_t → Int)
    (f : Fin n → DfsState n → Option (DfsState n)) (bound : Nat)
    (hf : ∀ v st, (∀ k, st.I.count k = c k) → st.visited.Nodup →
      bound ≤ st.visited.length →
      ∃ st1 new, f v st = some st1 ∧ StepSpec MD5encoding G U c [v] st st1 new)
    (L : List (Fin n)) (st : DfsState n) (hc : ∀ k, st.I.count k = c k)
    (hnd : st.visited.Nodup) (hb : bound ≤ st.visited.length) :
    ∃ st1 new, forEachM f L st = some st1 ∧ StepSpec MD5encoding G U c L st st1 new := by
  induction L generalizing st with
  | nil =>
    exact ⟨st, [], rfl,
      StepSpec.refl_of_useless MD5encoding G U c [] st st (fun _ => rfl) id rfl rfl (by simp)⟩
  | cons v rest ih =>
    obtain ⟨st1, new1, e1, s1⟩ := hf v st hc hnd hb
    have hc1 : ∀ k, st1.I.count k = c k := fun k => (s1.count_I k).trans (hc k)
    have hb1 : bound ≤ st1.visited.length :=
      le_trans hb (StepSpec.length_le MD5encoding G U c _ _ _ _ s1)
    obtain ⟨st2, new2, e2, s2⟩ := ih st1 hc1 (s1.nodup hnd) hb1
    refine ⟨st2, new2 ++ new1, ?_, ?_⟩
    · simp only [forEachM, e1, e2]
    · exact StepSpec.append MD5encoding G U c [v] rest st st1 st2 new1 new2 s1 s2

/-- Total correctness of `dfsSDDG`: with fuel for every node not yet visited the
call returns, and the returned state meets the specification. -/
theorem dfsSDDG_spec {n : Nat} (G : SDDG n) (U : List BasicBlock) (c : hash_t → Int)
    (fuel : Nat) : ∀ (v : Fin n) (st : DfsState n), (∀ k, st.I.count k = c k) →
      st.visited.Nodup → n ≤ fuel + st.visited.length →
      ∃ st1 new, dfsSDDG MD5encoding G U fuel v st = some st1 ∧
        StepSpec MD5encoding G U c [v] st st1 new := by
  induction fuel with
  | zero =>
    intro v st hc hnd hb
    have huse := NodeUseful_fst MD5encoding G U st.I v
    by_cases hu : (NodeUseful MD5encoding U (G.node v) st.I).1 = true
    · by_cases hv : v ∈ st.visited
      · refine ⟨{ st with I := (NodeUseful MD5encoding U (G.node v) st.I).2 }, [], ?_, ?_⟩
        · unfold dfsSDDG; simp [hu, hv]
        · exact StepSpec.refl_of_useless MD5encoding G U c [v] st _
            (fun k => NodeUseful_count MD5encoding U _ _ k)
            (fun h => NodeUseful_WF MD5encoding U _ _ h) rfl rfl
            (by intro y hy _; simp at hy; subst hy; exact hv)
      · exfalso
        have h1 : (v :: st.visited).Nodup := List.nodup_cons.mpr ⟨hv, hnd⟩
        have h2 := List.Nodup.length_le_card h1
        simp at h2 hb
        omega
    · refine ⟨{ st with I := (NodeUseful MD5encoding U (G.node v) st.I).2 }, [], ?_, ?_⟩
      · unfold dfsSDDG; simp [hu]
      · refine StepSpec.refl_of_useless MD5encoding G U c [v] st _
          (fun k => NodeUseful_count MD5encoding U _ _ k)
          (fun h => NodeUseful_WF MD5encoding U _ _ h) rfl rfl ?_
        intro y hy hyu
        simp at hy; subst hy
        exact absurd (huse.mpr ((usefulAt_congr MD5encoding G U _ _ hc y).mpr hyu)) hu
  | succ fuel ih =>
    intro v st hc hnd hb
    have huse := NodeUseful_fst MD5encoding G U st.I v
    by_cases hu : (NodeUseful MD5encoding U (G.node v) st.I).1 = true
    · by_cases hv : v ∈ st.visited
      · refine ⟨{ st with I := (NodeUseful MD5encoding U (G.node v) st.I).2 }, [], ?_, ?_⟩
        · unfold dfsSDDG; simp [hu, hv]
        · exact StepSpec.refl_of_useless MD5encoding G U c [v] st _
            (fun k => NodeUseful_count MD5encoding U _ _ k)
            (fun h => NodeUseful_WF MD5encoding U _ _ h) rfl rfl
            (by intro y hy _; simp at hy; subst hy; exact hv)
      · -- the node is entered
        have hvu : usefulAt MD5encoding G U c v :=
          (usefulAt_congr MD5encoding G U _ _ hc v).mp (huse.mp hu)
        let st1 : DfsState n :=
          { I := (NodeUseful MD5encoding U (G.node v) st.I).2
            nowSet := st.nowSet.addItem (MD5encoding (G.node v).label)
            visited := setInsert st.visited v }
        have hperm1 : st1.visited.Perm (v :: st.visited) := setInsert_perm st.visited v hv
        have hc1 : ∀ k, st1.I.count k = c k := fun k =>
          (NodeUseful_count MD5encoding U _ _ k).trans (hc k)
        have hnd1 : st1.visited.Nodup :=
          hperm1.nodup_iff.mpr (List.nodup_cons.mpr ⟨hv, hnd⟩)
        have hb1 : n ≤ fuel + st1.visited.length := by
          rw [hperm1.length_eq]; simp; omega
        have hloop := fun L s hcs hnds (hbs : n - fuel ≤ s.visited.length) =>
          forEachM_spec MD5encoding G U c (dfsSDDG MD5encoding G U fuel) (n - fuel)
            (fun v s hcs hnds hbs => ih v s hcs hnds (by omega)) L s hcs hnds hbs
        obtain ⟨st2, new2, e2, s2⟩ := hloop (G.node v).mSuccessors st1 hc1 hnd1 (by omega)
        have hc2 : ∀ k, st2.I.count k = c k := fun k => (s2.count_I k).trans (hc1 k)
        have hb2 : n - fuel ≤ st2.visited.length :=
          le_trans (by omega) (StepSpec.length_le MD5encoding G U c _ _ _ _ s2)
        obtain ⟨st3, new3, e3, s3⟩ :=
          hloop (G.node v).mPredecessors st2 hc2 (s2.nodup hnd1) hb2
        have s23 := StepSpec.append MD5encoding G U c _ _ st1 st2 st3 new2 new3 s2 s3
        have hsub1 : ∀ z ∈ st.visited, z ∈ st1.visited := fun z hz =>
          hperm1.mem_iff.mpr (List.mem_cons_of_mem _ hz)
        have hv1 : v ∈ st1.visited := hperm1.mem_iff.mpr (List.mem_cons_self _ _)
        refine ⟨st3, (new3 ++ new2) ++ [v], ?_, ?_⟩
        · unfold dfsSDDG
          simp only [hu, hv, Bool.not_true, decide_False, Bool.or_self, Bool.false_eq_true,
            if_false]
          show (match forEachM (dfsSDDG MD5encoding G U fuel) (G.node v).mSuccessors st1 with
            | none => none
            | some st2 => forEachM (dfsSDDG MD5encoding G U fuel) (G.node v).mPredecessors st2)
            = some st3
          rw [e2]
          exact e3
        · refine
            { count_I := fun k => (s23.count_I k).trans (NodeUseful_count MD5encoding U _ _ k)
              wf_I := fun h => s23.wf_I (NodeUseful_WF MD5encoding U _ _ h)
              perm := ?_
              nodup := fun _ => s23.nodup hnd1
              roots_in := ?_
              new_spec := ?_
              closed := ?_
              count_now := ?_ }
          · have := s23.perm.trans (List.Perm.append_left (new3 ++ new2) hperm1)
            simpa [List.append_assoc] using this
          · intro y hy _
            simp at hy; subst hy
            exact s23.perm.mem_iff.mpr (List.mem_append_right _ hv1)
          · intro x hx
            rcases List.mem_append.mp hx with hx | hx
            · obtain ⟨hxu, hxv, y, hy, hyu, hyv, hpath⟩ := s23.new_spec x hx
              refine ⟨hxu, fun hz => hxv (hsub1 x hz), v, by simp, hvu, hv, ?_⟩
              have hstep : whiteStep MD5encoding G U c st.visited v y :=
                ⟨List.mem_append.mp hy, hyu, fun hz => hyv (hsub1 y hz)⟩
              exact Relation.ReflTransGen.head hstep
                (whiteStep_mono MD5encoding G U c _ _ hsub1 _ _ hpath)
            · simp at hx; subst hx
              exact ⟨hvu, hv, x, by simp, hvu, hv, Relation.ReflTransGen.refl⟩
          · intro x hx y hadj hyu
            rcases List.mem_append.mp hx with hx | hx
            · exact s23.closed x hx y hadj hyu
            · simp at hx; subst hx
              exact s23.roots_in y (List.mem_append.mpr hadj) hyu
          · intro h
            rw [s23.count_now]
            show (st.nowSet.addItem _).count h + _ = _
            rw [addItem_count, List.countP_append, List.countP_append]
            simp only [List.countP_cons, List.countP_nil, hash_label]
            by_cases e : h = nodeHash MD5encoding (G.node v).mInst
            · subst e; simp; ring
            · have e2 : ¬ nodeHash MD5encoding (G.node v).mInst = h := fun x => e x.symm
              simp [e, e2]
    · refine ⟨{ st with I := (NodeUseful MD5encoding U (G.node v) st.I).2 }, [], ?_, ?_⟩
      · unfold dfsSDDG; simp [hu]
      · refine StepSpec.refl_of_useless MD5encoding G U c [v] st _
          (fun k => NodeUseful_count MD5encoding U _ _ k)
          (fun h => NodeUseful_WF MD5encoding U _ _ h) rfl rfl ?_
        intro y hy hyu
        simp at hy; subst hy
        exact absurd (huse.mpr ((usefulAt_congr MD5encoding G U _ _ hc y).mpr hyu)) hu

end CheckerLemmas

section CheckLemmas

variable (MD5encoding : String → hash_t)

/-! ## Fuel of `dfsSDDG` -/

theorem forEachM_mono {α σ : Type} (f g : α → σ → Option σ)
    (h : ∀ x s s1, f x s = some s1 → g x s = some s1) (L : List α) (s s1 : σ)
    (e : forEachM f L s = some s1) : forEachM g L s = some s1 := by
  induction L generalizing s with
  | nil => exact e
  | cons x rest ih =>
    unfold forEachM at e ⊢
    cases hx : f x s with
    | none => simp [hx] at e
    | some s2 =>
      simp only [hx] at e
      simp only [h x s s2 hx]
      exact ih s2 e

theorem dfsSDDG_mono_succ {n : Nat} (G : SDDG n) (U : List BasicBlock) (fuel : Nat) :
    ∀ (v : Fin n) (st st1 : DfsState n), dfsSDDG MD5encoding G U fuel v st = some st1 →
      dfsSDDG MD5encoding G U (fuel + 1) v st = some st1 := by
  induction fuel with
  | zero =>
    intro v st st1 e
    unfold dfsSDDG at e ⊢
    by_cases hc : (!(NodeUseful MD5encoding U (G.node v) st.I).1 || decide (v ∈ st.visited)) = true
    · simp only [hc, if_true] at e ⊢
      exact e
    · simp only [hc, if_false] at e
      cases e
  | succ fuel ih =>
    intro v st st1 e
    unfold dfsSDDG at e ⊢
    by_cases hc : (!(NodeUseful MD5encoding U (G.node v) st.I).1 || decide (v ∈ st.visited)) = true
    · simp only [hc, if_true] at e ⊢
      exact e
    · simp only [hc, if_false] at e ⊢
      cases h2 : forEachM (dfsSDDG MD5encoding G U fuel) (G.node v).mSuccessors
          { I := (NodeUseful MD5encoding U (G.node v) st.I).2
            nowSet := st.nowSet.addItem (MD5encoding (G.node v).label)
            visited := setInsert st.visited v } with
      | none => simp [h2] at e
      | some st2 =>
        simp only [h2] at e
        have h2' := forEachM_mono _ (dfsSDDG MD5encoding G U (fuel + 1)) ih _ _ _ h2
        have e' := forEachM_mono _ (dfsSDDG MD5encoding G U (fuel + 1)) ih _ _ _ e
        simp only [h2']
        exact e'

theorem dfsSDDG_mono {n : Nat} (G : SDDG n) (U : List BasicBlock) (fuel fuel1 : Nat)
    (hle : fuel ≤ fuel1) (v : Fin n) (st st1 : DfsState n)
    (e : dfsSDDG MD5encoding G U fuel v st = some st1) :
    dfsSDDG MD5encoding G U fuel1 v st = some st1 := by
  induction hle with
  | refl => exact e
  | step _ ih => exact dfsSDDG_mono_succ MD5encoding G U _ v st st1 ih

/-- Partial correctness of `dfsSDDG`: whatever the fuel, a returned state meets
the specification. -/
theorem dfsSDDG_spec_of_eq {n : Nat} (G : SDDG n) (U : List BasicBlock) (c : hash_t → Int)
    (fuel : Nat) (v : Fin n) (st st1 : DfsState n) (hc : ∀ k, st.I.count k = c k)
    (hnd : st.visited.Nodup) (e : dfsSDDG MD5encoding G U fuel v st = some st1) :
    ∃ new, StepSpec MD5encoding G U c [v] st st1 new := by
  obtain ⟨st2, new, e2, s2⟩ :=
    dfsSDDG_spec MD5encoding G U c (fuel + n) v st hc hnd (by omega)
  have e3 := dfsSDDG_mono MD5encoding G U fuel (fuel + n) (by omega) v st st1 e
  rw [e3] at e2
  cases e2
  exact ⟨new, s2⟩

/-! ## The loop of `check` -/

theorem islarger_false_of_count_lt (A I : itemSet) (k : hash_t) (h0 : 0 ≤ A.count k)
    (hlt : A.count k < I.count k) : (A.islarger I).1 = false := by
  by_contra hne
  have ht : (A.islarger I).1 = true := by simpa using hne
  rw [islarger_true_iff] at ht
  unfold itemSet.count mapCount at hlt
  cases hf : mapFind I.mItems k with
  | none =>
    rw [hf] at hlt
    simp at hlt
    unfold itemSet.count mapCount at h0
    omega
  | some v =>
    rw [hf] at hlt
    have := ht (k, v) (mapFind_some_mem _ _ _ hf)
    simp only [Option.getD_some] at hlt
    unfold itemSet.count mapCount at this
    simp only at this
    omega

theorem StepSpec.new_nodup {n : Nat} (G : SDDG n) (U : List BasicBlock) (c : hash_t → Int)
    (L : List (Fin n)) (st st1 : DfsState n) (new : List (Fin n))
    (h : StepSpec MD5encoding G U c L st st1 new) (hnd : st.visited.Nodup) : new.Nodup :=
  (List.nodup_append.mp (h.perm.nodup_iff.mp (h.nodup hnd))).1

theorem StepSpec.closedSet {n : Nat} (G : SDDG n) (U : List BasicBlock) (c : hash_t → Int)
    (L : List (Fin n)) (st st1 : DfsState n) (new : List (Fin n))
    (h : StepSpec MD5encoding G U c L st st1 new)
    (hcl : closedSet MD5encoding G U c st.visited) :
    closedSet MD5encoding G U c st1.visited := by
  intro x hx
  rcases List.mem_append.mp (h.perm.mem_iff.mp hx) with hx | hx
  · exact ⟨(h.new_spec x hx).1, h.closed x hx⟩
  · exact ⟨(hcl x hx).1, fun y hadj hu =>
      h.perm.mem_iff.mpr (List.mem_append_right _ ((hcl x hx).2 y hadj hu))⟩

/-- The loop of `check` returns with enough fuel. -/
theorem checkLoop_total {n : Nat} (G : SDDG n) (U : List BasicBlock) (fuel : Nat)
    (hfuel : n ≤ fuel) (L : List (Fin n)) : ∀ (I : itemSet) (V : List (Fin n)), V.Nodup →
      ∃ r, checkLoop MD5encoding G U fuel L I V = some r := by
  induction L with
  | nil => intro I V _; exact ⟨_, rfl⟩
  | cons v rest ih =>
    intro I V hnd
    unfold checkLoop
    by_cases hv : v ∈ V
    · simp only [hv, if_true]
      exact ih I V hnd
    · simp only [hv, if_false]
      obtain ⟨st1, new, e1, s1⟩ := dfsSDDG_spec MD5encoding G U I.count fuel v
        ⟨I, itemSet.empty, V⟩ (fun _ => rfl) hnd (by omega)
      simp only [e1]
      by_cases hl : (st1.nowSet.islarger st1.I).1 = true
      · simp only [hl, if_true]
        exact ⟨_, rfl⟩
      · simp only [hl, if_false]
        exact ih st1.I st1.visited (s1.nodup hnd)

/-- The invariants of the loop of `check`: the target keeps its counts and its
well-formedness, and the visited set stays closed and duplicate-free. -/
theorem checkLoop_inv {n : Nat} (G : SDDG n) (U : List BasicBlock) (c : hash_t → Int)
    (fuel : Nat) (L : List (Fin n)) : ∀ (I : itemSet) (V : List (Fin n))
      (r : Bool × itemSet × List (Fin n)), (∀ k, I.count k = c k) → V.Nodup →
      closedSet MD5encoding G U c V →
      checkLoop MD5encoding G U fuel L I V = some r →
      (∀ k, r.2.1.count k = c k) ∧ (I.WF → r.2.1.WF) ∧ r.2.2.Nodup ∧
        closedSet MD5encoding G U c r.2.2 ∧ (∀ x ∈ V, x ∈ r.2.2) := by
  induction L with
  | nil =>
    intro I V r hc hnd hcl e
    simp only [checkLoop, Option.some.injEq] at e
    subst e
    exact ⟨hc, id, hnd, hcl, fun _ h => h⟩
  | cons v rest ih =>
    intro I V r hc hnd hcl e
    unfold checkLoop at e
    by_cases hv : v ∈ V
    · simp only [hv, if_true] at e
      exact ih I V r hc hnd hcl e
    · simp only [hv, if_false] at e
      cases e1 : dfsSDDG MD5encoding G U fuel v ⟨I, itemSet.empty, V⟩ with
      | none => simp [e1] at e
      | some st1 =>
        simp only [e1] at e
        obtain ⟨new, s1⟩ := dfsSDDG_spec_of_eq MD5encoding G U c fuel v _ st1 hc hnd e1
        have hc1 : ∀ k, st1.I.count k = c k := fun k => (s1.count_I k).trans (hc k)
        have hcl1 := StepSpec.closedSet MD5encoding G U c _ _ _ _ s1 hcl
        have hsub : ∀ x ∈ V, x ∈ st1.visited := fun x hx =>
          s1.perm.mem_iff.mpr (List.mem_append_right _ hx)
        by_cases hl : (st1.nowSet.islarger st1.I).1 = true
        · simp only [hl, if_true, Option.some.injEq] at e
          subst e
          exact ⟨hc1, s1.wf_I, s1.nodup hnd, hcl1, hsub⟩
        · simp only [hl, if_false] at e
          obtain ⟨h1, h2, h3, h4, h5⟩ := ih st1.I st1.visited r hc1 (s1.nodup hnd) hcl1 e
          exact ⟨h1, fun h => h2 (s1.wf_I h), h3, h4, fun x hx => h5 x (hsub x hx)⟩

/-- When the target asks for more occurrences of a hash than any set of
distinct useful nodes can supply, the loop of `check` answers false. -/
theorem checkLoop_false_of_bound {n : Nat} (G : SDDG n) (U : List BasicBlock)
    (c : hash_t → Int) (h : hash_t) (B : Nat) (hB : (B : Int) < c h)
    (hbound : ∀ new : List (Fin n), new.Nodup →
      (∀ x ∈ new, usefulAt MD5encoding G U c x) →
      new.countP (fun x => decide (nodeHash MD5encoding (G.node x).mInst = h)) ≤ B)
    (fuel : Nat) (L : List (Fin n)) : ∀ (I : itemSet) (V : List (Fin n))
      (r : Bool × itemSet × List (Fin n)), (∀ k, I.count k = c k) → V.Nodup →
      checkLoop MD5encoding G U fuel L I V = some r → r.1 = false := by
  induction L with
  | nil =>
    intro I V r _ _ e
    simp only [checkLoop, Option.some.injEq] at e
    subst e
    rfl
  | cons v rest ih =>
    intro I V r hc hnd e
    unfold checkLoop at e
    by_cases hv : v ∈ V
    · simp only [hv, if_true] at e
      exact ih I V r hc hnd e
    · simp only [hv, if_false] at e
      cases e1 : dfsSDDG MD5encoding G U fuel v ⟨I, itemSet.empty, V⟩ with
      | none => simp [e1] at e
      | some st1 =>
        simp only [e1] at e
        obtain ⟨new, s1⟩ := dfsSDDG_spec_of_eq MD5encoding G U c fuel v _ st1 hc hnd e1
        have hc1 : ∀ k, st1.I.count k = c k := fun k => (s1.count_I k).trans (hc k)
        have hnow : st1.nowSet.count h =
            (new.countP (fun x => decide (nodeHash MD5encoding (G.node x).mInst = h)) : Nat) := by
          rw [s1.count_now]
          simp [empty_count]
        have hle := hbound new (StepSpec.new_nodup MD5encoding G U c _ _ _ _ s1 hnd)
          (fun x hx => (s1.new_spec x hx).1)
        have hl : (st1.nowSet.islarger st1.I).1 = false := by
          apply islarger_false_of_count_lt _ _ h
          · rw [hnow]; exact Int.natCast_nonneg _
          · rw [hnow, hc1]
            have : ((new.countP (fun x => decide (nodeHash MD5encoding (G.node x).mInst = h))
              : Nat) : Int) ≤ (B : Int) := by exact_mod_cast hle
            omega
        simp only [hl, Bool.false_eq_true, if_false] at e
        exact ih st1.I st1.visited r hc1 (s1.nodup hnd) e

end CheckLemmas

/-! ## Lemmas on `addShare` -/

theorem SDDG.extendedBy_refl {n : Nat} (G : SDDG n) : G.extendedBy G :=
  ⟨rfl, fun _ => ⟨rfl, fun _ h => h, fun _ h => h⟩⟩

theorem SDDG.extendedBy_trans {n : Nat} (G G1 G2 : SDDG n) (h1 : G.extendedBy G1)
    (h2 : G1.extendedBy G2) : G.extendedBy G2 :=
  ⟨h2.1.trans h1.1, fun x =>
    ⟨((h2.2 x).1).trans ((h1.2 x).1),
      fun y hy => (h2.2 x).2.1 y ((h1.2 x).2.1 y hy),
      fun y hy => (h2.2 x).2.2 y ((h1.2 x).2.2 y hy)⟩⟩

theorem SDDG.linked_of_extendedBy {n : Nat} (G G1 : SDDG n) (h : G.extendedBy G1) (a b : Fin n)
    (hl : G.linked a b) : G1.linked a b :=
  ⟨(h.2 a).2.1 b hl.1, (h.2 a).2.2 b hl.2.1, (h.2 b).2.1 a hl.2.2.1, (h.2 b).2.2 a hl.2.2.2⟩

theorem setNode_addSuccessor_extends {n : Nat} (G : SDDG n) (i d : Fin n) :
    G.extendedBy (G.setNode i ((G.node i).addSuccessor d)) := by
  refine ⟨rfl, fun x => ?_⟩
  simp only [SDDG.setNode, SDDGNode.addSuccessor]
  by_cases hx : x = i
  · subst hx
    simp only [if_true, List.mem_append, true_and]
    exact ⟨fun y hy => Or.inl hy, fun y hy => hy⟩
  · simp only [hx, if_false, true_and]
    exact ⟨fun y hy => hy, fun y hy => hy⟩

theorem setNode_addPredecessor_extends {n : Nat} (G : SDDG n) (i d : Fin n) :
    G.extendedBy (G.setNode i ((G.node i).addPredecessor d)) := by
  refine ⟨rfl, fun x => ?_⟩
  simp only [SDDG.setNode, SDDGNode.addPredecessor]
  by_cases hx : x = i
  · subst hx
    simp only [if_true, List.mem_append, true_and]
    exact ⟨fun y hy => hy, fun y hy => Or.inl hy⟩
  · simp only [hx, if_false, true_and]
    exact ⟨fun y hy => hy, fun y hy => hy⟩

theorem setNode_addSuccessor_mem {n : Nat} (G : SDDG n) (i d : Fin n) :
    d ∈ ((G.setNode i ((G.node i).addSuccessor d)).node i).mSuccessors := by
  simp [SDDG.setNode, SDDGNode.addSuccessor]

theorem setNode_addPredecessor_mem {n : Nat} (G : SDDG n) (i d : Fin n) :
    d ∈ ((G.setNode i ((G.node i).addPredecessor d)).node i).mPredecessors := by
  simp [SDDG.setNode, SDDGNode.addPredecessor]

theorem addSharePair_extends {n : Nat} (inShare : Fin n → Fin n → Bool) (G : SDDG n)
    (f s : Fin n) : G.extendedBy (addSharePair inShare G f s) := by
  unfold addSharePair
  by_cases h : inShare f s = true
  · simp only [h, if_true]
    exact SDDG.extendedBy_trans _ _ _ (setNode_addSuccessor_extends G f s)
      (SDDG.extendedBy_trans _ _ _ (setNode_addPredecessor_extends _ f s)
        (SDDG.extendedBy_trans _ _ _ (setNode_addSuccessor_extends _ s f)
          (setNode_addPredecessor_extends _ s f)))
  · simp only [h]
    exact SDDG.extendedBy_refl G

theorem addSharePair_linked {n : Nat} (inShare : Fin n → Fin n → Bool) (G : SDDG n)
    (f s : Fin n) (h : inShare f s = true) : (addSharePair inShare G f s).linked f s := by
  unfold addSharePair
  simp only [h, if_true]
  have e1 := setNode_addSuccessor_extends G f s
  have m1 := setNode_addSuccessor_mem G f s
  generalize G.setNode f ((G.node f).addSuccessor s) = G1 at e1 m1 ⊢
  have e2 := setNode_addPredecessor_extends G1 f s
  have m2 := setNode_addPredecessor_mem G1 f s
  generalize G1.setNode f ((G1.node f).addPredecessor s) = G2 at e2 m2 ⊢
  have e3 := setNode_addSuccessor_extends G2 s f
  have m3 := setNode_addSuccessor_mem G2 s f
  generalize G2.setNode s ((G2.node s).addSuccessor f) = G3 at e3 m3 ⊢
  have e4 := setNode_addPredecessor_extends G3 s f
  have m4 := setNode_addPredecessor_mem G3 s f
  generalize G3.setNode s ((G3.node s).addPredecessor f) = G4 at e4 m4 ⊢
  exact ⟨(e4.2 f).2.1 s ((e3.2 f).2.1 s ((e2.2 f).2.1 s m1)),
    (e4.2 f).2.2 s ((e3.2 f).2.2 s m2), (e4.2 s).2.1 f m3, m4⟩

theorem foldl_extends {n : Nat} {α : Type} (step : SDDG n → α → SDDG n)
    (hstep : ∀ (G : SDDG n) (x : α), G.extendedBy (step G x)) (L : List α) (G : SDDG n) :
    G.extendedBy (L.foldl step G) := by
  induction L generalizing G with
  | nil => exact SDDG.extendedBy_refl G
  | cons x rest ih =>
    exact SDDG.extendedBy_trans _ _ _ (hstep G x) (ih (step G x))

theorem addShare_inner_linked {n : Nat} (inShare : Fin n → Fin n → Bool) (L : List (Fin n))
    (G : SDDG n) (f s : Fin n) (hs : s ∈ L) (h : inShare f s = true) :
    (L.foldl (fun G2 snd => addSharePair inShare G2 f snd) G).linked f s := by
  induction L generalizing G with
  | nil => simp at hs
  | cons x rest ih =>
    simp only [List.foldl_cons]
    by_cases hx : s ∈ rest
    · exact ih _ hx
    · have hsx : s = x := by
        rcases List.mem_cons.mp hs with e | e
        · exact e
        · exact absurd e hx
      subst hsx
      exact SDDG.linked_of_extendedBy _ _
        (foldl_extends _ (fun G x => addSharePair_extends inShare G f x) rest _) f s
        (addSharePair_linked inShare G f s h)

theorem addShare_extends {n : Nat} (inShare : Fin n → Fin n → Bool) (G : SDDG n) :
    G.extendedBy (addShare inShare G) := by
  unfold addShare
  exact foldl_extends _
    (fun G1 f => foldl_extends _ (fun G2 s => addSharePair_extends inShare G2 f s) _ G1) _ G

/-- After `addShare`, two interesting nodes in the share relation are linked in
both directions. -/
theorem addShare_linked {n : Nat} (inShare : Fin n → Fin n → Bool) (G : SDDG n) (a b : Fin n)
    (ha : a ∈ G.interesting) (hb : b ∈ G.interesting) (h : inShare a b = true) :
    (addShare inShare G).linked a b := by
  unfold addShare
  generalize hL : G.interesting = L at ha hb
  have key : ∀ (L1 : List (Fin n)) (G0 : SDDG n), a ∈ L1 →
      (L1.foldl (fun G1 fst => L.foldl (fun G2 snd => addSharePair inShare G2 fst snd) G1)
        G0).linked a b := by
    intro L1
    induction L1 with
    | nil => intro _ h0; simp at h0
    | cons x rest ih =>
      intro G0 hmem
      simp only [List.foldl_cons]
      by_cases hx : a ∈ rest
      · exact ih _ hx
      · have hax : a = x := by
          rcases List.mem_cons.mp hmem with e | e
          · exact e
          · exact absurd e hx
        subst hax
        exact SDDG.linked_of_extendedBy _ _
          (foldl_extends _
            (fun G1 f => foldl_extends _ (fun G2 s => addSharePair_extends inShare G2 f s) _ G1)
            rest _) a b (addShare_inner_linked inShare L G0 a b hb h)
  exact key L G ha

section ComponentLemmas

variable (MD5encoding : String → hash_t)

theorem usefulAt_of_extendedBy {n : Nat} (G G1 : SDDG n) (h : G.extendedBy G1)
    (U : List BasicBlock) (c : hash_t → Int) (x : Fin n) :
    usefulAt MD5encoding G1 U c x ↔ usefulAt MD5encoding G U c x := by
  unfold usefulAt
  rw [(h.2 x).1]

theorem adjacent_of_extendedBy {n : Nat} (G G1 : SDDG n) (h : G.extendedBy G1) (x y : Fin n)
    (hadj : adjacent G x y) : adjacent G1 x y := by
  rcases hadj with hs | hp
  · exact Or.inl ((h.2 x).2.1 y hs)
  · exact Or.inr ((h.2 x).2.2 y hp)

/-- The nodes a duplicate-free list of nodes counts under a hash are at most
the nodes of the graph with that hash. -/
theorem countP_le_card {n : Nat} (p : Fin n → Prop) [DecidablePred p] (new : List (Fin n))
    (hnd : new.Nodup) :
    new.countP (fun x => decide (p x)) ≤ (Finset.univ.filter p).card := by
  rw [List.countP_eq_length_filter]
  have h1 : (new.filter (fun x => decide (p x))).Nodup := hnd.filter _
  rw [← List.toFinset_card_of_nodup h1]
  apply Finset.card_le_card
  intro x hx
  simp only [List.mem_toFinset, List.mem_filter, decide_eq_true_eq] at hx
  simp [hx.2]

theorem countP_eq_card {n : Nat} (p q : Fin n → Prop) [DecidablePred p] [DecidablePred q]
    (new : List (Fin n)) (hnd : new.Nodup) (hall : ∀ x, x ∈ new ↔ q x) :
    new.countP (fun x => decide (p x)) = (Finset.univ.filter (fun x => q x ∧ p x)).card := by
  rw [List.countP_eq_length_filter]
  have h1 : (new.filter (fun x => decide (p x))).Nodup := hnd.filter _
  rw [← List.toFinset_card_of_nodup h1]
  congr 1
  ext x
  simp only [List.mem_toFinset, List.mem_filter, decide_eq_true_eq, Finset.mem_filter,
    Finset.mem_univ, true_and, hall]

/-- When the useful nodes form one component whose hashes dominate the target,
the loop of `check`, started with nothing visited on a list that contains a
useful node, answers true. -/
theorem checkLoop_true_of_connected {n : Nat} (G : SDDG n) (U : List BasicBlock)
    (c : hash_t → Int) (fuel : Nat) (hfuel : n ≤ fuel)
    (hconn : ∀ x y, usefulAt MD5encoding G U c x → usefulAt MD5encoding G U c y →
      Relation.ReflTransGen (fun p q => adjacent G p q ∧ usefulAt MD5encoding G U c q) x y)
    (hdom : ∀ k, c k ≤ ((Finset.univ.filter (fun x =>
      usefulAt MD5encoding G U c x ∧ nodeHash MD5encoding (G.node x).mInst = k)).card : Int))
    (L : List (Fin n)) : ∀ (I : itemSet), I.WF → (∀ k, I.count k = c k) →
      (∃ v ∈ L, usefulAt MD5encoding G U c v) →
      ∃ I1 V1, checkLoop MD5encoding G U fuel L I [] = some (true, I1, V1) := by
  induction L with
  | nil => intro I _ _ h; obtain ⟨v, hv, _⟩ := h; simp at hv
  | cons v rest ih =>
    intro I hwf hc hex
    unfold checkLoop
    simp only [List.not_mem_nil, if_false]
    obtain ⟨st1, new, e1, s1⟩ := dfsSDDG_spec MD5encoding G U c fuel v
      ⟨I, itemSet.empty, []⟩ hc List.nodup_nil (by simp; omega)
    simp only [e1]
    have hc1 : ∀ k, st1.I.count k = c k := fun k => (s1.count_I k).trans (hc k)
    have hmem : ∀ x, x ∈ st1.visited ↔ x ∈ new := fun x => by
      rw [s1.perm.mem_iff]; simp
    have hndnew : new.Nodup := StepSpec.new_nodup MD5encoding G U c _ _ _ _ s1 List.nodup_nil
    by_cases hl : (st1.nowSet.islarger st1.I).1 = true
    · simp only [hl, if_true]
      exact ⟨_, _, rfl⟩
    · simp only [hl, if_false]
      have hvn : ¬ usefulAt MD5encoding G U c v := by
        intro hvu
        apply hl
        have hv_new : v ∈ new := (hmem v).mp (s1.roots_in v (by simp) hvu)
        have hall : ∀ y, y ∈ new ↔ usefulAt MD5encoding G U c y := by
          intro y
          constructor
          · intro hy; exact (s1.new_spec y hy).1
          · intro hyu
            have hpath := hconn v y hvu hyu
            clear hyu
            induction hpath with
            | refl => exact hv_new
            | tail _ hstep ih2 => exact (hmem _).mp (s1.closed _ ih2 _ hstep.1 hstep.2)
        apply islarger_of_count_le _ _ (s1.wf_I hwf)
        intro k
        rw [hc1, s1.count_now, empty_count, zero_add,
          countP_eq_card (fun x => nodeHash MD5encoding (G.node x).mInst = k)
            (usefulAt MD5encoding G U c) new hndnew hall]
        exact hdom k
      have hnew_nil : new = [] := by
        apply List.eq_nil_iff_forall_not_mem.mpr
        intro x hx
        obtain ⟨_, _, y, hy, hyu, _⟩ := s1.new_spec x hx
        simp at hy
        subst hy
        exact hvn hyu
      have hvis : st1.visited = [] := by
        apply List.eq_nil_iff_forall_not_mem.mpr
        intro x hx
        rw [hmem, hnew_nil] at hx
        simp at hx
      rw [hvis]
      apply ih st1.I (s1.wf_I hwf) hc1
      obtain ⟨w, hw, hwu⟩ := hex
      rcases List.mem_cons.mp hw with e | e
      · subst e; exact absurd hwu hvn
      · exact ⟨w, e, hwu⟩

end ComponentLemmas

section SingleBlock

variable (MD5encoding : String → hash_t)

/-- On a procedure with a single block without successor, `CountSupport` is one
call of `check` with that block added to the activation set. -/
theorem CountSupport_single_block {n : Nat} (b : BasicBlock) (F : Function)
    (hF : F.blocks = [b]) (hsucc : F.succ b = []) (G : SDDG n)
    (inShare : Fin n → Fin n → Bool) (fuel : Nat) (hfuel : 1 ≤ fuel) (I : itemSet)
    (U : List BasicBlock) :
    CountSupport MD5encoding F (fun _ : Fin 1 => [b]) G inShare fuel I U =
      (check MD5encoding (addShare inShare G) (setInsertAll U [b]) fuel I).map
        (fun r => ((if r.1 then 1 else 0 : Int), r.2, setInsertAll U [b])) := by
  obtain ⟨f, rfl⟩ : ∃ f, fuel = f + 1 := ⟨fuel - 1, by omega⟩
  have hB : buildBBSCC (fun _ : Fin 1 => [b]) b = some 0 := by
    simp [buildBBSCC, List.finRange, addBlockSCC]
  have hnew : SCCGraph.new F (fun _ : Fin 1 => [b]) =
      some ⟨fun i => ⟨[b], [], []⟩, 0⟩ := by
    simp [SCCGraph.new, hF, getSCC, hB]
  have hbuild : (SCCGraph.mk (fun _ : Fin 1 => (⟨[b], [], []⟩ : SCCNode 1)) 0).buildGraph F
      (buildBBSCC (fun _ : Fin 1 => [b])) (f + 1) =
      some ⟨fun i => ⟨[b], [], []⟩, 0⟩ := by
    simp [SCCGraph.buildGraph, buildLoop, buildRelation, forEachM, hsucc, pushSuccessors]
  unfold CountSupport
  simp only [Function.empty, hF, List.isEmpty_cons, Bool.false_eq_true, if_false, hnew, hbuild]
  simp only [SCCGraph.dfsGraph, SCCGraph.getEntry, dfsNode, firstM, List.isEmpty_nil, if_true]
  cases check MD5encoding (addShare inShare G) (setInsertAll U [b]) (f + 1) I with
  | none => rfl
  | some r => rfl

end SingleBlock

section ClaimsChecker

variable (MD5encoding : String → hash_t)

theorem count_singleton (s : hash_t) (v : Int) (k : hash_t) :
    itemSet.count ⟨[(s, v)]⟩ k = if k = s then v else 0 := by
  unfold itemSet.count mapCount
  by_cases h : k = s
  · simp [mapFind, h]
  · simp [mapFind, h]

/-- C4 (amended): on a procedure with a single block `b` whose dependence
graph has exactly `k ≥ 1` nodes with hash `s`, `CountSupport` with the target
`{s: cnt}`, `cnt ≥ 1`, returns 0 or 1; it returns 0 whenever `cnt > k`,
whatever the edges; and when every two nodes with hash `s` are joined by a
chain of dependence or share edges through nodes with hash `s`, it returns 1
exactly when `cnt ≤ k`. -/
theorem C4_single_block_support {n : Nat} (b : BasicBlock) (F : Function)
    (hF : F.blocks = [b]) (hsucc : F.succ b = []) (G : SDDG n)
    (inShare : Fin n → Fin n → Bool)
    (hpar : ∀ x, (G.node x).mInst.getParent = b) (hint : ∀ x, x ∈ G.interesting)
    (s : hash_t) (k : Nat)
    (hk : (Finset.univ.filter (fun x => nodeHash MD5encoding (G.node x).mInst = s)).card = k)
    (hk1 : 1 ≤ k) (cnt : Nat) (hcnt : 1 ≤ cnt) (fuel : Nat) (hfuel : n + 1 ≤ fuel)
    (U : List BasicBlock) :
    ∃ r I1 U1,
      CountSupport MD5encoding F (fun _ : Fin 1 => [b]) G inShare fuel ⟨[(s, (cnt : Int))]⟩ U
        = some (r, I1, U1) ∧
      (r = 0 ∨ r = 1) ∧
      (k < cnt → r = 0) ∧
      ((∀ x y, nodeHash MD5encoding (G.node x).mInst = s →
          nodeHash MD5encoding (G.node y).mInst = s →
          Relation.ReflTransGen
            (fun p q => (adjacent G p q ∨ inShare p q = true ∨ inShare q p = true) ∧
              nodeHash MD5encoding (G.node q).mInst = s) x y) →
        (r = 1 ↔ cnt ≤ k)) := by
  have hext := addShare_extends inShare G
  have hc : ∀ k1, itemSet.count ⟨[(s, (cnt : Int))]⟩ k1 = if k1 = s then (cnt : Int) else 0 :=
    count_singleton s cnt
  have hwf : itemSet.WF ⟨[(s, (cnt : Int))]⟩ := by simp [itemSet.WF, mapWF]
  have huse : ∀ x, usefulAt MD5encoding (addShare inShare G) (setInsertAll U [b])
      (itemSet.count ⟨[(s, (cnt : Int))]⟩) x ↔ nodeHash MD5encoding (G.node x).mInst = s := by
    intro x
    unfold usefulAt
    rw [(hext.2 x).1, hpar x, hc]
    have hb : b ∈ setInsertAll U [b] := (mem_setInsertAll [b] U b).mpr (Or.inl (by simp))
    by_cases e : nodeHash MD5encoding (G.node x).mInst = s
    · simp only [e, if_true, hb, true_and, iff_true]
      exact_mod_cast (by omega : cnt ≠ 0)
    · simp [e]
  have hcard : ∀ k1, (Finset.univ.filter (fun x =>
      usefulAt MD5encoding (addShare inShare G) (setInsertAll U [b])
        (itemSet.count ⟨[(s, (cnt : Int))]⟩) x ∧
      nodeHash MD5encoding ((addShare inShare G).node x).mInst = k1)).card =
      if k1 = s then k else 0 := by
    intro k1
    by_cases e : k1 = s
    · subst e
      simp only [if_true]
      rw [← hk]
      congr 1
      ext x
      simp only [Finset.mem_filter, Finset.mem_univ, true_and, huse, (hext.2 x).1, and_self]
    · simp only [e, if_false, Finset.card_eq_zero]
      ext x
      simp only [Finset.mem_filter, Finset.mem_univ, true_and, huse, (hext.2 x).1,
        Finset.not_mem_empty, iff_false, not_and]
      intro h1 h2
      exact e (h2.symm.trans h1)
  rw [CountSupport_single_block MD5encoding b F hF hsucc G inShare fuel (by omega)]
  unfold check
  obtain ⟨r, hr⟩ := checkLoop_total MD5encoding (addShare inShare G) (setInsertAll U [b]) fuel
    (by omega) (addShare inShare G).interesting ⟨[(s, (cnt : Int))]⟩ [] List.nodup_nil
  have hfalse : k < cnt → r.1 = false := by
    intro hlt
    refine checkLoop_false_of_bound MD5encoding (addShare inShare G) (setInsertAll U [b])
      (itemSet.count ⟨[(s, (cnt : Int))]⟩) s k ?_ ?_ fuel _ _ [] r (fun _ => rfl)
      List.nodup_nil hr
    · rw [hc]; simp only [if_true]; exact_mod_cast hlt
    · intro new hnd _
      have h1 := countP_le_card
        (fun x => nodeHash MD5encoding ((addShare inShare G).node x).mInst = s) new hnd
      have h2 : (Finset.univ.filter (fun x =>
          nodeHash MD5encoding ((addShare inShare G).node x).mInst = s)).card = k := by
        rw [← hk]
        congr 1
        ext x
        simp only [Finset.mem_filter, Finset.mem_univ, true_and, (hext.2 x).1]
      rw [h2] at h1
      exact h1
  refine ⟨if r.1 then 1 else 0, r.2.1, setInsertAll U [b], ?_, ?_, ?_, ?_⟩
  · rw [hr]; rfl
  · cases r.1 <;> simp
  · intro hlt
    simp [hfalse hlt]
  · intro hlink
    constructor
    · intro h1
      by_contra hgt
      have := hfalse (by omega)
      simp [this] at h1
    · intro hle
      obtain ⟨I1, V1, e1⟩ := checkLoop_true_of_connected MD5encoding (addShare inShare G)
        (setInsertAll U [b]) (itemSet.count ⟨[(s, (cnt : Int))]⟩) fuel (by omega)
        (by
          intro x y hx hy
          refine Relation.ReflTransGen.mono ?_
            (hlink x y ((huse x).mp hx) ((huse y).mp hy))
          intro p q hpq
          refine ⟨?_, (huse q).mpr hpq.2⟩
          rcases hpq.1 with h1 | h1 | h1
          · exact adjacent_of_extendedBy G _ hext p q h1
          · exact Or.inl (addShare_linked inShare G p q (hint p) (hint q) h1).1
          · exact Or.inl (addShare_linked inShare G q p (hint q) (hint p) h1).2.2.1)
        (by
          intro k1
          rw [hc, hcard]
          by_cases e : k1 = s
          · simp only [e, if_true]; exact_mod_cast hle
          · simp [e])
        (addShare inShare G).interesting ⟨[(s, (cnt : Int))]⟩ hwf (fun _ => rfl)
        (by
          have hpos : 0 < (Finset.univ.filter
              (fun x => nodeHash MD5encoding (G.node x).mInst = s)).card := by omega
          obtain ⟨x, hx⟩ := Finset.card_pos.mp hpos
          simp only [Finset.mem_filter, Finset.mem_univ, true_and] at hx
          exact ⟨x, by rw [hext.1]; exact hint x, (huse x).mpr hx⟩)
      rw [hr] at e1
      cases e1
      rfl

end ClaimsChecker

/-- C4 (counterexample): one block with two calls `f(i32)` that no dependence
or share edge links, target `{f(i32): 2}`: `CountSupport` returns 0 although
`2 ≤ 2`. -/
theorem C4_unlinked_calls_counterexample :
    (Finset.univ.filter
      (fun x => nodeHash sampleHash (twoCallsApart.node x).mInst = sampleHash "f(i32)")).card = 2 ∧
    (CountSupport sampleHash oneBlockF oneBlockSccs twoCallsApart noShare 3
      ⟨[(sampleHash "f(i32)", 2)]⟩ []).map (fun r => r.1) = some 0 := by
  decide

/-- C4 (amended), applied to the two linked calls `f(i32)` and the target
`{f(i32): 2}`. -/
theorem C4_single_block_support_witness :
    ∃ r I1 U1,
      CountSupport sampleHash oneBlockF (fun _ : Fin 1 => [0]) twoCallsLinked noShare 3
        ⟨[(sampleHash "f(i32)", ((2 : Nat) : Int))]⟩ [] = some (r, I1, U1) ∧
      (r = 0 ∨ r = 1) ∧
      (2 < 2 → r = 0) ∧
      ((∀ x y, nodeHash sampleHash (twoCallsLinked.node x).mInst = sampleHash "f(i32)" →
          nodeHash sampleHash (twoCallsLinked.node y).mInst = sampleHash "f(i32)" →
          Relation.ReflTransGen
            (fun p q => (adjacent twoCallsLinked p q ∨ noShare p q = true ∨
                noShare q p = true) ∧
              nodeHash sampleHash (twoCallsLinked.node q).mInst = sampleHash "f(i32)") x y) →
        (r = 1 ↔ 2 ≤ 2)) :=
  C4_single_block_support sampleHash 0 oneBlockF rfl rfl twoCallsLinked noShare
    (by decide) (by decide) (sampleHash "f(i32)") 2 (by decide) (by decide) 2 (by decide) 3
    (by decide) []

/-! ## Lemmas on `buildGraph` -/

theorem buildLoop_mono_succ {m : Nat} (F : Function) (BBSCC : BasicBlock → Option (Fin m))
    (fuel : Nat) : ∀ (q v : List (Fin m)) (nodes r : Fin m → SCCNode m),
      buildLoop F BBSCC fuel q v nodes = some r →
      buildLoop F BBSCC (fuel + 1) q v nodes = some r := by
  induction fuel with
  | zero =>
    intro q v nodes r e
    cases q with
    | nil => simpa [buildLoop] using e
    | cons x rest => simp [buildLoop] at e
  | succ fuel ih =>
    intro q v nodes r e
    cases q with
    | nil => simpa [buildLoop] using e
    | cons x rest =>
      unfold buildLoop at e ⊢
      cases hb : buildRelation F BBSCC x nodes with
      | none => simp [hb] at e
      | some nodes1 =>
        simp only [hb] at e ⊢
        exact ih _ _ _ _ e

theorem buildLoop_mono {m : Nat} (F : Function) (BBSCC : BasicBlock → Option (Fin m))
    (fuel fuel1 : Nat) (hle : fuel ≤ fuel1) (q v : List (Fin m))
    (nodes r : Fin m → SCCNode m) (e : buildLoop F BBSCC fuel q v nodes = some r) :
    buildLoop F BBSCC fuel1 q v nodes = some r := by
  induction hle with
  | refl => exact e
  | step _ ih => exact buildLoop_mono_succ F BBSCC _ q v nodes r ih

theorem buildGraph_mono {m : Nat} (g : SCCGraph m) (F : Function)
    (BBSCC : BasicBlock → Option (Fin m)) (fuel fuel1 : Nat) (hle : fuel ≤ fuel1)
    (g1 : SCCGraph m) (e : g.buildGraph F BBSCC fuel = some g1) :
    g.buildGraph F BBSCC fuel1 = some g1 := by
  unfold SCCGraph.buildGraph at e ⊢
  cases hb : buildLoop F BBSCC fuel [g.EntryNode] (setInsert [] g.EntryNode) g.SCCNodes with
  | none => simp [hb] at e
  | some nodes =>
    rw [buildLoop_mono F BBSCC fuel fuel1 hle _ _ _ _ hb]
    rw [hb] at e
    exact e

section SearchLemmas

variable (MD5encoding : String → hash_t)

/-! ## Lemmas on `dfsNode` -/

/-- A node whose first successor is the node itself: the recursion never
returns. -/
theorem dfsNode_self_loop {m n : Nat} (g : SCCGraph m) (G : SDDG n) (fuelD : Nat) (N : Fin m)
    (rest : List (Fin m)) (h : (g.SCCNodes N).mSuccessors = N :: rest) (fuel : Nat) :
    ∀ st, dfsNode MD5encoding g G fuelD fuel N st = none := by
  induction fuel with
  | zero => intro st; rfl
  | succ fuel ih =>
    intro st
    unfold dfsNode
    simp only [h, firstM, ih]

/-- A node whose first successor never returns does not return either. -/
theorem dfsNode_first_successor_none {m n : Nat} (g : SCCGraph m) (G : SDDG n) (fuelD : Nat)
    (N M : Fin m) (rest : List (Fin m)) (h : (g.SCCNodes N).mSuccessors = M :: rest)
    (hM : ∀ fuel st, dfsNode MD5encoding g G fuelD fuel M st = none) (fuel : Nat)
    (st : SearchState) : dfsNode MD5encoding g G fuelD fuel N st = none := by
  cases fuel with
  | zero => rfl
  | succ fuel =>
    unfold dfsNode
    simp only [h, firstM, hM]

theorem firstM_inv {α σ : Type} (P : σ → Prop) (f : α → σ → Option (Bool × σ)) (L : List α)
    (hf : ∀ x ∈ L, ∀ s r, P s → f x s = some r → P r.2) :
    ∀ s r, P s → firstM f L s = some r → P r.2 := by
  induction L with
  | nil =>
    intro s r hs e
    simp only [firstM, Option.some.injEq] at e
    subst e
    exact hs
  | cons x rest ih =>
    intro s r hs e
    unfold firstM at e
    cases hx : f x s with
    | none => simp [hx] at e
    | some r1 =>
      obtain ⟨b, s1⟩ := r1
      have h1 := hf x (List.mem_cons_self _ _) s (b, s1) hs hx
      cases b with
      | true =>
        simp only [hx, Option.some.injEq] at e
        subst e
        exact h1
      | false =>
        simp only [hx] at e
        exact ih (fun y hy => hf y (List.mem_cons_of_mem _ hy)) s1 r h1 e

theorem firstM_all_false {α σ : Type} (P : σ → Prop) (f : α → σ → Option (Bool × σ))
    (L : List α) (hf : ∀ x ∈ L, ∀ s r, P s → f x s = some r → P r.2 ∧ r.1 = false) :
    ∀ s r, P s → firstM f L s = some r → P r.2 ∧ r.1 = false := by
  induction L with
  | nil =>
    intro s r hs e
    simp only [firstM, Option.some.injEq] at e
    subst e
    exact ⟨hs, rfl⟩
  | cons x rest ih =>
    intro s r hs e
    unfold firstM at e
    cases hx : f x s with
    | none => simp [hx] at e
    | some r1 =>
      obtain ⟨b, s1⟩ := r1
      have h1 := hf x (List.mem_cons_self _ _) s (b, s1) hs hx
      cases b with
      | true => exact absurd h1.2 (by simp)
      | false =>
        simp only [hx] at e
        exact ih (fun y hy => hf y (List.mem_cons_of_mem _ hy)) s1 r h1.1 e

theorem firstM_total {α σ : Type} (f : α → σ → Option (Bool × σ)) (L : List α)
    (hf : ∀ x ∈ L, ∀ s, ∃ r, f x s = some r) : ∀ s, ∃ r, firstM f L s = some r := by
  induction L with
  | nil => intro s; exact ⟨_, rfl⟩
  | cons x rest ih =>
    intro s
    obtain ⟨r1, h1⟩ := hf x (List.mem_cons_self _ _) s
    obtain ⟨b, s1⟩ := r1
    unfold firstM
    cases b with
    | true => simp only [h1]; exact ⟨_, rfl⟩
    | false =>
      simp only [h1]
      exact ih (fun y hy => hf y (List.mem_cons_of_mem _ hy)) s1

theorem check_total {n : Nat} (G : SDDG n) (U : List BasicBlock) (fuel : Nat)
    (hfuel : n ≤ fuel) (I : itemSet) : ∃ r, check MD5encoding G U fuel I = some r := by
  obtain ⟨r, hr⟩ := checkLoop_total MD5encoding G U fuel hfuel G.interesting I [] List.nodup_nil
  exact ⟨_, by unfold check; rw [hr]; rfl⟩

theorem check_count {n : Nat} (G : SDDG n) (U : List BasicBlock) (fuel : Nat) (I : itemSet)
    (r : Bool × itemSet) (e : check MD5encoding G U fuel I = some r) (k : hash_t) :
    r.2.count k = I.count k := by
  unfold check at e
  cases h : checkLoop MD5encoding G U fuel G.interesting I [] with
  | none => simp [h] at e
  | some r1 =>
    simp only [h, Option.map_some', Option.some.injEq] at e
    subst e
    exact (checkLoop_inv MD5encoding G U I.count fuel _ I [] r1 (fun _ => rfl) List.nodup_nil
      (by intro x hx; simp at hx) h).1 k

/-- The activation set stays inside the blocks of the reachable nodes. -/
theorem dfsNode_within_reachable {m n : Nat} (g : SCCGraph m) (G : SDDG n) (fuelD fuel : Nat) :
    ∀ (N : Fin m) (st : SearchState) (r : Bool × SearchState), g.reachable N →
      (∀ b ∈ st.UsefulBlocks, g.reachBlock b) →
      dfsNode MD5encoding g G fuelD fuel N st = some r →
      ∀ b ∈ r.2.UsefulBlocks, g.reachBlock b := by
  induction fuel with
  | zero => intro N st r _ _ e; simp [dfsNode] at e
  | succ fuel ih =>
    intro N st r hN hst e
    unfold dfsNode at e
    have hst1 : ∀ b ∈ setInsertAll st.UsefulBlocks (g.SCCNodes N).blocks, g.reachBlock b := by
      intro b hb
      rcases (mem_setInsertAll _ _ b).mp hb with h | h
      · exact ⟨N, hN, h⟩
      · exact hst b h
    cases hf : firstM (dfsNode MD5encoding g G fuelD fuel) (g.SCCNodes N).mSuccessors
        { st with UsefulBlocks := setInsertAll st.UsefulBlocks (g.SCCNodes N).blocks } with
    | none => simp [hf] at e
    | some r1 =>
      have h1 := firstM_inv (fun s : SearchState => ∀ b ∈ s.UsefulBlocks, g.reachBlock b)
        (dfsNode MD5encoding g G fuelD fuel) (g.SCCNodes N).mSuccessors
        (fun M hM s r2 hs e2 => ih M s r2 (Relation.ReflTransGen.tail hN hM) hs e2)
        _ r1 hst1 hf
      obtain ⟨b1, s1⟩ := r1
      cases b1 with
      | true =>
        simp only [hf, Option.some.injEq] at e
        subst e
        intro b hb
        exact h1 b ((mem_setEraseAll _ _ b).mp hb).1
      | false =>
        simp only [hf] at e
        by_cases hs : (g.SCCNodes N).mSuccessors.isEmpty = true
        · simp only [hs, if_true] at e
          cases hc : check MD5encoding G s1.UsefulBlocks fuelD s1.I with
          | none => simp [hc] at e
          | some rc =>
            simp only [hc, Option.some.injEq] at e
            subst e
            exact h1
        · simp only [hs, Bool.false_eq_true, if_false, Option.some.injEq] at e
          subst e
          intro b hb
          exact h1 b ((mem_setEraseAll _ _ b).mp hb).1

/-- When the target counts a hash that no node in a reachable block carries,
every call of `dfsNode` on a reachable node that returns, returns false. -/
theorem dfsNode_false_of_unreachable {m n : Nat} (g : SCCGraph m) (G : SDDG n)
    (c : hash_t → Int) (h : hash_t) (hpos : 0 < c h)
    (hdead : ∀ x, nodeHash MD5encoding (G.node x).mInst = h →
      ¬ g.reachBlock (G.node x).mInst.getParent)
    (fuelD fuel : Nat) :
    ∀ (N : Fin m) (st : SearchState) (r : Bool × SearchState), g.reachable N →
      ((∀ k, st.I.count k = c k) ∧ ∀ b ∈ st.UsefulBlocks, g.reachBlock b) →
      dfsNode MD5encoding g G fuelD fuel N st = some r →
      ((∀ k, r.2.I.count k = c k) ∧ ∀ b ∈ r.2.UsefulBlocks, g.reachBlock b) ∧ r.1 = false := by
  induction fuel with
  | zero => intro N st r _ _ e; simp [dfsNode] at e
  | succ fuel ih =>
    intro N st r hN hst e
    unfold dfsNode at e
    have hst1 : (∀ k, st.I.count k = c k) ∧
        ∀ b ∈ setInsertAll st.UsefulBlocks (g.SCCNodes N).blocks, g.reachBlock b := by
      refine ⟨hst.1, ?_⟩
      intro b hb
      rcases (mem_setInsertAll _ _ b).mp hb with h | h
      · exact ⟨N, hN, h⟩
      · exact hst.2 b h
    cases hf : firstM (dfsNode MD5encoding g G fuelD fuel) (g.SCCNodes N).mSuccessors
        { st with UsefulBlocks := setInsertAll st.UsefulBlocks (g.SCCNodes N).blocks } with
    | none => simp [hf] at e
    | some r1 =>
      have h1 := firstM_all_false
        (fun s : SearchState => (∀ k, s.I.count k = c k) ∧ ∀ b ∈ s.UsefulBlocks, g.reachBlock b)
        (dfsNode MD5encoding g G fuelD fuel) (g.SCCNodes N).mSuccessors
        (fun M hM s r2 hs e2 => ih M s r2 (Relation.ReflTransGen.tail hN hM) hs e2)
        { st with UsefulBlocks := setInsertAll st.UsefulBlocks (g.SCCNodes N).blocks }
        r1 hst1 hf
      obtain ⟨b1, s1⟩ := r1
      have hb1 : b1 = false := h1.2
      subst hb1
      simp only [hf] at e
      by_cases hs : (g.SCCNodes N).mSuccessors.isEmpty = true
      · simp only [hs, if_true] at e
        cases hc : check MD5encoding G s1.UsefulBlocks fuelD s1.I with
        | none => simp [hc] at e
        | some rc =>
          simp only [hc, Option.some.injEq] at e
          subst e
          refine ⟨⟨fun k => (check_count MD5encoding G _ fuelD _ rc hc k).trans (h1.1.1 k),
            h1.1.2⟩, ?_⟩
          unfold check at hc
          cases hl : checkLoop MD5encoding G s1.UsefulBlocks fuelD G.interesting s1.I [] with
          | none => simp [hl] at hc
          | some rl =>
            simp only [hl, Option.map_some', Option.some.injEq] at hc
            subst hc
            refine checkLoop_false_of_bound MD5encoding G s1.UsefulBlocks c h 0
              (by simpa using hpos) ?_ fuelD _ _ [] rl h1.1.1 List.nodup_nil hl
            intro new _ hnew
            rw [Nat.le_zero, List.countP_eq_zero]
            intro x hx
            simp only [decide_eq_true_eq]
            intro hxh
            exact hdead x hxh (h1.1.2 _ (hnew x hx).1)
      · simp only [hs, Bool.false_eq_true, if_false, Option.some.injEq] at e
        subst e
        exact ⟨⟨h1.1.1, fun b hb => h1.1.2 b ((mem_setEraseAll _ _ b).mp hb).1⟩, rfl⟩

/-- On an acyclic SCC graph the recursion of `dfsNode` returns once the fuel
reaches a bound that depends only on the node. -/
theorem dfsNode_total {m n : Nat} (g : SCCGraph m) (G : SDDG n) (hacyc : g.acyclic)
    (N : Fin m) : ∃ fuel0, ∀ fuelD fuel, n ≤ fuelD → fuel0 ≤ fuel → ∀ st,
      ∃ r, dfsNode MD5encoding g G fuelD fuel N st = some r := by
  haveI : IsTrans (Fin m) (fun M N => Relation.TransGen g.edge N M) :=
    ⟨fun _ _ _ hab hbc => hbc.trans hab⟩
  haveI : IsIrrefl (Fin m) (fun M N => Relation.TransGen g.edge N M) := ⟨hacyc⟩
  have hwf : WellFounded (fun M N => Relation.TransGen g.edge N M) :=
    Finite.wellFounded_of_trans_of_irrefl _
  induction N using hwf.induction with
  | _ N ih =>
    have hlist : ∀ L : List (Fin m), (∀ M ∈ L, g.edge N M) →
        ∃ fuel0, ∀ M ∈ L, ∀ fuelD fuel, n ≤ fuelD → fuel0 ≤ fuel → ∀ st,
          ∃ r, dfsNode MD5encoding g G fuelD fuel M st = some r := by
      intro L
      induction L with
      | nil => intro _; exact ⟨0, fun M hM => by simp at hM⟩
      | cons x rest ihL =>
        intro hL
        obtain ⟨f1, h1⟩ := ih x (Relation.TransGen.single (hL x (List.mem_cons_self _ _)))
        obtain ⟨f2, h2⟩ := ihL (fun M hM => hL M (List.mem_cons_of_mem _ hM))
        refine ⟨max f1 f2, ?_⟩
        intro M hM fuelD fuel hD hfuel st
        rcases List.mem_cons.mp hM with e | e
        · subst e
          exact h1 fuelD fuel hD (le_trans (le_max_left _ _) hfuel) st
        · exact h2 M e fuelD fuel hD (le_trans (le_max_right _ _) hfuel) st
    obtain ⟨f0, h0⟩ := hlist (g.SCCNodes N).mSuccessors (fun M hM => hM)
    refine ⟨f0 + 1, ?_⟩
    intro fuelD fuel hD hfuel st
    obtain ⟨fuel1, rfl⟩ : ∃ fuel1, fuel = fuel1 + 1 := ⟨fuel - 1, by omega⟩
    unfold dfsNode
    obtain ⟨r1, hr1⟩ := firstM_total (dfsNode MD5encoding g G fuelD fuel1)
      (g.SCCNodes N).mSuccessors (fun M hM s => h0 M hM fuelD fuel1 hD (by omega) s)
      { st with UsefulBlocks := setInsertAll st.UsefulBlocks (g.SCCNodes N).blocks }
    obtain ⟨b1, s1⟩ := r1
    cases b1 with
    | true => simp only [hr1]; exact ⟨_, rfl⟩
    | false =>
      simp only [hr1]
      by_cases hs : (g.SCCNodes N).mSuccessors.isEmpty = true
      · simp only [hs, if_true]
        obtain ⟨rc, hrc⟩ := check_total MD5encoding G s1.UsefulBlocks fuelD hD s1.I
        simp only [hrc]
        exact ⟨_, rfl⟩
      · simp only [hs, Bool.false_eq_true, if_false]
        exact ⟨_, rfl⟩

end SearchLemmas

/-! ## Edges built by `buildGraph` come from control-flow edges -/

theorem forEachM_inv {α σ : Type} (P : σ → Prop) (f : α → σ → Option σ) (L : List α)
    (hf : ∀ x ∈ L, ∀ s s1, P s → f x s = some s1 → P s1) :
    ∀ s s1, P s → forEachM f L s = some s1 → P s1 := by
  induction L with
  | nil =>
    intro s s1 hs e
    simp only [forEachM, Option.some.injEq] at e
    subst e
    exact hs
  | cons x rest ih =>
    intro s s1 hs e
    unfold forEachM at e
    cases hx : f x s with
    | none => simp [hx] at e
    | some s2 =>
      simp only [hx] at e
      exact ih (fun y hy => hf y (List.mem_cons_of_mem _ hy)) s2 s1
        (hf x (List.mem_cons_self _ _) s s2 hs hx) e

theorem setSCCNode_addSuccessor_blocks {m : Nat} (nd : Fin m → SCCNode m) (i M N : Fin m) :
    (setSCCNode nd i ((nd i).addSuccessor M) N).blocks = (nd N).blocks := by
  unfold setSCCNode SCCNode.addSuccessor
  by_cases h : N = i
  · simp [h]
  · simp [h]

theorem setSCCNode_addSuccessor_succ {m : Nat} (nd : Fin m → SCCNode m) (i M N x : Fin m)
    (hx : x ∈ (setSCCNode nd i ((nd i).addSuccessor M) N).mSuccessors) :
    x ∈ (nd N).mSuccessors ∨ (N = i ∧ x = M) := by
  unfold setSCCNode SCCNode.addSuccessor at hx
  by_cases h : N = i
  · simp only [h, if_true] at hx
    rcases (mem_setInsert _ _ _).mp hx with h3 | h3
    · exact Or.inr ⟨h, h3⟩
    · exact Or.inl (by rw [h]; exact h3)
  · simp only [h, if_false] at hx
    exact Or.inl hx

theorem setSCCNode_addPredecessor_blocks {m : Nat} (nd : Fin m → SCCNode m) (i M N : Fin m) :
    (setSCCNode nd i ((nd i).addPredecessor M) N).blocks = (nd N).blocks := by
  unfold setSCCNode SCCNode.addPredecessor
  by_cases h : N = i
  · simp [h]
  · simp [h]

theorem setSCCNode_addPredecessor_succ {m : Nat} (nd : Fin m → SCCNode m) (i M N : Fin m) :
    (setSCCNode nd i ((nd i).addPredecessor M) N).mSuccessors = (nd N).mSuccessors := by
  unfold setSCCNode SCCNode.addPredecessor
  by_cases h : N = i
  · simp [h]
  · simp [h]

theorem buildRelation_justified {m : Nat} (F : Function) (BBSCC : BasicBlock → Option (Fin m))
    (blocks : Fin m → List BasicBlock) (self : Fin m) (nodes nodes1 : Fin m → SCCNode m)
    (hJ : (∀ N, (nodes N).blocks = blocks N) ∧
      ∀ N M, M ∈ (nodes N).mSuccessors →
        ∃ b ∈ blocks N, ∃ s ∈ F.succ b, BBSCC s = some M)
    (e : buildRelation F BBSCC self nodes = some nodes1) :
    (∀ N, (nodes1 N).blocks = blocks N) ∧
      ∀ N M, M ∈ (nodes1 N).mSuccessors →
        ∃ b ∈ blocks N, ∃ s ∈ F.succ b, BBSCC s = some M := by
  unfold buildRelation at e
  refine forEachM_inv
    (fun nd : Fin m → SCCNode m => (∀ N, (nd N).blocks = blocks N) ∧
      ∀ N M, M ∈ (nd N).mSuccessors → ∃ b ∈ blocks N, ∃ s ∈ F.succ b, BBSCC s = some M)
    _ (nodes self).blocks ?_ nodes nodes1 hJ e
  intro block hblock nd nd1 hnd e1
  refine forEachM_inv
    (fun nd : Fin m → SCCNode m => (∀ N, (nd N).blocks = blocks N) ∧
      ∀ N M, M ∈ (nd N).mSuccessors → ∃ b ∈ blocks N, ∃ s ∈ F.succ b, BBSCC s = some M)
    _ (F.succ block) ?_ nd nd1 hnd e1
  intro SB hSB nd2 nd3 hnd2 e2
  cases hg : getSCC BBSCC SB with
  | none => simp [hg] at e2
  | some M0 =>
    simp only [hg, Option.some.injEq] at e2
    subst e2
    have hblk : block ∈ blocks self := by rw [← hJ.1 self]; exact hblock
    constructor
    · intro N
      rw [setSCCNode_addPredecessor_blocks, setSCCNode_addSuccessor_blocks]
      exact hnd2.1 N
    · intro N M hM
      rw [setSCCNode_addPredecessor_succ] at hM
      rcases setSCCNode_addSuccessor_succ nd2 self M0 N M hM with h3 | ⟨h3, h4⟩
      · exact hnd2.2 N M h3
      · subst h3; subst h4
        exact ⟨block, hblk, SB, hSB, hg⟩

theorem buildLoop_justified {m : Nat} (F : Function) (BBSCC : BasicBlock → Option (Fin m))
    (blocks : Fin m → List BasicBlock) (fuel : Nat) :
    ∀ (q v : List (Fin m)) (nodes nodes1 : Fin m → SCCNode m),
      ((∀ N, (nodes N).blocks = blocks N) ∧
        ∀ N M, M ∈ (nodes N).mSuccessors →
          ∃ b ∈ blocks N, ∃ s ∈ F.succ b, BBSCC s = some M) →
      buildLoop F BBSCC fuel q v nodes = some nodes1 →
      (∀ N, (nodes1 N).blocks = blocks N) ∧
        ∀ N M, M ∈ (nodes1 N).mSuccessors →
          ∃ b ∈ blocks N, ∃ s ∈ F.succ b, BBSCC s = some M := by
  induction fuel with
  | zero =>
    intro q v nodes nodes1 hJ e
    cases q with
    | nil => simp only [buildLoop, Option.some.injEq] at e; subst e; exact hJ
    | cons x rest => simp [buildLoop] at e
  | succ fuel ih =>
    intro q v nodes nodes1 hJ e
    cases q with
    | nil => simp only [buildLoop, Option.some.injEq] at e; subst e; exact hJ
    | cons x rest =>
      unfold buildLoop at e
      cases hb : buildRelation F BBSCC x nodes with
      | none => simp [hb] at e
      | some nodes2 =>
        simp only [hb] at e
        exact ih _ _ nodes2 nodes1 (buildRelation_justified F BBSCC blocks x nodes nodes2 hJ hb) e

theorem buildBBSCC_mem {m : Nat} (sccs : Fin m → List BasicBlock) (b : BasicBlock) (i : Fin m)
    (h : buildBBSCC sccs b = some i) : b ∈ sccs i := by
  unfold buildBBSCC at h
  have step : ∀ (L : List BasicBlock) (j : Fin m) (B : BasicBlock → Option (Fin m)),
      (∀ x ∈ L, x ∈ sccs j) → (∀ b i, B b = some i → b ∈ sccs i) →
      ∀ b i, (L.foldl (fun B1 block => addBlockSCC B1 block j) B) b = some i → b ∈ sccs i := by
    intro L j
    induction L with
    | nil => intro B _ hB; exact hB
    | cons x rest ih =>
      intro B hL hB
      simp only [List.foldl_cons]
      apply ih
      · exact fun y hy => hL y (List.mem_cons_of_mem _ hy)
      · intro b i hbi
        unfold addBlockSCC at hbi
        by_cases e : b = x
        · simp only [e, if_true, Option.some.injEq] at hbi
          subst hbi
          rw [e]
          exact hL x (List.mem_cons_self _ _)
        · simp only [e, if_false] at hbi
          exact hB b i hbi
  have outer : ∀ (L : List (Fin m)) (B : BasicBlock → Option (Fin m)),
      (∀ b i, B b = some i → b ∈ sccs i) →
      ∀ b i, (L.foldl
        (fun B i => (sccs i).foldl (fun B1 block => addBlockSCC B1 block i) B) B) b = some i →
        b ∈ sccs i := by
    intro L
    induction L with
    | nil => intro B hB; exact hB
    | cons j rest ih =>
      intro B hB
      simp only [List.foldl_cons]
      exact ih _ (step (sccs j) j B (fun _ hx => hx) hB)
  exact outer (List.finRange m) (fun _ => none) (by intro b i hbi; simp at hbi) b i h

/-- In the graph `buildGraph` constructs from the components `sccs`, each of
which is strongly connected, every block of a node reachable from the entry
node can be reached from the entry block in the control-flow graph. -/
theorem built_reachBlock_reach {m : Nat} (F : Function) (sccs : Fin m → List BasicBlock)
    (g0 g : SCCGraph m) (fuel : Nat) (h0 : SCCGraph.new F sccs = some g0)
    (h1 : g0.buildGraph F (buildBBSCC sccs) fuel = some g)
    (hSC : ∀ i b b1, b ∈ sccs i → b1 ∈ sccs i → F.reach b b1) (b : BasicBlock)
    (hb : g.reachBlock b) : ∃ e, F.blocks.head? = some e ∧ F.reach e b := by
  unfold SCCGraph.new at h0
  cases he : F.blocks.head? with
  | none => simp [he] at h0
  | some e =>
    simp only [he] at h0
    cases hE : getSCC (buildBBSCC sccs) e with
    | none => simp [hE] at h0
    | some E =>
      simp only [hE, Option.some.injEq] at h0
      subst h0
      unfold SCCGraph.buildGraph at h1
      simp only at h1
      cases hl : buildLoop F (buildBBSCC sccs) fuel [E] (setInsert [] E)
          (fun i => (⟨sccs i, [], []⟩ : SCCNode m)) with
      | none => simp [hl] at h1
      | some nodes =>
        simp only [hl, Option.map_some', Option.some.injEq] at h1
        subst h1
        obtain ⟨hblocks, hjust⟩ := buildLoop_justified F (buildBBSCC sccs) sccs fuel _ _ _ nodes
          ⟨fun _ => rfl, by intro N M hM; simp at hM⟩ hl
        refine ⟨e, rfl, ?_⟩
        obtain ⟨N, hN, hbN⟩ := hb
        have heE : e ∈ sccs E := buildBBSCC_mem sccs e E hE
        have key : ∀ N, Relation.ReflTransGen
            (SCCGraph.edge ⟨nodes, E⟩) E N → ∀ b ∈ sccs N, F.reach e b := by
          intro N hN
          induction hN with
          | refl => intro b hb; exact hSC E e b heE hb
          | tail _ hstep ih =>
            intro b hb
            obtain ⟨b1, hb1, s, hs, hsM⟩ := hjust _ _ hstep
            have h2 : F.reach e b1 := ih b1 hb1
            have h3 : F.reach e s := Relation.ReflTransGen.tail h2 hs
            exact Relation.ReflTransGen.trans h3
              (hSC _ s b (buildBBSCC_mem sccs s _ hsM) hb)
        exact key N hN b (by rw [← hblocks N]; exact hbN)

theorem acyclic_of_rank {m : Nat} (g : SCCGraph m) (rank : Fin m → Nat)
    (h : ∀ N M, g.edge N M → rank M < rank N) : g.acyclic := by
  have key : ∀ N M, Relation.TransGen g.edge N M → rank M < rank N := by
    intro N M hNM
    induction hNM with
    | single hs => exact h _ _ hs
    | tail _ hs ih => exact lt_trans (h _ _ hs) ih
  intro N hN
  exact lt_irrefl _ (key N N hN)

/-! ## Claims on the search over the SCC graph -/

theorem leakGraph_acyclic : leakGraph.acyclic :=
  acyclic_of_rank leakGraph (fun i => [0, 0, 1, 2].getD i.val 0) (by
    unfold SCCGraph.edge
    decide)

theorem leakGraphSwapped_acyclic : leakGraphSwapped.acyclic :=
  acyclic_of_rank leakGraphSwapped (fun i => [0, 0, 1, 2].getD i.val 0) (by
    unfold SCCGraph.edge
    decide)

theorem leakGraph_sink_paths (rest : List (Fin 4))
    (h : leakGraph.isSinkPath leakGraph.EntryNode rest = true) : rest = [0] ∨ rest = [2, 1] := by
  have h1 : ∀ a : Fin 4, leakGraph.isSinkPath leakGraph.EntryNode [a] = true → a = 0 := by
    decide
  have h2 : ∀ a b : Fin 4, leakGraph.isSinkPath leakGraph.EntryNode [a, b] = true →
      a = 2 ∧ b = 1 := by decide
  have h3 : ∀ a b c : Fin 4, ¬ (a ∈ (leakGraph.SCCNodes leakGraph.EntryNode).mSuccessors ∧
      b ∈ (leakGraph.SCCNodes a).mSuccessors ∧ c ∈ (leakGraph.SCCNodes b).mSuccessors) := by
    decide
  match rest, h with
  | [], h => exact absurd h (by decide)
  | [a], h => exact Or.inl (by rw [h1 a h])
  | [a, b], h => exact Or.inr (by rw [(h2 a b h).1, (h2 a b h).2])
  | a :: b :: c :: r, h =>
    simp only [SCCGraph.isSinkPath, Bool.and_eq_true, decide_eq_true_eq] at h
    exact absurd ⟨h.1, h.2.1, h.2.2.1⟩ (h3 a b c)

/-- C1 (evaluation at the failing input): on the procedure `leakF`, whose SCC
graph `leakGraph` is acyclic, `CountSupport` with the target
`{f(i32): 1, g(): 1}` returns 1 from an empty activation set, yet on every path
from the entry node to a sink `check` returns false when the activation set
holds exactly the blocks of the path. The returning block 1 of the first path
stays in the set after its check has failed, and the check at the end of the
second path sees it. -/
theorem C1_failed_sink_leaks_into_next_path :
    ((SCCGraph.new leakF leakSccs).bind
        (fun g => g.buildGraph leakF (buildBBSCC leakSccs) 4)).map
      (fun g => (g.EntryNode,
        (List.finRange 4).map (fun i => ((g.SCCNodes i).blocks, (g.SCCNodes i).mSuccessors))))
      = some (leakGraph.EntryNode, (List.finRange 4).map
          (fun i => ((leakGraph.SCCNodes i).blocks, (leakGraph.SCCNodes i).mSuccessors))) ∧
    leakGraph.acyclic ∧
    (CountSupport sampleHash leakF leakSccs leakSDDG noShare 4 leakTarget []).map
      (fun r => (r.1, r.2.2)) = some (1, [1, 3]) ∧
    (leakGraph.dfsGraph sampleHash leakSDDG 4 4 ⟨leakTarget, []⟩).map (fun r => r.1)
      = some true ∧
    (∀ rest, leakGraph.isSinkPath leakGraph.EntryNode rest = true →
      (check sampleHash leakSDDG (leakGraph.pathBlocks (leakGraph.EntryNode :: rest)) 4
        leakTarget).map (fun r => r.1) = some false) := by
  refine ⟨by decide!, leakGraph_acyclic, by decide!, by decide!, ?_⟩
  intro rest h
  rcases leakGraph_sink_paths rest h with e | e
  · subst e; decide!
  · subst e; decide!

/-- C2 (evaluation at the failing input): for the procedure `loopF`, whose block
1 branches to itself, `buildGraph` makes the component of block 1 its own
successor, and `CountSupport` does not return, whatever the fuel, the hash
function, the dependence graph, the target and the activation set. -/
theorem C2_self_edge_never_returns :
    ((SCCGraph.new loopF loopSccs).bind
        (fun g => g.buildGraph loopF (buildBBSCC loopSccs) 2)).map
      (fun g => (g.EntryNode, (g.SCCNodes 0).blocks, (g.SCCNodes 0).mSuccessors,
        (g.SCCNodes 1).mSuccessors)) = some (1, [1], [0], [0]) ∧
    ∀ (MD5encoding : String → hash_t) (n : Nat) (G : SDDG n) (inShare : Fin n → Fin n → Bool)
      (fuel : Nat) (I : itemSet) (U : List BasicBlock),
      CountSupport MD5encoding loopF loopSccs G inShare fuel I U = none := by
  have hfirst : ((SCCGraph.new loopF loopSccs).bind
        (fun g => g.buildGraph loopF (buildBBSCC loopSccs) 2)).map
      (fun g => (g.EntryNode, (g.SCCNodes 0).blocks, (g.SCCNodes 0).mSuccessors,
        (g.SCCNodes 1).mSuccessors)) = some (1, [1], [0], [0]) := by decide!
  refine ⟨hfirst, ?_⟩
  intro MD5encoding n G inShare fuel I U
  unfold CountSupport
  have hne : loopF.empty = false := by decide
  simp only [hne, Bool.false_eq_true, if_false]
  cases h0 : SCCGraph.new loopF loopSccs with
  | none => rfl
  | some g0 =>
    simp only
    cases h1 : g0.buildGraph loopF (buildBBSCC loopSccs) fuel with
    | none => rfl
    | some g1 =>
      simp only
      have h2 : g0.buildGraph loopF (buildBBSCC loopSccs) (max fuel 2) = some g1 :=
        buildGraph_mono g0 loopF _ fuel _ (le_max_left _ _) g1 h1
      rw [h0] at hfirst
      simp only [Option.some_bind] at hfirst
      cases h3 : g0.buildGraph loopF (buildBBSCC loopSccs) 2 with
      | none => simp [h3] at hfirst
      | some g2 =>
        have h4 : g0.buildGraph loopF (buildBBSCC loopSccs) (max fuel 2) = some g2 :=
          buildGraph_mono g0 loopF _ 2 _ (le_max_right _ _) g2 h3
        rw [h2] at h4
        cases h4
        simp only [h3, Option.map_some', Option.some.injEq, Prod.mk.injEq] at hfirst
        obtain ⟨hE, _, hs0, hs1⟩ := hfirst
        have hself := dfsNode_self_loop MD5encoding g1 (addShare inShare G) fuel 0 [] hs0
        have hentry := dfsNode_first_successor_none MD5encoding g1 (addShare inShare G) fuel
          1 0 [] hs1 hself fuel ⟨I, U⟩
        unfold SCCGraph.dfsGraph SCCGraph.getEntry
        rw [hE, hentry]

/-- C3 (evaluation at the failing input): the acyclic graphs `leakGraph` and
`leakGraphSwapped` have the same entry node, the same blocks and the same
successor sets and differ only in the order in which the two successors of the
entry node are iterated; from an empty activation set, with the same
dependence graph and target, `dfsGraph` returns true on the first and false on
the second. -/
theorem C3_result_depends_on_successor_order :
    leakGraph.EntryNode = leakGraphSwapped.EntryNode ∧
    (∀ i, (leakGraph.SCCNodes i).blocks = (leakGraphSwapped.SCCNodes i).blocks ∧
      (leakGraph.SCCNodes i).mSuccessors.Perm (leakGraphSwapped.SCCNodes i).mSuccessors) ∧
    leakGraph.acyclic ∧ leakGraphSwapped.acyclic ∧
    (leakGraph.dfsGraph sampleHash leakSDDG 4 4 ⟨leakTarget, []⟩).map (fun r => r.1)
      = some true ∧
    (leakGraphSwapped.dfsGraph sampleHash leakSDDG 4 4 ⟨leakTarget, []⟩).map (fun r => r.1)
      = some false := by
  refine ⟨by decide, by decide, leakGraph_acyclic, leakGraphSwapped_acyclic, by decide!,
    by decide!⟩

section ClaimReach

variable (MD5encoding : String → hash_t)

/-- C5: (1) whenever `dfsNode` runs on a node reachable from the entry node with
an activation set inside the blocks of the reachable nodes, the set stays
inside them, both after the node has added its blocks (the set its successors
and `check` see) and when the call returns; (2) for such a set, `NodeUseful`
answers false on a node whose block is in no reachable SCC node; (3) when the
target counts a hash that only such nodes carry, `dfsGraph` started from the
empty set never returns true, and on an acyclic graph it returns false for all
large enough fuel; (4) in the graph `buildGraph` constructs from strongly
connected components, the blocks of the reachable nodes can all be reached from
the entry block, so a block that cannot is in no reachable node. -/
theorem C5_activation_set_within_reachable {m n : Nat} (g : SCCGraph m) (G : SDDG n) :
    (∀ fuelD fuel N st r, g.reachable N → (∀ b ∈ st.UsefulBlocks, g.reachBlock b) →
      dfsNode MD5encoding g G fuelD fuel N st = some r →
      (∀ b ∈ setInsertAll st.UsefulBlocks (g.SCCNodes N).blocks, g.reachBlock b) ∧
      (∀ b ∈ r.2.UsefulBlocks, g.reachBlock b)) ∧
    (∀ U I x, (∀ b ∈ U, g.reachBlock b) → ¬ g.reachBlock (G.node x).mInst.getParent →
      (NodeUseful MD5encoding U (G.node x) I).1 = false) ∧
    (∀ (I : itemSet) (h : hash_t), 0 < I.count h →
      (∀ x, nodeHash MD5encoding (G.node x).mInst = h →
        ¬ g.reachBlock (G.node x).mInst.getParent) →
      (∀ fuelD fuel r, g.dfsGraph MD5encoding G fuelD fuel ⟨I, []⟩ = some r → r.1 = false) ∧
      (g.acyclic → ∃ fuel0, ∀ fuelD fuel, n ≤ fuelD → fuel0 ≤ fuel →
        ∃ st, g.dfsGraph MD5encoding G fuelD fuel ⟨I, []⟩ = some (false, st))) ∧
    (∀ (F : Function) (sccs : Fin m → List BasicBlock) (g0 : SCCGraph m) (fuel : Nat),
      SCCGraph.new F sccs = some g0 → g0.buildGraph F (buildBBSCC sccs) fuel = some g →
      (∀ i b b1, b ∈ sccs i → b1 ∈ sccs i → F.reach b b1) →
      ∀ b, g.reachBlock b → ∃ e, F.blocks.head? = some e ∧ F.reach e b) := by
  refine ⟨?_, ?_, ?_, ?_⟩
  · intro fuelD fuel N st r hN hst e
    refine ⟨?_, dfsNode_within_reachable MD5encoding g G fuelD fuel N st r hN hst e⟩
    intro b hb
    rcases (mem_setInsertAll _ _ b).mp hb with h | h
    · exact ⟨N, hN, h⟩
    · exact hst b h
  · intro U I x hU hx
    by_contra hne
    have ht : (NodeUseful MD5encoding U (G.node x) I).1 = true := by simpa using hne
    exact hx (hU _ ((NodeUseful_fst MD5encoding G U I x).mp ht).1)
  · intro I h hpos hdead
    have hfalse : ∀ fuelD fuel r,
        g.dfsGraph MD5encoding G fuelD fuel ⟨I, []⟩ = some r → r.1 = false := by
      intro fuelD fuel r e
      exact (dfsNode_false_of_unreachable MD5encoding g G I.count h hpos hdead fuelD fuel
        g.EntryNode ⟨I, []⟩ r Relation.ReflTransGen.refl
        ⟨fun _ => rfl, by intro b hb; simp at hb⟩ e).2
    refine ⟨hfalse, ?_⟩
    intro hacyc
    obtain ⟨fuel0, h0⟩ := dfsNode_total MD5encoding g G hacyc g.EntryNode
    refine ⟨fuel0, ?_⟩
    intro fuelD fuel hD hfuel
    obtain ⟨r, hr⟩ := h0 fuelD fuel hD hfuel ⟨I, []⟩
    have hr1 := hfalse fuelD fuel r hr
    obtain ⟨b, st⟩ := r
    simp only at hr1
    subst hr1
    exact ⟨st, hr⟩
  · intro F sccs g0 fuel h0 h1 hSC b hb
    exact built_reachBlock_reach F sccs g0 g fuel h0 h1 hSC b hb

end ClaimReach

/-- C5, applied to the procedure `deadF`: block 1 is dead code that calls
`h()`, the target is `{h(): 1}`, and the search returns false. -/
theorem C5_activation_set_within_reachable_witness :
    (0 : Int) < itemSet.count ⟨[(sampleHash "h()", 1)]⟩ (sampleHash "h()") ∧
    (∀ x, nodeHash sampleHash (deadSDDG.node x).mInst = sampleHash "h()" →
      ¬ deadGraph.reachBlock (deadSDDG.node x).mInst.getParent) ∧
    (∀ fuelD fuel r,
      deadGraph.dfsGraph sampleHash deadSDDG fuelD fuel ⟨⟨[(sampleHash "h()", 1)]⟩, []⟩ = some r →
      r.1 = false) ∧
    (CountSupport sampleHash deadF deadSccs deadSDDG noShare 3 ⟨[(sampleHash "h()", 1)]⟩ []).map
      (fun r => r.1) = some 0 :=
  have hpos : (0 : Int) < itemSet.count ⟨[(sampleHash "h()", 1)]⟩ (sampleHash "h()") := by
    decide
  have hdead : ∀ x, nodeHash sampleHash (deadSDDG.node x).mInst = sampleHash "h()" →
      ¬ deadGraph.reachBlock (deadSDDG.node x).mInst.getParent := by
    intro x hx hreach
    obtain ⟨N, _, hb⟩ := hreach
    have h1 : ∀ x : Fin 2, nodeHash sampleHash (deadSDDG.node x).mInst = sampleHash "h()" →
        ∀ N : Fin 1, (deadSDDG.node x).mInst.getParent ∉ (deadGraph.SCCNodes N).blocks := by
      decide
    exact h1 x hx N hb
  ⟨hpos, hdead,
    ((C5_activation_set_within_reachable sampleHash deadGraph deadSDDG).2.2.1
      ⟨[(sampleHash "h()", 1)]⟩ (sampleHash "h()") hpos hdead).1,
    by decide!⟩

/-! ## Lemmas on `int` arithmetic, `getCommon` and `getSize` -/

theorem toInt32_add_left (x y : Int) : toInt32 (toInt32 x + y) = toInt32 (x + y) := by
  unfold toInt32
  omega

theorem toInt32_of_range (z : Int) (h0 : -2147483648 ≤ z) (h1 : z ≤ 2147483647) :
    toInt32 z = z := by
  unfold toInt32
  omega

theorem getCommonLoop_fst (items self : ItemMap) (ans : Int) (hans : toInt32 ans = ans) :
    (itemSet.getCommonLoop items self ans).1 =
      toInt32 (ans + (items.map (fun p => min (mapCount self p.1) p.2)).sum) := by
  induction items generalizing self ans with
  | nil => simp [itemSet.getCommonLoop, hans]
  | cons p rest ih =>
    obtain ⟨a, v⟩ := p
    unfold itemSet.getCommonLoop
    simp only [mapIndex_fst]
    rw [ih _ _ (by unfold toInt32; omega)]
    simp only [mapCount_mapIndex, List.map_cons, List.sum_cons]
    rw [toInt32_add_left, add_assoc]

theorem getSizeLoop_eq (items : ItemMap) (ans : Int) (hans : toInt32 ans = ans) :
    items.foldl (fun ans item => toInt32 (ans + item.2)) ans =
      toInt32 (ans + (items.map Prod.snd).sum) := by
  induction items generalizing ans with
  | nil => simp [hans]
  | cons p rest ih =>
    simp only [List.foldl_cons, List.map_cons, List.sum_cons]
    rw [ih _ (by unfold toInt32; omega), toInt32_add_left, add_assoc]

theorem getCommonLoop_count (items self : ItemMap) (ans : Int) (k : hash_t) :
    mapCount (itemSet.getCommonLoop items self ans).2 k = mapCount self k := by
  induction items generalizing self ans with
  | nil => rfl
  | cons p rest ih =>
    obtain ⟨a, v⟩ := p
    unfold itemSet.getCommonLoop
    simp only [ih, mapCount_mapIndex]

theorem getCommonLoop_WF (items self : ItemMap) (ans : Int) (h : mapWF self) :
    mapWF (itemSet.getCommonLoop items self ans).2 := by
  induction items generalizing self ans with
  | nil => exact h
  | cons p rest ih =>
    obtain ⟨a, v⟩ := p
    unfold itemSet.getCommonLoop
    exact ih _ _ (mapWF_mapIndex self a h)

/-- A sum over the entries of a well-formed map is the sum over any finite set
of keys that contains its keys, when a zero count contributes nothing. -/
theorem sum_entries_eq_sum_keys (g : hash_t → Int → Int) (hg : ∀ k, g k 0 = 0) (m : ItemMap)
    (hm : mapWF m) (S : Finset hash_t) (hS : ∀ p ∈ m, p.1 ∈ S) :
    (m.map (fun p => g p.1 p.2)).sum = ∑ k in S, g k (mapCount m k) := by
  induction m generalizing S with
  | nil =>
    simp only [List.map_nil, List.sum_nil]
    symm
    apply Finset.sum_eq_zero
    intro k _
    simp [mapCount, mapFind, hg]
  | cons p rest ih =>
    obtain ⟨a, x⟩ := p
    have hwf := hm
    unfold mapWF at hm
    simp only [List.map_cons, List.pairwise_cons] at hm
    have haS : a ∈ S := hS (a, x) (List.mem_cons_self _ _)
    have hrest : ∀ q ∈ rest, q.1 ∈ S.erase a := by
      intro q hq
      have h1 : a < q.1 := hm.1 q.1 (List.mem_map.mpr ⟨q, hq, rfl⟩)
      exact Finset.mem_erase.mpr ⟨Nat.ne_of_gt h1, hS q (List.mem_cons_of_mem _ hq)⟩
    rw [List.map_cons, List.sum_cons, ih hm.2 (S.erase a) hrest, ← Finset.add_sum_erase S _ haS]
    congr 1
    · simp [mapCount, mapFind]
    · apply Finset.sum_congr rfl
      intro k hk
      have hne : k ≠ a := (Finset.mem_erase.mp hk).1
      simp [mapCount, mapFind, hne]

theorem sum_counts_eq_sum (A : itemSet) (hA : A.WF) (S : Finset hash_t)
    (hS : ∀ p ∈ A.mItems, p.1 ∈ S) : (A.mItems.map Prod.snd).sum = ∑ k in S, A.count k := by
  unfold itemSet.count
  exact sum_entries_eq_sum_keys (fun _ v => v) (fun _ => rfl) A.mItems hA S hS

theorem getSize_eq_sum (A : itemSet) (hA : A.WF) (S : Finset hash_t)
    (hS : ∀ p ∈ A.mItems, p.1 ∈ S) : A.getSize = toInt32 (∑ k in S, A.count k) := by
  unfold itemSet.getSize
  rw [getSizeLoop_eq _ _ rfl, zero_add, sum_counts_eq_sum A hA S hS]

theorem getCommon_eq_sum (A B : itemSet) (hB : B.WF) (hA0 : ∀ k, 0 ≤ A.count k)
    (S : Finset hash_t) (hS : ∀ p ∈ B.mItems, p.1 ∈ S) :
    (A.getCommon B).1 = toInt32 (∑ k in S, min (A.count k) (B.count k)) := by
  unfold itemSet.getCommon
  have h0 : toInt32 0 = 0 := rfl
  rw [getCommonLoop_fst B.mItems A.mItems 0 h0, zero_add]
  congr 1
  exact sum_entries_eq_sum_keys (fun k v => min (mapCount A.mItems k) v)
    (fun k => min_eq_right (hA0 k)) B.mItems hB S hS

theorem getCommon_count (A B : itemSet) (k : hash_t) : (A.getCommon B).2.count k = A.count k :=
  getCommonLoop_count B.mItems A.mItems 0 k

theorem getCommon_WF (A B : itemSet) (hA : A.WF) : (A.getCommon B).2.WF :=
  getCommonLoop_WF B.mItems A.mItems 0 hA

/-- The keys of two item-sets, as one finite set. -/
theorem exists_key_set (A B : itemSet) :
    ∃ S : Finset hash_t, (∀ p ∈ A.mItems, p.1 ∈ S) ∧ (∀ p ∈ B.mItems, p.1 ∈ S) :=
  ⟨(A.mItems.map Prod.fst ++ B.mItems.map Prod.fst).toFinset,
    fun p hp => by simp only [List.mem_toFinset, List.mem_append, List.mem_map]
                   exact Or.inl ⟨p, hp, rfl⟩,
    fun p hp => by simp only [List.mem_toFinset, List.mem_append, List.mem_map]
                   exact Or.inr ⟨p, hp, rfl⟩⟩

theorem count_eq_zero_of_not_key (A : itemSet) (k : hash_t) (h : ∀ p ∈ A.mItems, p.1 ≠ k) :
    A.count k = 0 := by
  apply mapCount_eq_zero_of_not_mem
  intro hk
  obtain ⟨p, hp, e⟩ := List.mem_map.mp hk
  exact h p hp e

/-- The sum of the minima over a finite set of hashes that contains every hash
counted in both item-sets does not depend on the set. -/
theorem sum_min_support (A B : itemSet) (hA0 : ∀ k, 0 ≤ A.count k)
    (hB0 : ∀ k, 0 ≤ B.count k) (S T : Finset hash_t)
    (hT : ∀ k, 0 < min (A.count k) (B.count k) → k ∈ T) :
    ∑ k in S ∪ T, min (A.count k) (B.count k) = ∑ k in T, min (A.count k) (B.count k) := by
  symm
  apply Finset.sum_subset Finset.subset_union_right
  intro k _ hk
  have h2 : ¬ 0 < min (A.count k) (B.count k) := fun h => hk (hT k h)
  have h3 : 0 ≤ min (A.count k) (B.count k) := le_min (hA0 k) (hB0 k)
  omega

/-- The value of `getCommon`: the sum of the minima over any finite set of
hashes that contains every hash counted in both item-sets, as an `int`. -/
theorem getCommon_eq_sum_support (A B : itemSet) (hB : B.WF) (hA0 : ∀ k, 0 ≤ A.count k)
    (hB0 : ∀ k, 0 ≤ B.count k) (T : Finset hash_t)
    (hT : ∀ k, 0 < min (A.count k) (B.count k) → k ∈ T) :
    (A.getCommon B).1 = toInt32 (∑ k in T, min (A.count k) (B.count k)) := by
  obtain ⟨S, _, hSB⟩ := exists_key_set A B
  rw [getCommon_eq_sum A B hB hA0 (S ∪ T) (fun p hp => Finset.mem_union_left _ (hSB p hp)),
    sum_min_support A B hA0 hB0 S T hT]

/-! ## Claims on the item-set algebra and the signature codec -/

/-- C11 (amended): for well-formed item-sets `A` and `B` with non-negative
counts, `A.getCommon(B)` and `B.getCommon(A)` return the same value, also when
the second call sees `A` as the first call left it. That value is the sum of
`min(count_A(h), count_B(h))` over any finite set of hashes that contains every
hash counted in both, wrapped to the range of `int`; it is the sum itself when
the sum is at most 2147483647. -/
theorem C11_getCommon_symmetric (A B : itemSet) (hA : A.WF) (hB : B.WF) (hAn : A.Nonneg)
    (hBn : B.Nonneg) :
    (A.getCommon B).1 = (B.getCommon A).1 ∧
    (B.getCommon (A.getCommon B).2).1 = (A.getCommon B).1 ∧
    (∀ T : Finset hash_t, (∀ k, 0 < min (A.count k) (B.count k) → k ∈ T) →
      (A.getCommon B).1 = toInt32 (∑ k in T, min (A.count k) (B.count k)) ∧
      (B.getCommon A).1 = toInt32 (∑ k in T, min (A.count k) (B.count k)) ∧
      (∑ k in T, min (A.count k) (B.count k) ≤ 2147483647 →
        (A.getCommon B).1 = ∑ k in T, min (A.count k) (B.count k) ∧
        (B.getCommon A).1 = ∑ k in T, min (A.count k) (B.count k))) := by
  have hA0 := count_nonneg A hAn
  have hB0 := count_nonneg B hBn
  have key : ∀ T : Finset hash_t, (∀ k, 0 < min (A.count k) (B.count k) → k ∈ T) →
      (A.getCommon B).1 = toInt32 (∑ k in T, min (A.count k) (B.count k)) ∧
      (B.getCommon A).1 = toInt32 (∑ k in T, min (A.count k) (B.count k)) := by
    intro T hT
    refine ⟨getCommon_eq_sum_support A B hB hA0 hB0 T hT, ?_⟩
    rw [getCommon_eq_sum_support B A hA hB0 hA0 T (fun k hk => hT k (by rwa [min_comm]))]
    congr 1
    exact Finset.sum_congr rfl (fun k _ => min_comm _ _)
  obtain ⟨S, hSA, hSB⟩ := exists_key_set A B
  have hS : ∀ k, 0 < min (A.count k) (B.count k) → k ∈ S := by
    intro k hk
    by_contra hkS
    have : A.count k = 0 :=
      count_eq_zero_of_not_key A k (fun p hp e => hkS (e ▸ hSA p hp))
    rw [this] at hk
    have := min_le_left (0 : Int) (B.count k)
    omega
  refine ⟨(key S hS).1.trans (key S hS).2.symm, ?_, ?_⟩
  · have h1 : (B.getCommon (A.getCommon B).2).1 =
        toInt32 (∑ k in S, min (B.count k) ((A.getCommon B).2.count k)) :=
      getCommon_eq_sum_support B _ (getCommon_WF A B hA) hB0
        (fun k => by rw [getCommon_count]; exact hA0 k) S
        (fun k hk => hS k (by rw [getCommon_count, min_comm] at hk; exact hk))
    rw [h1, (key S hS).1]
    congr 1
    exact Finset.sum_congr rfl (fun k _ => by rw [getCommon_count, min_comm])
  · intro T hT
    refine ⟨(key T hT).1, (key T hT).2, ?_⟩
    intro hle
    have h0 : 0 ≤ ∑ k in T, min (A.count k) (B.count k) :=
      Finset.sum_nonneg (fun k _ => le_min (hA0 k) (hB0 k))
    have h1 := toInt32_of_range _ (by omega) hle
    exact ⟨(key T hT).1.trans h1, (key T hT).2.trans h1⟩

/-- C11 (amended), applied to `A = {1: 2, 4: 1}` and `B = {1: 1, 9: 3}`. -/
theorem C11_getCommon_symmetric_witness :
    (itemSet.getCommon ⟨[(1, 2), (4, 1)]⟩ ⟨[(1, 1), (9, 3)]⟩).1 =
      (itemSet.getCommon ⟨[(1, 1), (9, 3)]⟩ ⟨[(1, 2), (4, 1)]⟩).1 :=
  (C11_getCommon_symmetric ⟨[(1, 2), (4, 1)]⟩ ⟨[(1, 1), (9, 3)]⟩ (by decide) (by decide)
    (by decide) (by decide)).1

/-- C11 (counterexample): for `A = B = {1: 2147483647, 2: 1}`, well formed and
with non-negative counts, the minima are 2147483647 and 1 and no other hash is
counted, so their sum is 2147483648; `A.getCommon(B)` returns -2147483648,
which is not that sum. -/
theorem C11_getCommon_overflow_counterexample :
    itemSet.WF ⟨[(1, 2147483647), (2, 1)]⟩ ∧ itemSet.Nonneg ⟨[(1, 2147483647), (2, 1)]⟩ ∧
    (∀ k, k ≠ 1 → k ≠ 2 → itemSet.count ⟨[(1, 2147483647), (2, 1)]⟩ k = 0) ∧
    min (itemSet.count ⟨[(1, 2147483647), (2, 1)]⟩ 1)
        (itemSet.count ⟨[(1, 2147483647), (2, 1)]⟩ 1) +
      min (itemSet.count ⟨[(1, 2147483647), (2, 1)]⟩ 2)
        (itemSet.count ⟨[(1, 2147483647), (2, 1)]⟩ 2) = 2147483648 ∧
    (itemSet.getCommon ⟨[(1, 2147483647), (2, 1)]⟩ ⟨[(1, 2147483647), (2, 1)]⟩).1 =
      -2147483648 ∧
    (itemSet.getCommon ⟨[(1, 2147483647), (2, 1)]⟩ ⟨[(1, 2147483647), (2, 1)]⟩).1 ≠
      min (itemSet.count ⟨[(1, 2147483647), (2, 1)]⟩ 1)
          (itemSet.count ⟨[(1, 2147483647), (2, 1)]⟩ 1) +
        min (itemSet.count ⟨[(1, 2147483647), (2, 1)]⟩ 2)
          (itemSet.count ⟨[(1, 2147483647), (2, 1)]⟩ 2) := by
  refine ⟨by decide, by decide, ?_, by decide, by decide, by decide⟩
  intro k h1 h2
  simp [itemSet.count, mapCount, mapFind, h1, h2]

/-- C12 (amended): for well-formed item-sets `A` and `B` with non-negative
counts whose sums of counts are at most 2147483647, `getSize()` returns these
sums and `A.getCommon(B)` is at least 0 and at most
`min(A.getSize(), B.getSize())`. -/
theorem C12_getCommon_le_min_size (A B : itemSet) (hA : A.WF) (hB : B.WF) (hAn : A.Nonneg)
    (hBn : B.Nonneg) (hAs : (A.mItems.map Prod.snd).sum ≤ 2147483647)
    (hBs : (B.mItems.map Prod.snd).sum ≤ 2147483647) :
    A.getSize = (A.mItems.map Prod.snd).sum ∧ B.getSize = (B.mItems.map Prod.snd).sum ∧
    0 ≤ (A.getCommon B).1 ∧ (A.getCommon B).1 ≤ min A.getSize B.getSize := by
  have hA0 := count_nonneg A hAn
  have hB0 := count_nonneg B hBn
  obtain ⟨S, hSA, hSB⟩ := exists_key_set A B
  have eA := sum_counts_eq_sum A hA S hSA
  have eB := sum_counts_eq_sum B hB S hSB
  have nA : 0 ≤ ∑ k in S, A.count k := Finset.sum_nonneg (fun k _ => hA0 k)
  have nB : 0 ≤ ∑ k in S, B.count k := Finset.sum_nonneg (fun k _ => hB0 k)
  have n0 : 0 ≤ ∑ k in S, min (A.count k) (B.count k) :=
    Finset.sum_nonneg (fun k _ => le_min (hA0 k) (hB0 k))
  have lA : ∑ k in S, min (A.count k) (B.count k) ≤ ∑ k in S, A.count k :=
    Finset.sum_le_sum (fun k _ => min_le_left _ _)
  have lB : ∑ k in S, min (A.count k) (B.count k) ≤ ∑ k in S, B.count k :=
    Finset.sum_le_sum (fun k _ => min_le_right _ _)
  rw [eA] at hAs
  rw [eB] at hBs
  have sA : A.getSize = ∑ k in S, A.count k := by
    rw [getSize_eq_sum A hA S hSA]
    exact toInt32_of_range _ (by omega) hAs
  have sB : B.getSize = ∑ k in S, B.count k := by
    rw [getSize_eq_sum B hB S hSB]
    exact toInt32_of_range _ (by omega) hBs
  have sC : (A.getCommon B).1 = ∑ k in S, min (A.count k) (B.count k) := by
    rw [getCommon_eq_sum A B hB hA0 S hSB]
    exact toInt32_of_range _ (by omega) (by omega)
  refine ⟨sA.trans eA.symm, sB.trans eB.symm, ?_, ?_⟩
  · rw [sC]; exact n0
  · rw [sC, sA, sB]; exact le_min lA lB

/-- C12 (amended), applied to `A = {1: 2, 4: 1}` and `B = {1: 1, 9: 3}`. -/
theorem C12_getCommon_le_min_size_witness :
    0 ≤ (itemSet.getCommon ⟨[(1, 2), (4, 1)]⟩ ⟨[(1, 1), (9, 3)]⟩).1 ∧
    (itemSet.getCommon ⟨[(1, 2), (4, 1)]⟩ ⟨[(1, 1), (9, 3)]⟩).1 ≤
      min (itemSet.getSize ⟨[(1, 2), (4, 1)]⟩) (itemSet.getSize ⟨[(1, 1), (9, 3)]⟩) :=
  (C12_getCommon_le_min_size ⟨[(1, 2), (4, 1)]⟩ ⟨[(1, 1), (9, 3)]⟩ (by decide) (by decide)
    (by decide) (by decide) (by decide) (by decide)).2.2

/-- C12 (counterexample): for `A = {1: 2147483647, 2: 1}` and
`B = {1: 2147483647}`, well formed and with non-negative counts,
`A.getCommon(B)` returns 2147483647 and `A.getSize()` returns -2147483648, so
`A.getCommon(B)` exceeds `min(A.getSize(), B.getSize())`. -/
theorem C12_getSize_overflow_counterexample :
    itemSet.WF ⟨[(1, 2147483647), (2, 1)]⟩ ∧ itemSet.Nonneg ⟨[(1, 2147483647), (2, 1)]⟩ ∧
    itemSet.WF ⟨[(1, 2147483647)]⟩ ∧ itemSet.Nonneg ⟨[(1, 2147483647)]⟩ ∧
    (itemSet.getCommon ⟨[(1, 2147483647), (2, 1)]⟩ ⟨[(1, 2147483647)]⟩).1 = 2147483647 ∧
    itemSet.getSize ⟨[(1, 2147483647), (2, 1)]⟩ = -2147483648 ∧
    itemSet.getSize ⟨[(1, 2147483647)]⟩ = 2147483647 ∧
    ¬ ((itemSet.getCommon ⟨[(1, 2147483647), (2, 1)]⟩ ⟨[(1, 2147483647)]⟩).1 ≤
      min (itemSet.getSize ⟨[(1, 2147483647), (2, 1)]⟩) (itemSet.getSize ⟨[(1, 2147483647)]⟩)) := by
  decide

/-- C13 (amended): for every return instruction and every call instruction with
a called function `i`, and every hash function, the constructor `itemSet(i)`
returns an item-set that stores the single entry
`(hash of the signature of i, 1)`, so `getSize()` is 1 and the count of that
hash is 1, and `islarger(E)` is true for the empty item-set `E`. -/
theorem C13_single_instruction_item_set (MD5encoding : String → hash_t) (i : Instruction)
    (hi : ∀ p ft ops, i ≠ .indirectCall p ft ops) :
    ∃ label A, transition "" i = some label ∧ MD5encoding label = nodeHash MD5encoding i ∧
      itemSet.ofInstruction MD5encoding i = some A ∧
      A.mItems = [(nodeHash MD5encoding i, 1)] ∧
      A.getSize = 1 ∧
      A.count (nodeHash MD5encoding i) = 1 ∧
      (A.islarger itemSet.empty).1 = true := by
  have hsome : ∃ label, transition "" i = some label := by
    cases i with
    | ret p ty => exact ⟨_, rfl⟩
    | call p name ft ops => exact ⟨_, rfl⟩
    | indirectCall p ft ops => exact absurd rfl (hi p ft ops)
  obtain ⟨label, hl⟩ := hsome
  have hh : MD5encoding label = nodeHash MD5encoding i := by
    unfold nodeHash; rw [hl]; rfl
  have h : (itemSet.empty.addItem (MD5encoding label)).mItems =
      [(nodeHash MD5encoding i, 1)] := by
    rw [hh]
    simp [itemSet.addItem, itemSet.empty, mapIndex, mapFind, mapAssign]
  refine ⟨label, itemSet.empty.addItem (MD5encoding label), hl, hh, ?_, h, ?_, ?_, ?_⟩
  · unfold itemSet.ofInstruction; rw [hl]
  · simp [itemSet.getSize, h, toInt32]
  · simp [itemSet.count, mapCount, mapFind, h]
  · simp [itemSet.islarger, itemSet.islargerLoop, itemSet.empty]

/-- C13 (amended), applied to a `return i32` in block 0. -/
theorem C13_single_instruction_item_set_witness :
    ∃ label A, transition "" (.ret 0 "i32") = some label ∧
      sampleHash label = nodeHash sampleHash (.ret 0 "i32") ∧
      itemSet.ofInstruction sampleHash (.ret 0 "i32") = some A ∧
      A.mItems = [(nodeHash sampleHash (.ret 0 "i32"), 1)] ∧
      A.getSize = 1 ∧
      A.count (nodeHash sampleHash (.ret 0 "i32")) = 1 ∧
      (A.islarger itemSet.empty).1 = true :=
  C13_single_instruction_item_set sampleHash (.ret 0 "i32") (by intro p ft ops h; cases h)

/-- C13 (counterexample): for an indirect call (here one of type `void ()` in
block 0) `transition` does not return, so the constructor `itemSet(i)` builds
no item-set: there is none with `getSize()` equal to 1 that dominates the empty
item-set. -/
theorem C13_indirect_call_counterexample :
    transition "" (.indirectCall 0 ⟨"void", [], false⟩ []) = none ∧
    ¬ ∃ A, itemSet.ofInstruction sampleHash (.indirectCall 0 ⟨"void", [], false⟩ []) = some A ∧
      A.getSize = 1 ∧ (A.islarger itemSet.empty).1 = true := by
  refine ⟨rfl, ?_⟩
  rintro ⟨A, hA, _⟩
  simp [itemSet.ofInstruction, transition] at hA

/-- C14: two call instructions with the same callee name and the same static
function type get the same signature from `transition`, which returns for both,
whatever their operands and their blocks; both therefore have the same hash and
are counted under the same key of an item-set. -/
theorem C14_signature_ignores_operands (MD5encoding : String → hash_t)
    (calleeName : Option String) (ftype : FunctionType) (p1 p2 : BasicBlock)
    (operands1 operands2 : List Nat) (s : String) :
    transition s (.call p1 calleeName ftype operands1) =
      transition s (.call p2 calleeName ftype operands2) ∧
    (transition s (.call p1 calleeName ftype operands1)).isSome = true ∧
    (transition "" (.call p1 calleeName ftype operands1)).map MD5encoding =
      some (nodeHash MD5encoding (.call p1 calleeName ftype operands1)) ∧
    nodeHash MD5encoding (.call p1 calleeName ftype operands1) =
      nodeHash MD5encoding (.call p2 calleeName ftype operands2) ∧
    (itemSet.ofInstruction MD5encoding (.call p1 calleeName ftype operands1)).map
        (fun A => (A.addItem (nodeHash MD5encoding (.call p2 calleeName ftype operands2))).mItems)
      = some [(nodeHash MD5encoding (.call p1 calleeName ftype operands1), 2)] := by
  have h1 : ∀ s, transition s (.call p1 calleeName ftype operands1) =
      transition s (.call p2 calleeName ftype operands2) := fun _ => rfl
  have h2 : nodeHash MD5encoding (.call p1 calleeName ftype operands1) =
      nodeHash MD5encoding (.call p2 calleeName ftype operands2) := by
    unfold nodeHash; rw [h1]
  refine ⟨h1 s, rfl, rfl, h2, ?_⟩
  rw [← h2]
  simp [itemSet.ofInstruction, transition, itemSet.addItem, itemSet.empty, mapIndex, mapFind,
    mapAssign, nodeHash]

/-- C15: on a procedure without basic blocks `CountSupport` returns 0 and leaves
the target and the activation set as they were, whatever the fuel (also none),
the components and the dependence graph handed to it: no loop of the graph
construction or of the search runs. -/
theorem C15_empty_procedure (MD5encoding : String → hash_t) {m n : Nat} (F : Function)
    (hF : F.empty = true) (sccs : Fin m → List BasicBlock) (SDDGF : SDDG n)
    (inShare : Fin n → Fin n → Bool) (fuel : Nat) (I : itemSet) (U : List BasicBlock) :
    CountSupport MD5encoding F sccs SDDGF inShare fuel I U = some (0, I, U) := by
  unfold CountSupport
  simp [hF]

/-- C15, applied to the procedure without blocks, no fuel, the target
`{f(i32): 1}` and the activation set `{5}`. -/
theorem C15_empty_procedure_witness :
    CountSupport sampleHash ⟨[], fun _ => []⟩ oneBlockSccs twoCallsLinked noShare 0
      ⟨[(sampleHash "f(i32)", 1)]⟩ [5] = some (0, ⟨[(sampleHash "f(i32)", 1)]⟩, [5]) :=
  C15_empty_procedure sampleHash ⟨[], fun _ => []⟩ (by decide) oneBlockSccs twoCallsLinked
    noShare 0 ⟨[(sampleHash "f(i32)", 1)]⟩ [5]

section ComponentCheck

variable (MD5encoding : String → hash_t)

/-! ## `check` and the connected components -/

theorem adjacent_symm {n : Nat} (G : SDDG n) (hcons : G.consistent) (a b : Fin n)
    (h : adjacent G a b) : adjacent G b a := by
  rcases h with h | h
  · exact Or.inr ((hcons a b).mp h)
  · exact Or.inl ((hcons b a).mpr h)

theorem useful_of_path {n : Nat} (G : SDDG n) (U : List BasicBlock) (c : hash_t → Int)
    (v x : Fin n) (hv : usefulAt MD5encoding G U c v)
    (h : Relation.ReflTransGen (stepUseful MD5encoding G U c) v x) :
    usefulAt MD5encoding G U c x := by
  induction h with
  | refl => exact hv
  | tail _ hstep _ => exact hstep.2

theorem path_symm {n : Nat} (G : SDDG n) (hcons : G.consistent) (U : List BasicBlock)
    (c : hash_t → Int) (v x : Fin n) (hv : usefulAt MD5encoding G U c v)
    (h : Relation.ReflTransGen (stepUseful MD5encoding G U c) v x) :
    Relation.ReflTransGen (stepUseful MD5encoding G U c) x v := by
  induction h with
  | refl => exact Relation.ReflTransGen.refl
  | tail hpath hstep ih =>
    exact Relation.ReflTransGen.head
      ⟨adjacent_symm G hcons _ _ hstep.1, useful_of_path MD5encoding G U c v _ hv hpath⟩ ih

theorem inComponent_congr {n : Nat} (G : SDDG n) (hcons : G.consistent) (U : List BasicBlock)
    (c : hash_t → Int) (v w : Fin n) (h : inComponent MD5encoding G U c v w) (x : Fin n) :
    inComponent MD5encoding G U c w x ↔ inComponent MD5encoding G U c v x := by
  have hw : usefulAt MD5encoding G U c w := useful_of_path MD5encoding G U c v w h.1 h.2
  constructor
  · intro hx
    exact ⟨h.1, h.2.trans hx.2⟩
  · intro hx
    exact ⟨hw, (path_symm MD5encoding G hcons U c v w h.1 h.2).trans hx.2⟩

theorem componentDominates_congr {n : Nat} (G : SDDG n) (hcons : G.consistent)
    (U : List BasicBlock) (c : hash_t → Int) (v w : Fin n)
    (h : inComponent MD5encoding G U c v w) (hw : componentDominates MD5encoding G U c w) :
    componentDominates MD5encoding G U c v := by
  obtain ⟨comp, hnd, hmem, hdom⟩ := hw
  exact ⟨comp, hnd,
    fun x => (hmem x).trans (inComponent_congr MD5encoding G hcons U c v w h x), hdom⟩

/-- In a call of `dfsSDDG` on an unvisited node, started from a closed visited
set, the nodes visited are exactly the component of the node. -/
theorem dfs_new_iff_inComponent {n : Nat} (G : SDDG n) (hcons : G.consistent)
    (U : List BasicBlock) (c : hash_t → Int) (v : Fin n) (st st1 : DfsState n)
    (new : List (Fin n)) (s1 : StepSpec MD5encoding G U c [v] st st1 new)
    (hcl : closedSet MD5encoding G U c st.visited) (hv : v ∉ st.visited) (x : Fin n) :
    x ∈ new ↔ inComponent MD5encoding G U c v x := by
  constructor
  · intro hx
    obtain ⟨_, _, y, hy, hyu, _, hpath⟩ := s1.new_spec x hx
    simp only [List.mem_singleton] at hy
    subst hy
    refine ⟨hyu, Relation.ReflTransGen.mono ?_ hpath⟩
    intro p q hpq
    exact ⟨hpq.1, hpq.2.1⟩
  · rintro ⟨hvu, hpath⟩
    induction hpath with
    | refl =>
      rcases List.mem_append.mp (s1.perm.mem_iff.mp (s1.roots_in v (by simp) hvu)) with h | h
      · exact h
      · exact absurd h hv
    | tail _ hstep ih =>
      rcases List.mem_append.mp (s1.perm.mem_iff.mp (s1.closed _ ih _ hstep.1 hstep.2))
        with h | h
      · exact h
      · exfalso
        have hp := s1.new_spec _ ih
        exact hp.2.1 ((hcl _ h).2 _ (adjacent_symm G hcons _ _ hstep.1) hp.1)

theorem countP_eq_of_same_members {n : Nat} (p : Fin n → Bool) (l1 l2 : List (Fin n))
    (h1 : l1.Nodup) (h2 : l2.Nodup) (h : ∀ x, x ∈ l1 ↔ x ∈ l2) :
    l1.countP p = l2.countP p :=
  ((List.perm_ext_iff_of_nodup h1 h2).mpr h).countP_eq p

/-- The test `nowSet.islarger(I)` after a call of `dfsSDDG` from an unvisited
node: it succeeds exactly when the component of the node dominates the target. -/
theorem islarger_iff_componentDominates {n : Nat} (G : SDDG n) (hcons : G.consistent)
    (U : List BasicBlock) (c : hash_t → Int) (v : Fin n) (I : itemSet) (V : List (Fin n))
    (st1 : DfsState n) (new : List (Fin n))
    (s1 : StepSpec MD5encoding G U c [v] ⟨I, itemSet.empty, V⟩ st1 new)
    (hc : ∀ k, I.count k = c k) (hwf : I.WF) (hnd : V.Nodup)
    (hcl : closedSet MD5encoding G U c V) (hv : v ∉ V) :
    (st1.nowSet.islarger st1.I).1 = true ↔ componentDominates MD5encoding G U c v := by
  have hmem := dfs_new_iff_inComponent MD5encoding G hcons U c v _ st1 new s1 hcl hv
  have hnew := StepSpec.new_nodup MD5encoding G U c _ _ _ _ s1 hnd
  have hnow : ∀ h, st1.nowSet.count h =
      (new.countP (fun x => decide (nodeHash MD5encoding (G.node x).mInst = h)) : Nat) := by
    intro h
    rw [s1.count_now]
    simp [empty_count]
  have hc1 : ∀ k, st1.I.count k = c k := fun k => (s1.count_I k).trans (hc k)
  rw [islarger_true_iff_count st1.nowSet st1.I (s1.wf_I hwf)
    (fun k => by rw [hnow]; exact Int.natCast_nonneg _)]
  constructor
  · intro h
    exact ⟨new, hnew, hmem, fun k => by rw [← hc1, ← hnow]; exact h k⟩
  · rintro ⟨comp, hcnd, hcmem, hdom⟩ k
    rw [hc1, hnow, countP_eq_of_same_members _ new comp hnew hcnd
      (fun x => (hmem x).trans (hcmem x).symm)]
    exact hdom k

/-- The loop of `check` answers true exactly when the component of some node of
the list that is not yet visited dominates the target. -/
theorem checkLoop_iff {n : Nat} (G : SDDG n) (hcons : G.consistent) (U : List BasicBlock)
    (c : hash_t → Int) (fuel : Nat) (L : List (Fin n)) :
    ∀ (I : itemSet) (V : List (Fin n)) (r : Bool × itemSet × List (Fin n)),
      (∀ k, I.count k = c k) → I.WF → V.Nodup → closedSet MD5encoding G U c V →
      checkLoop MD5encoding G U fuel L I V = some r →
      (r.1 = true ↔ ∃ v ∈ L, v ∉ V ∧ componentDominates MD5encoding G U c v) := by
  induction L with
  | nil =>
    intro I V r _ _ _ _ e
    simp only [checkLoop, Option.some.injEq] at e
    subst e
    simp
  | cons v rest ih =>
    intro I V r hc hwf hnd hcl e
    unfold checkLoop at e
    by_cases hv : v ∈ V
    · simp only [hv, if_true] at e
      rw [ih I V r hc hwf hnd hcl e]
      constructor
      · rintro ⟨w, hw, hwV, hd⟩
        exact ⟨w, List.mem_cons_of_mem _ hw, hwV, hd⟩
      · rintro ⟨w, hw, hwV, hd⟩
        rcases List.mem_cons.mp hw with e1 | e1
        · subst e1; exact absurd hv hwV
        · exact ⟨w, e1, hwV, hd⟩
    · simp only [hv, if_false] at e
      cases e1 : dfsSDDG MD5encoding G U fuel v ⟨I, itemSet.empty, V⟩ with
      | none => simp [e1] at e
      | some st1 =>
        simp only [e1] at e
        obtain ⟨new, s1⟩ := dfsSDDG_spec_of_eq MD5encoding G U c fuel v _ st1 hc hnd e1
        have hiff := islarger_iff_componentDominates MD5encoding G hcons U c v I V st1 new s1
          hc hwf hnd hcl hv
        by_cases hl : (st1.nowSet.islarger st1.I).1 = true
        · simp only [hl, if_true, Option.some.injEq] at e
          subst e
          simp only [true_iff]
          exact ⟨v, List.mem_cons_self _ _, hv, hiff.mp hl⟩
        · simp only [hl, if_false] at e
          have hc1 : ∀ k, st1.I.count k = c k := fun k => (s1.count_I k).trans (hc k)
          have hcl1 := StepSpec.closedSet MD5encoding G U c _ _ _ _ s1 hcl
          rw [ih st1.I st1.visited r hc1 (s1.wf_I hwf) (s1.nodup hnd) hcl1 e]
          have hnd_v : ¬ componentDominates MD5encoding G U c v := fun h => hl (hiff.mpr h)
          have hmem := dfs_new_iff_inComponent MD5encoding G hcons U c v _ st1 new s1 hcl hv
          constructor
          · rintro ⟨w, hw, hwV, hd⟩
            refine ⟨w, List.mem_cons_of_mem _ hw, ?_, hd⟩
            intro hwV0
            exact hwV (s1.perm.mem_iff.mpr (List.mem_append_right _ hwV0))
          · rintro ⟨w, hw, hwV, hd⟩
            rcases List.mem_cons.mp hw with e2 | e2
            · subst e2; exact absurd hd hnd_v
            · refine ⟨w, e2, ?_, hd⟩
              intro hw1
              rcases List.mem_append.mp (s1.perm.mem_iff.mp hw1) with h | h
              · exact hnd_v (componentDominates_congr MD5encoding G hcons U c v w
                  ((hmem w).mp h) hd)
              · exact hwV h

/-- The result of `check` in terms of the components of the interesting nodes. -/
theorem check_iff_componentDominates {n : Nat} (G : SDDG n) (U : List BasicBlock)
    (I : itemSet) (fuel : Nat) (hcons : G.consistent) (hwf : I.WF) (hfuel : n ≤ fuel) :
    ∃ b I1, check MD5encoding G U fuel I = some (b, I1) ∧
      (b = true ↔ ∃ v ∈ G.interesting, componentDominates MD5encoding G U I.count v) := by
  obtain ⟨r, hr⟩ := checkLoop_total MD5encoding G U fuel hfuel G.interesting I [] List.nodup_nil
  have h := checkLoop_iff MD5encoding G hcons U I.count fuel G.interesting I [] r
    (fun _ => rfl) hwf List.nodup_nil (by intro x hx; simp at hx) hr
  refine ⟨r.1, r.2.1, by unfold check; rw [hr]; rfl, ?_⟩
  rw [h]
  simp

/-- C16: when the successor and predecessor lists of the dependence graph are
mutually consistent, the target is a well-formed map and there is fuel for
every node, `check` returns, and it returns true if and only if there is an
interesting node whose connected component in the dependence graph induced on
the useful nodes (no node at all when the node itself is not useful), each
node counted once under its hash, dominates the target. -/
theorem C16_check_iff_component_dominates {n : Nat} (G : SDDG n) (U : List BasicBlock)
    (I : itemSet) (fuel : Nat) (hcons : G.consistent) (hwf : I.WF) (hfuel : n ≤ fuel) :
    ∃ b I1, check MD5encoding G U fuel I = some (b, I1) ∧
      (b = true ↔ ∃ v ∈ G.interesting, componentDominates MD5encoding G U I.count v) :=
  check_iff_componentDominates MD5encoding G U I fuel hcons hwf hfuel

/-- C20: for a well-formed target without a positive count and any activation
set, with fuel for every node, `check` returns, and it returns true if and
only if the dependence graph has an interesting node. -/
theorem C20_check_without_positive_count {n : Nat} (G : SDDG n) (U : List BasicBlock)
    (I : itemSet) (fuel : Nat) (hwf : I.WF) (hneg : ∀ p ∈ I.mItems, p.2 ≤ 0)
    (hfuel : n ≤ fuel) :
    ∃ b I1, check MD5encoding G U fuel I = some (b, I1) ∧ (b = true ↔ G.interesting ≠ []) := by
  have hcount : ∀ k, I.count k ≤ 0 := by
    intro k
    unfold itemSet.count mapCount
    cases hf : mapFind I.mItems k with
    | none => simp
    | some v => exact hneg (k, v) (mapFind_some_mem _ _ _ hf)
  unfold check
  cases hL : G.interesting with
  | nil =>
    refine ⟨false, I, by simp [checkLoop], by simp⟩
  | cons v rest =>
    obtain ⟨st1, new, e1, s1⟩ := dfsSDDG_spec MD5encoding G U I.count fuel v
      ⟨I, itemSet.empty, []⟩ (fun _ => rfl) List.nodup_nil (by simp; omega)
    have hl : (st1.nowSet.islarger st1.I).1 = true := by
      apply islarger_of_count_le _ _ (s1.wf_I hwf)
      intro k
      rw [s1.count_I, s1.count_now, empty_count, zero_add]
      exact le_trans (hcount k) (Int.natCast_nonneg _)
    refine ⟨true, st1.I, ?_, by simp⟩
    unfold checkLoop
    simp [e1, hl]

end ComponentCheck

/-- C16, applied to the two linked calls `f(i32)` in an active block and the
target `{f(i32): 2}`. -/
theorem C16_check_iff_component_dominates_witness :
    ∃ b I1, check sampleHash twoCallsLinked [0] 2 ⟨[(sampleHash "f(i32)", 2)]⟩ = some (b, I1) ∧
      (b = true ↔ ∃ v ∈ twoCallsLinked.interesting,
        componentDominates sampleHash twoCallsLinked [0]
          (itemSet.count ⟨[(sampleHash "f(i32)", 2)]⟩) v) :=
  C16_check_iff_component_dominates sampleHash twoCallsLinked [0]
    ⟨[(sampleHash "f(i32)", 2)]⟩ 2 (by decide) (by decide) (by decide)

/-- C20, applied to the two unlinked calls and the empty target. -/
theorem C20_check_without_positive_count_witness :
    ∃ b I1, check sampleHash twoCallsApart [0] 2 itemSet.empty = some (b, I1) ∧
      (b = true ↔ twoCallsApart.interesting ≠ []) :=
  C20_check_without_positive_count sampleHash twoCallsApart [0] itemSet.empty 2 (by decide)
    (by decide) (by decide)

theorem deadGraph_acyclic : deadGraph.acyclic :=
  acyclic_of_rank deadGraph (fun _ => 0) (by
    unfold SCCGraph.edge
    decide)

/-- C17 (evaluation at the failing input): the only node of `deadGraph` is a
sink whose block 0 is not active before the call; with the target `{h(): 1}` its
check fails, `dfsNode` returns false, and block 0 is still in the activation
set. In `leakGraphSwapped` the entry node returns false in the same way and
leaves the blocks 1 and 3 of the two sinks behind. -/
theorem C17_failed_sink_keeps_its_blocks :
    deadGraph.acyclic ∧
    (dfsNode sampleHash deadGraph deadSDDG 2 1 0 ⟨⟨[(sampleHash "h()", 1)]⟩, []⟩).map
      (fun r => (r.1, r.2.UsefulBlocks)) = some (false, [0]) ∧
    leakGraphSwapped.acyclic ∧
    (leakGraphSwapped.dfsGraph sampleHash leakSDDG 4 4 ⟨leakTarget, []⟩).map
      (fun r => (r.1, r.2.UsefulBlocks)) = some (false, [1, 3]) := by
  refine ⟨deadGraph_acyclic, by decide!, leakGraphSwapped_acyclic, by decide!⟩

section Monotone

variable (MD5encoding : String → hash_t)

/-! ## `check` is monotone in the activation set -/

theorem usefulAt_mono {n : Nat} (G : SDDG n) (U U1 : List BasicBlock) (c : hash_t → Int)
    (hU : ∀ b ∈ U, b ∈ U1) (x : Fin n) (h : usefulAt MD5encoding G U c x) :
    usefulAt MD5encoding G U1 c x :=
  ⟨hU _ h.1, h.2⟩

theorem inComponent_mono {n : Nat} (G : SDDG n) (U U1 : List BasicBlock) (c : hash_t → Int)
    (hU : ∀ b ∈ U, b ∈ U1) (v x : Fin n) (h : inComponent MD5encoding G U c v x) :
    inComponent MD5encoding G U1 c v x := by
  refine ⟨usefulAt_mono MD5encoding G U U1 c hU v h.1, Relation.ReflTransGen.mono ?_ h.2⟩
  intro p q hpq
  exact ⟨hpq.1, usefulAt_mono MD5encoding G U U1 c hU q hpq.2⟩

theorem componentDominates_mono {n : Nat} (G : SDDG n) (U U1 : List BasicBlock)
    (c : hash_t → Int) (hU : ∀ b ∈ U, b ∈ U1) (v : Fin n)
    (h : componentDominates MD5encoding G U c v) :
    componentDominates MD5encoding G U1 c v := by
  classical
  obtain ⟨comp, hnd, hmem, hdom⟩ := h
  refine ⟨(Finset.univ.filter (fun x => inComponent MD5encoding G U1 c v x)).toList,
    Finset.nodup_toList _, fun x => by simp, ?_⟩
  intro h
  have hsub : comp ⊆ (Finset.univ.filter
      (fun x => inComponent MD5encoding G U1 c v x)).toList := by
    intro x hx
    simp only [Finset.mem_toList, Finset.mem_filter, Finset.mem_univ, true_and]
    exact inComponent_mono MD5encoding G U U1 c hU v x ((hmem x).mp hx)
  have hle := (List.subperm_of_subset hnd hsub).countP_le
    (fun x => decide (nodeHash MD5encoding (G.node x).mInst = h))
  exact le_trans (hdom h) (by exact_mod_cast hle)

theorem check_WF {n : Nat} (G : SDDG n) (U : List BasicBlock) (fuel : Nat) (I : itemSet)
    (r : Bool × itemSet) (e : check MD5encoding G U fuel I = some r) (hwf : I.WF) :
    r.2.WF := by
  unfold check at e
  cases h : checkLoop MD5encoding G U fuel G.interesting I [] with
  | none => simp [h] at e
  | some r1 =>
    simp only [h, Option.map_some', Option.some.injEq] at e
    subst e
    exact (checkLoop_inv MD5encoding G U I.count fuel _ I [] r1 (fun _ => rfl) List.nodup_nil
      (by intro x hx; simp at hx) h).2.1 hwf

/-- Enlarging the activation set, and replacing the target by one with the same
counts, never turns a true result of `check` into false. -/
theorem check_mono {n : Nat} (G : SDDG n) (hcons : G.consistent) (U U1 : List BasicBlock)
    (hU : ∀ b ∈ U, b ∈ U1) (fuel : Nat) (hfuel : n ≤ fuel) (I I1 : itemSet) (hwf : I.WF)
    (hwf1 : I1.WF) (hc : ∀ k, I1.count k = I.count k) (I2 : itemSet)
    (e : check MD5encoding G U fuel I = some (true, I2)) :
    ∃ I3, check MD5encoding G U1 fuel I1 = some (true, I3) := by
  obtain ⟨b, I4, e1, h1⟩ := check_iff_componentDominates MD5encoding G U I fuel hcons
    hwf hfuel
  obtain ⟨b1, I5, e2, h2⟩ := check_iff_componentDominates MD5encoding G U1 I1 fuel
    hcons hwf1 hfuel
  rw [e] at e1
  simp only [Option.some.injEq, Prod.mk.injEq] at e1
  obtain ⟨v, hv, hd⟩ := h1.mp e1.1.symm
  have hd1 : componentDominates MD5encoding G U1 I1.count v := by
    have := componentDominates_mono MD5encoding G U U1 I.count hU v hd
    have hfun : I1.count = I.count := funext hc
    rw [hfun]
    exact this
  have hb1 : b1 = true := h2.mpr ⟨v, hv, hd1⟩
  subst hb1
  exact ⟨I5, e2⟩

end Monotone

section PathSearch

variable (MD5encoding : String → hash_t)

/-! ## The search reaches every path, or succeeds earlier -/

/-- What a call of `dfsNode` leaves of the state: the counts and the
well-formedness of the target, and every active block that does not belong to
a node reachable from the node called. -/
theorem dfsNode_frame {m n : Nat} (g : SCCGraph m) (G : SDDG n) (fuelD fuel : Nat) :
    ∀ (N : Fin m) (st : SearchState) (r : Bool × SearchState),
      dfsNode MD5encoding g G fuelD fuel N st = some r →
      (∀ k, r.2.I.count k = st.I.count k) ∧ (st.I.WF → r.2.I.WF) ∧
      ∀ b ∈ st.UsefulBlocks, b ∈ r.2.UsefulBlocks ∨
        ∃ D, Relation.ReflTransGen g.edge N D ∧ b ∈ (g.SCCNodes D).blocks := by
  induction fuel with
  | zero => intro N st r e; simp [dfsNode] at e
  | succ fuel ih =>
    intro N st r e
    unfold dfsNode at e
    have hloop : ∀ (L : List (Fin m)), (∀ M ∈ L, g.edge N M) → ∀ (s : SearchState)
        (r1 : Bool × SearchState), firstM (dfsNode MD5encoding g G fuelD fuel) L s = some r1 →
        (∀ k, r1.2.I.count k = s.I.count k) ∧ (s.I.WF → r1.2.I.WF) ∧
        ∀ b ∈ s.UsefulBlocks, b ∈ r1.2.UsefulBlocks ∨
          ∃ D, Relation.TransGen g.edge N D ∧ b ∈ (g.SCCNodes D).blocks := by
      intro L
      induction L with
      | nil =>
        intro _ s r1 e1
        simp only [firstM, Option.some.injEq] at e1
        subst e1
        exact ⟨fun _ => rfl, id, fun b hb => Or.inl hb⟩
      | cons x rest ihL =>
        intro hL s r1 e1
        unfold firstM at e1
        cases hx : dfsNode MD5encoding g G fuelD fuel x s with
        | none => simp [hx] at e1
        | some r2 =>
          obtain ⟨b2, s2⟩ := r2
          obtain ⟨h1, h2, h3⟩ := ih x s (b2, s2) hx
          have hedge : g.edge N x := hL x (List.mem_cons_self _ _)
          have h3t : ∀ b ∈ s.UsefulBlocks, b ∈ s2.UsefulBlocks ∨
              ∃ D, Relation.TransGen g.edge N D ∧ b ∈ (g.SCCNodes D).blocks := by
            intro b hb
            rcases h3 b hb with h | ⟨D, hD, hbD⟩
            · exact Or.inl h
            · exact Or.inr ⟨D, Relation.TransGen.head' hedge hD, hbD⟩
          cases b2 with
          | true =>
            simp only [hx, Option.some.injEq] at e1
            subst e1
            exact ⟨h1, h2, h3t⟩
          | false =>
            simp only [hx] at e1
            obtain ⟨k1, k2, k3⟩ :=
              ihL (fun M hM => hL M (List.mem_cons_of_mem _ hM)) s2 r1 e1
            refine ⟨fun k => (k1 k).trans (h1 k), fun h => k2 (h2 h), ?_⟩
            intro b hb
            rcases h3t b hb with h | h
            · exact k3 b h
            · exact Or.inr h
    cases hf : firstM (dfsNode MD5encoding g G fuelD fuel) (g.SCCNodes N).mSuccessors
        { st with UsefulBlocks := setInsertAll st.UsefulBlocks (g.SCCNodes N).blocks } with
    | none => simp [hf] at e
    | some r1 =>
      obtain ⟨k1, k2, k3⟩ := hloop _ (fun M hM => hM) _ r1 hf
      have k3' : ∀ b ∈ st.UsefulBlocks, b ∈ r1.2.UsefulBlocks ∨
          ∃ D, Relation.ReflTransGen g.edge N D ∧ b ∈ (g.SCCNodes D).blocks := by
        intro b hb
        rcases k3 b ((mem_setInsertAll _ _ b).mpr (Or.inr hb)) with h | ⟨D, hD, hbD⟩
        · exact Or.inl h
        · exact Or.inr ⟨D, hD.to_reflTransGen, hbD⟩
      have kerase : ∀ b ∈ st.UsefulBlocks,
          b ∈ setEraseAll r1.2.UsefulBlocks (g.SCCNodes N).blocks ∨
          ∃ D, Relation.ReflTransGen g.edge N D ∧ b ∈ (g.SCCNodes D).blocks := by
        intro b hb
        by_cases hbN : b ∈ (g.SCCNodes N).blocks
        · exact Or.inr ⟨N, Relation.ReflTransGen.refl, hbN⟩
        · rcases k3' b hb with h | h
          · exact Or.inl ((mem_setEraseAll _ _ b).mpr ⟨h, hbN⟩)
          · exact Or.inr h
      obtain ⟨b1, s1⟩ := r1
      cases b1 with
      | true =>
        simp only [hf, Option.some.injEq] at e
        subst e
        exact ⟨k1, k2, kerase⟩
      | false =>
        simp only [hf] at e
        by_cases hs : (g.SCCNodes N).mSuccessors.isEmpty = true
        · simp only [hs, if_true] at e
          cases hc : check MD5encoding G s1.UsefulBlocks fuelD s1.I with
          | none => simp [hc] at e
          | some rc =>
            simp only [hc, Option.some.injEq] at e
            subst e
            exact ⟨fun k => (check_count MD5encoding G _ fuelD _ rc hc k).trans (k1 k),
              fun h => check_WF MD5encoding G _ fuelD _ rc hc (k2 h), k3'⟩
        · simp only [hs, Bool.false_eq_true, if_false, Option.some.injEq] at e
          subst e
          exact ⟨k1, k2, kerase⟩

/-- On an acyclic SCC graph one bound on the fuel serves every node. -/
theorem dfsNode_total_uniform {m n : Nat} (g : SCCGraph m) (G : SDDG n) (hacyc : g.acyclic) :
    ∃ fuel0, ∀ (N : Fin m) fuelD fuel, n ≤ fuelD → fuel0 ≤ fuel → ∀ st,
      ∃ r, dfsNode MD5encoding g G fuelD fuel N st = some r := by
  choose f hf using fun N => dfsNode_total MD5encoding g G hacyc N
  refine ⟨Finset.univ.sup f, ?_⟩
  intro N fuelD fuel hD hfuel st
  exact hf N fuelD fuel hD (le_trans (Finset.le_sup (Finset.mem_univ N)) hfuel) st

theorem mem_pathBlocks_cons {m : Nat} (g : SCCGraph m) (N : Fin m) (rest : List (Fin m))
    (b : BasicBlock) :
    b ∈ g.pathBlocks (N :: rest) ↔ b ∈ (g.SCCNodes N).blocks ∨ b ∈ g.pathBlocks rest := by
  simp only [SCCGraph.pathBlocks, mem_setInsertAll]

/-- Along a path to a sink on which `check` succeeds for every activation set
that contains the blocks `P`: when the blocks of `P` outside the rest of the
path are active and belong to ancestors of the node, `dfsNode` returns true. -/
theorem dfsNode_true_on_path {m n : Nat} (g : SCCGraph m) (G : SDDG n) (hacyc : g.acyclic)
    (hdisj : ∀ A D b, b ∈ (g.SCCNodes A).blocks → b ∈ (g.SCCNodes D).blocks → A = D)
    (fuelD : Nat) (c : hash_t → Int) (P : List BasicBlock)
    (hgood : ∀ (U : List BasicBlock) (I1 : itemSet), (∀ b ∈ P, b ∈ U) →
      (∀ k, I1.count k = c k) → I1.WF →
      ∃ I2, check MD5encoding G U fuelD I1 = some (true, I2))
    (fuel0 : Nat)
    (htotal : ∀ (N : Fin m) fuel, fuel0 ≤ fuel → ∀ st,
      ∃ r, dfsNode MD5encoding g G fuelD fuel N st = some r)
    (rest : List (Fin m)) :
    ∀ (N : Fin m) (pre : List (Fin m)) (st : SearchState) (fuel : Nat),
      g.isSinkPath N rest = true →
      (∀ A ∈ pre, Relation.TransGen g.edge A N) →
      (∀ b ∈ P, (∃ A ∈ pre, b ∈ (g.SCCNodes A).blocks) ∨ b ∈ g.pathBlocks (N :: rest)) →
      (∀ A ∈ pre, ∀ b ∈ (g.SCCNodes A).blocks, b ∈ st.UsefulBlocks) →
      (∀ k, st.I.count k = c k) → st.I.WF → fuel0 + rest.length + 1 ≤ fuel →
      ∃ st1, dfsNode MD5encoding g G fuelD fuel N st = some (true, st1) := by
  induction rest with
  | nil =>
    intro N pre st fuel hpath _ hcover hpre hc hwf hfuel
    obtain ⟨f, rfl⟩ : ∃ f, fuel = f + 1 := ⟨fuel - 1, by omega⟩
    simp only [SCCGraph.isSinkPath] at hpath
    have hnil : (g.SCCNodes N).mSuccessors = [] := List.isEmpty_iff.mp hpath
    unfold dfsNode
    simp only [hnil, firstM, List.isEmpty_nil, if_true]
    obtain ⟨I2, hI2⟩ := hgood (setInsertAll st.UsefulBlocks (g.SCCNodes N).blocks) st.I
      (by
        intro b hb
        rcases hcover b hb with ⟨A, hA, hbA⟩ | h
        · exact (mem_setInsertAll _ _ b).mpr (Or.inr (hpre A hA b hbA))
        · rcases (mem_pathBlocks_cons g N [] b).mp h with h1 | h1
          · exact (mem_setInsertAll _ _ b).mpr (Or.inl h1)
          · simp [SCCGraph.pathBlocks] at h1)
      hc hwf
    simp only [hI2]
    exact ⟨_, rfl⟩
  | cons M rest1 ih =>
    intro N pre st fuel hpath hanc hcover hpre hc hwf hfuel
    obtain ⟨f, rfl⟩ : ∃ f, fuel = f + 1 := ⟨fuel - 1, by omega⟩
    simp only [SCCGraph.isSinkPath, Bool.and_eq_true, decide_eq_true_eq] at hpath
    obtain ⟨hMN, hpathM⟩ := hpath
    have hancM : ∀ A ∈ pre ++ [N], Relation.TransGen g.edge A M := by
      intro A hA
      rcases List.mem_append.mp hA with h | h
      · exact Relation.TransGen.tail (hanc A h) hMN
      · simp only [List.mem_singleton] at h
        subst h
        exact Relation.TransGen.single hMN
    have hcoverM : ∀ b ∈ P, (∃ A ∈ pre ++ [N], b ∈ (g.SCCNodes A).blocks) ∨
        b ∈ g.pathBlocks (M :: rest1) := by
      intro b hb
      rcases hcover b hb with ⟨A, hA, hbA⟩ | h
      · exact Or.inl ⟨A, List.mem_append_left _ hA, hbA⟩
      · rcases (mem_pathBlocks_cons g N (M :: rest1) b).mp h with h1 | h1
        · exact Or.inl ⟨N, by simp, h1⟩
        · exact Or.inr h1
    have hloop : ∀ (L : List (Fin m)), (∀ x ∈ L, g.edge N x) → M ∈ L →
        ∀ s : SearchState, (∀ A ∈ pre ++ [N], ∀ b ∈ (g.SCCNodes A).blocks, b ∈ s.UsefulBlocks) →
        (∀ k, s.I.count k = c k) → s.I.WF →
        ∃ s1, firstM (dfsNode MD5encoding g G fuelD f) L s = some (true, s1) := by
      intro L
      induction L with
      | nil => intro _ hM; simp at hM
      | cons x L1 ihL =>
        intro hL hM s hs hcs hwfs
        obtain ⟨r, hr⟩ := htotal x f (by simp at hfuel; omega) s
        obtain ⟨b, s1⟩ := r
        unfold firstM
        cases b with
        | true => simp only [hr]; exact ⟨_, rfl⟩
        | false =>
          simp only [hr]
          have hxM : x ≠ M := by
            intro e
            subst e
            obtain ⟨s2, hs2⟩ := ih x (pre ++ [N]) s f hpathM hancM hcoverM hs hcs hwfs
              (by simp at hfuel; omega)
            rw [hr] at hs2
            simp at hs2
          have hM1 : M ∈ L1 := by
            rcases List.mem_cons.mp hM with e | e
            · exact absurd e.symm hxM
            · exact e
          obtain ⟨k1, k2, k3⟩ := dfsNode_frame MD5encoding g G fuelD f x s (false, s1) hr
          apply ihL (fun y hy => hL y (List.mem_cons_of_mem _ hy)) hM1 s1
          · intro A hA b hb
            rcases k3 b (hs A hA b hb) with h | ⟨D, hD, hbD⟩
            · exact h
            · exfalso
              have hAD : A = D := hdisj A D b hb hbD
              subst hAD
              have hNx : g.edge N x := hL x (List.mem_cons_self _ _)
              have hNA : Relation.TransGen g.edge N A := Relation.TransGen.head' hNx hD
              rcases List.mem_append.mp hA with h | h
              · exact hacyc A ((hanc A h).trans hNA)
              · simp only [List.mem_singleton] at h
                subst h
                exact hacyc A hNA
          · exact fun k => (k1 k).trans (hcs k)
          · exact k2 hwfs
    obtain ⟨s1, hs1⟩ := hloop (g.SCCNodes N).mSuccessors (fun x hx => hx) hMN
      { st with UsefulBlocks := setInsertAll st.UsefulBlocks (g.SCCNodes N).blocks }
      (by
        intro A hA b hb
        rcases List.mem_append.mp hA with h | h
        · exact (mem_setInsertAll _ _ b).mpr (Or.inr (hpre A h b hb))
        · simp only [List.mem_singleton] at h
          subst h
          exact (mem_setInsertAll _ _ b).mpr (Or.inl hb))
      hc hwf
    unfold dfsNode
    simp only [hs1]
    exact ⟨_, rfl⟩

/-- C19: on an acyclic SCC graph whose nodes have disjoint blocks, with a
dependence graph whose successor and predecessor lists are mutually
consistent, a well-formed target and any initial activation set: when there is
a path from the entry node to a sink for which `check` returns true with the
activation set equal to exactly the blocks of the path, `dfsGraph` returns true
for all large enough fuel. It rests on the monotonicity of `check`: for sets
`U ⊆ U1`, when `check` returns true with `U` it returns true with `U1`. -/
theorem C19_no_false_negatives {m n : Nat} (g : SCCGraph m) (G : SDDG n) (hacyc : g.acyclic)
    (hdisj : ∀ A D b, b ∈ (g.SCCNodes A).blocks → b ∈ (g.SCCNodes D).blocks → A = D)
    (hcons : G.consistent) (I : itemSet) (hwf : I.WF) (U0 : List BasicBlock) (fuelD : Nat)
    (hD : n ≤ fuelD) (rest : List (Fin m)) (hpath : g.isSinkPath g.EntryNode rest = true)
    (I2 : itemSet)
    (hcheck : check MD5encoding G (g.pathBlocks (g.EntryNode :: rest)) fuelD I = some (true, I2)) :
    (∃ fuel0, ∀ fuel, fuel0 ≤ fuel →
      ∃ st, g.dfsGraph MD5encoding G fuelD fuel ⟨I, U0⟩ = some (true, st)) ∧
    (∀ (U U1 : List BasicBlock) (I3 : itemSet), (∀ b ∈ U, b ∈ U1) →
      check MD5encoding G U fuelD I = some (true, I3) →
      ∃ I4, check MD5encoding G U1 fuelD I = some (true, I4)) := by
  refine ⟨?_, ?_⟩
  · obtain ⟨fuel0, h0⟩ := dfsNode_total_uniform MD5encoding g G hacyc
    refine ⟨fuel0 + rest.length + 1, ?_⟩
    intro fuel hfuel
    exact dfsNode_true_on_path MD5encoding g G hacyc hdisj fuelD I.count
      (g.pathBlocks (g.EntryNode :: rest))
      (fun U I1 hU hc1 hwf1 =>
        check_mono MD5encoding G hcons _ U hU fuelD hD I I1 hwf hwf1 hc1 I2 hcheck)
      fuel0 (fun N fuel hf st => h0 N fuelD fuel hD hf st) rest g.EntryNode [] ⟨I, U0⟩ fuel
      hpath (by intro A hA; simp at hA) (fun b hb => Or.inr hb)
      (by intro A hA; simp at hA) (fun _ => rfl) hwf hfuel
  · intro U U1 I3 hU e
    exact check_mono MD5encoding G hcons U U1 hU fuelD hD I I hwf hwf (fun _ => rfl) I3 e

end PathSearch

/-- C19, applied to `leakGraph`, the target `{f(i32): 1}` and the path through
the blocks 0, 2 and 3, on which the call `f(i32)` of block 2 is useful. -/
theorem C19_no_false_negatives_witness :
    (∃ fuel0, ∀ fuel, fuel0 ≤ fuel →
      ∃ st, leakGraph.dfsGraph sampleHash leakSDDG 2 fuel
        ⟨⟨[(sampleHash "f(i32)", 1)]⟩, []⟩ = some (true, st)) ∧
    (∀ (U U1 : List BasicBlock) (I3 : itemSet), (∀ b ∈ U, b ∈ U1) →
      check sampleHash leakSDDG U 2 ⟨[(sampleHash "f(i32)", 1)]⟩ = some (true, I3) →
      ∃ I4, check sampleHash leakSDDG U1 2 ⟨[(sampleHash "f(i32)", 1)]⟩ = some (true, I4)) :=
  C19_no_false_negatives sampleHash leakGraph leakSDDG leakGraph_acyclic (by decide)
    (by decide) ⟨[(sampleHash "f(i32)", 1)]⟩ (by decide) [] 2 (by decide) [2, 1] (by decide)
    ⟨[(sampleHash "f(i32)", 1)]⟩ (by decide!)

/-! ## The relation `buildGraph` constructs -/

theorem buildLoopTrace_erase {m : Nat} (F : Function) (BBSCC : BasicBlock → Option (Fin m))
    (fuel : Nat) : ∀ (q v : List (Fin m)) (nodes : Fin m → SCCNode m) (done : List (Fin m)),
      (buildLoopTrace F BBSCC fuel q v nodes done).map Prod.fst =
        buildLoop F BBSCC fuel q v nodes := by
  induction fuel with
  | zero =>
    intro q v nodes done
    cases q with
    | nil => simp [buildLoopTrace, buildLoop]
    | cons x rest => simp [buildLoopTrace, buildLoop]
  | succ fuel ih =>
    intro q v nodes done
    cases q with
    | nil => simp [buildLoopTrace, buildLoop]
    | cons x rest =>
      unfold buildLoopTrace buildLoop
      cases hb : buildRelation F BBSCC x nodes with
      | none => simp
      | some nodes1 => simp only [ih]

theorem mem_setSCCNode_addSuccessor {m : Nat} (nd : Fin m → SCCNode m) (i M N x : Fin m) :
    x ∈ (setSCCNode nd i ((nd i).addSuccessor M) N).mSuccessors ↔
      x ∈ (nd N).mSuccessors ∨ (N = i ∧ x = M) := by
  unfold setSCCNode SCCNode.addSuccessor
  by_cases h : N = i
  · subst h
    simp only [if_true, mem_setInsert, true_and]
    tauto
  · simp [h]

theorem setSCCNode_addSuccessor_pred {m : Nat} (nd : Fin m → SCCNode m) (i M N : Fin m) :
    (setSCCNode nd i ((nd i).addSuccessor M) N).mPredecessors = (nd N).mPredecessors := by
  unfold setSCCNode SCCNode.addSuccessor
  by_cases h : N = i
  · simp [h]
  · simp [h]

theorem mem_setSCCNode_addPredecessor {m : Nat} (nd : Fin m → SCCNode m) (i M N x : Fin m) :
    x ∈ (setSCCNode nd i ((nd i).addPredecessor M) N).mPredecessors ↔
      x ∈ (nd N).mPredecessors ∨ (N = i ∧ x = M) := by
  unfold setSCCNode SCCNode.addPredecessor
  by_cases h : N = i
  · subst h
    simp only [if_true, mem_setInsert, true_and]
    tauto
  · simp [h]

/-- The effect of the inner loop of `buildRelation` over the control-flow
successors `L` of one block. -/
theorem buildRelation_inner {m : Nat} (BBSCC : BasicBlock → Option (Fin m)) (self : Fin m)
    (L : List BasicBlock) : ∀ (nd nd1 : Fin m → SCCNode m),
      forEachM
        (fun SB (nodes2 : Fin m → SCCNode m) =>
          match getSCC BBSCC SB with
          | none => none
          | some M =>
            let nodes3 := setSCCNode nodes2 self ((nodes2 self).addSuccessor M)
            some (setSCCNode nodes3 M ((nodes3 M).addPredecessor self)))
        L nd = some nd1 →
      (∀ N, (nd1 N).blocks = (nd N).blocks) ∧
      (∀ N x, x ∈ (nd1 N).mSuccessors ↔
        x ∈ (nd N).mSuccessors ∨ (N = self ∧ ∃ s ∈ L, getSCC BBSCC s = some x)) ∧
      (∀ M x, x ∈ (nd1 M).mPredecessors ↔
        x ∈ (nd M).mPredecessors ∨ (x = self ∧ ∃ s ∈ L, getSCC BBSCC s = some M)) := by
  induction L with
  | nil =>
    intro nd nd1 e
    simp only [forEachM, Option.some.injEq] at e
    subst e
    simp
  | cons SB rest ih =>
    intro nd nd1 e
    unfold forEachM at e
    cases hg : getSCC BBSCC SB with
    | none => simp [hg] at e
    | some M0 =>
      simp only [hg] at e
      obtain ⟨h1, h2, h3⟩ := ih _ nd1 e
      refine ⟨?_, ?_, ?_⟩
      · intro N
        rw [h1, setSCCNode_addPredecessor_blocks, setSCCNode_addSuccessor_blocks]
      · intro N x
        rw [h2, setSCCNode_addPredecessor_succ, mem_setSCCNode_addSuccessor]
        simp only [List.mem_cons, exists_eq_or_imp, hg, Option.some.injEq]
        constructor
        · rintro ((h | ⟨h, rfl⟩) | ⟨h, s, hs, hx⟩)
          · exact Or.inl h
          · exact Or.inr ⟨h, Or.inl rfl⟩
          · exact Or.inr ⟨h, Or.inr ⟨s, hs, hx⟩⟩
        · rintro (h | ⟨h, h4 | ⟨s, hs, hx⟩⟩)
          · exact Or.inl (Or.inl h)
          · exact Or.inl (Or.inr ⟨h, h4.symm⟩)
          · exact Or.inr ⟨h, s, hs, hx⟩
      · intro M x
        rw [h3, mem_setSCCNode_addPredecessor, setSCCNode_addSuccessor_pred]
        simp only [List.mem_cons, exists_eq_or_imp, hg, Option.some.injEq]
        constructor
        · rintro ((h | ⟨h, rfl⟩) | ⟨h, s, hs, hx⟩)
          · exact Or.inl h
          · exact Or.inr ⟨rfl, Or.inl h.symm⟩
          · exact Or.inr ⟨h, Or.inr ⟨s, hs, hx⟩⟩
        · rintro (h | ⟨h, h4 | ⟨s, hs, hx⟩⟩)
          · exact Or.inl (Or.inl h)
          · exact Or.inl (Or.inr ⟨h4.symm, h⟩)
          · exact Or.inr ⟨h, s, hs, hx⟩

theorem buildRelation_inner_total {m : Nat} (BBSCC : BasicBlock → Option (Fin m))
    (self : Fin m) (L : List BasicBlock) (hL : ∀ s ∈ L, ∃ M, getSCC BBSCC s = some M) :
    ∀ (nd : Fin m → SCCNode m), ∃ nd1,
      forEachM
        (fun SB (nodes2 : Fin m → SCCNode m) =>
          match getSCC BBSCC SB with
          | none => none
          | some M =>
            let nodes3 := setSCCNode nodes2 self ((nodes2 self).addSuccessor M)
            some (setSCCNode nodes3 M ((nodes3 M).addPredecessor self)))
        L nd = some nd1 := by
  induction L with
  | nil => intro nd; exact ⟨nd, rfl⟩
  | cons SB rest ih =>
    intro nd
    obtain ⟨M0, hg⟩ := hL SB (List.mem_cons_self _ _)
    unfold forEachM
    simp only [hg]
    exact ih (fun s hs => hL s (List.mem_cons_of_mem _ hs)) _

/-- The effect of the outer loop of `buildRelation` over a list of blocks. -/
theorem buildRelation_outer {m : Nat} (F : Function) (BBSCC : BasicBlock → Option (Fin m))
    (self : Fin m) (Bs : List BasicBlock) : ∀ (nd nd1 : Fin m → SCCNode m),
      forEachM
        (fun block (nodes1 : Fin m → SCCNode m) =>
          forEachM
            (fun SB (nodes2 : Fin m → SCCNode m) =>
              match getSCC BBSCC SB with
              | none => none
              | some M =>
                let nodes3 := setSCCNode nodes2 self ((nodes2 self).addSuccessor M)
                some (setSCCNode nodes3 M ((nodes3 M).addPredecessor self)))
            (F.succ block) nodes1)
        Bs nd = some nd1 →
      (∀ N, (nd1 N).blocks = (nd N).blocks) ∧
      (∀ N x, x ∈ (nd1 N).mSuccessors ↔
        x ∈ (nd N).mSuccessors ∨
          (N = self ∧ ∃ b ∈ Bs, ∃ s ∈ F.succ b, getSCC BBSCC s = some x)) ∧
      (∀ M x, x ∈ (nd1 M).mPredecessors ↔
        x ∈ (nd M).mPredecessors ∨
          (x = self ∧ ∃ b ∈ Bs, ∃ s ∈ F.succ b, getSCC BBSCC s = some M)) := by
  induction Bs with
  | nil =>
    intro nd nd1 e
    simp only [forEachM, Option.some.injEq] at e
    subst e
    simp
  | cons b rest ih =>
    intro nd nd1 e
    unfold forEachM at e
    cases hi : forEachM
        (fun SB (nodes2 : Fin m → SCCNode m) =>
          match getSCC BBSCC SB with
          | none => none
          | some M =>
            let nodes3 := setSCCNode nodes2 self ((nodes2 self).addSuccessor M)
            some (setSCCNode nodes3 M ((nodes3 M).addPredecessor self)))
        (F.succ b) nd with
    | none => simp [hi] at e
    | some nd2 =>
      simp only [hi] at e
      obtain ⟨a1, a2, a3⟩ := buildRelation_inner BBSCC self (F.succ b) nd nd2 hi
      obtain ⟨h1, h2, h3⟩ := ih nd2 nd1 e
      refine ⟨fun N => (h1 N).trans (a1 N), ?_, ?_⟩
      · intro N x
        rw [h2, a2]
        simp only [List.mem_cons, exists_eq_or_imp]
        generalize (∃ s ∈ F.succ b, getSCC BBSCC s = some x) = P
        generalize (∃ b1 ∈ rest, ∃ s ∈ F.succ b1, getSCC BBSCC s = some x) = Q
        tauto
      · intro M x
        rw [h3, a3]
        simp only [List.mem_cons, exists_eq_or_imp]
        generalize (∃ s ∈ F.succ b, getSCC BBSCC s = some M) = P
        generalize (∃ b1 ∈ rest, ∃ s ∈ F.succ b1, getSCC BBSCC s = some M) = Q
        tauto

theorem buildRelation_outer_total {m : Nat} (F : Function)
    (BBSCC : BasicBlock → Option (Fin m)) (self : Fin m) (Bs : List BasicBlock)
    (hBs : ∀ b ∈ Bs, ∀ s ∈ F.succ b, ∃ M, getSCC BBSCC s = some M) :
    ∀ (nd : Fin m → SCCNode m), ∃ nd1,
      forEachM
        (fun block (nodes1 : Fin m → SCCNode m) =>
          forEachM
            (fun SB (nodes2 : Fin m → SCCNode m) =>
              match getSCC BBSCC SB with
              | none => none
              | some M =>
                let nodes3 := setSCCNode nodes2 self ((nodes2 self).addSuccessor M)
                some (setSCCNode nodes3 M ((nodes3 M).addPredecessor self)))
            (F.succ block) nodes1)
        Bs nd = some nd1 := by
  induction Bs with
  | nil => intro nd; exact ⟨nd, rfl⟩
  | cons b rest ih =>
    intro nd
    obtain ⟨nd2, h2⟩ := buildRelation_inner_total BBSCC self (F.succ b)
      (hBs b (List.mem_cons_self _ _)) nd
    unfold forEachM
    simp only [h2]
    exact ih (fun b1 hb1 => hBs b1 (List.mem_cons_of_mem _ hb1)) nd2

/-- What `buildRelation` does to the arena: blocks stay, the node gains the
components of the control-flow successors of its blocks as successors, and
each of them gains the node as predecessor. -/
theorem buildRelation_spec {m : Nat} (F : Function) (BBSCC : BasicBlock → Option (Fin m))
    (self : Fin m) (nd nd1 : Fin m → SCCNode m) (e : buildRelation F BBSCC self nd = some nd1) :
    (∀ N, (nd1 N).blocks = (nd N).blocks) ∧
    (∀ N x, x ∈ (nd1 N).mSuccessors ↔
      x ∈ (nd N).mSuccessors ∨ (N = self ∧ sccEdge F BBSCC (fun i => (nd i).blocks) self x)) ∧
    (∀ M x, x ∈ (nd1 M).mPredecessors ↔
      x ∈ (nd M).mPredecessors ∨ (x = self ∧ sccEdge F BBSCC (fun i => (nd i).blocks) self M)) :=
  buildRelation_outer F BBSCC self (nd self).blocks nd nd1 e

theorem buildRelation_total {m : Nat} (F : Function) (BBSCC : BasicBlock → Option (Fin m))
    (self : Fin m) (nd : Fin m → SCCNode m)
    (h : ∀ b ∈ (nd self).blocks, ∀ s ∈ F.succ b, ∃ M, getSCC BBSCC s = some M) :
    ∃ nd1, buildRelation F BBSCC self nd = some nd1 :=
  buildRelation_outer_total F BBSCC self (nd self).blocks h nd

/-- What the inner loop of `buildGraph` does to the queue and the visited set:
`extra` lists the successors it pushes. -/
theorem pushSuccessors_spec {m : Nat} (succs : List (Fin m)) :
    ∀ (q v : List (Fin m)), ∃ extra,
      (pushSuccessors succs q v).1 = q ++ extra ∧
      (pushSuccessors succs q v).2.Perm (extra ++ v) ∧ extra.Nodup ∧
      (∀ x ∈ extra, x ∉ v) ∧ (∀ x, x ∈ extra ∨ x ∈ v ↔ x ∈ succs ∨ x ∈ v) := by
  induction succs with
  | nil =>
    intro q v
    exact ⟨[], by simp [pushSuccessors], by simp [pushSuccessors], List.nodup_nil,
      by simp, by simp⟩
  | cons a rest ih =>
    intro q v
    unfold pushSuccessors
    simp only [List.foldl_cons]
    by_cases ha : a ∈ v
    · simp only [ha, if_true]
      obtain ⟨extra, h1, h2, h3, h4, h5⟩ := ih q v
      refine ⟨extra, h1, h2, h3, h4, ?_⟩
      intro x
      rw [h5]
      simp only [List.mem_cons]
      constructor
      · rintro (h | h)
        · exact Or.inl (Or.inr h)
        · exact Or.inr h
      · rintro ((h | h) | h)
        · exact Or.inr (h ▸ ha)
        · exact Or.inl h
        · exact Or.inr h
    · simp only [ha, if_false]
      obtain ⟨extra, h1, h2, h3, h4, h5⟩ := ih (q ++ [a]) (setInsert v a)
      have hp := setInsert_perm v a ha
      refine ⟨a :: extra, ?_, ?_, ?_, ?_, ?_⟩
      · show (pushSuccessors rest (q ++ [a]) (setInsert v a)).1 = _
        rw [h1]; simp
      · show (pushSuccessors rest (q ++ [a]) (setInsert v a)).2.Perm _
        refine h2.trans ?_
        refine (List.Perm.append_left extra hp).trans ?_
        simp only [List.cons_append]
        exact List.perm_middle
      · refine List.nodup_cons.mpr ⟨?_, h3⟩
        intro hmem
        exact h4 a hmem ((mem_setInsert v a a).mpr (Or.inl rfl))
      · intro x hx
        rcases List.mem_cons.mp hx with e | e
        · subst e; exact ha
        · intro hxv
          exact h4 x e ((mem_setInsert v a x).mpr (Or.inr hxv))
      · intro x
        have := h5 x
        simp only [mem_setInsert] at this
        simp only [List.mem_cons]
        tauto

theorem sccEdge_congr {m : Nat} (F : Function) (BBSCC : BasicBlock → Option (Fin m))
    (sccs : Fin m → List BasicBlock) (nodes : Fin m → SCCNode m)
    (h : ∀ N, (nodes N).blocks = sccs N) (N M : Fin m) :
    sccEdge F BBSCC (fun i => (nodes i).blocks) N M ↔ sccEdge F BBSCC sccs N M := by
  unfold sccEdge
  simp only [h]

/-- One iteration of the loop of `buildGraph` keeps the invariant. -/
theorem BuildInv.step {m : Nat} (F : Function) (BBSCC : BasicBlock → Option (Fin m))
    (sccs : Fin m → List BasicBlock) (E now : Fin m) (q v : List (Fin m))
    (nodes nodes1 : Fin m → SCCNode m) (done : List (Fin m))
    (inv : BuildInv F BBSCC sccs E (now :: q) v nodes done)
    (e : buildRelation F BBSCC now nodes = some nodes1) :
    BuildInv F BBSCC sccs E (pushSuccessors (nodes1 now).mSuccessors q v).1
      (pushSuccessors (nodes1 now).mSuccessors q v).2 nodes1 (done ++ [now]) := by
  obtain ⟨b1, b2, b3⟩ := buildRelation_spec F BBSCC now nodes nodes1 e
  simp only [sccEdge_congr F BBSCC sccs nodes inv.blocks_eq] at b2 b3
  obtain ⟨extra, p1, p2, p3, p4, p5⟩ := pushSuccessors_spec (nodes1 now).mSuccessors q v
  have hnow_done : now ∉ done := inv.queue_fresh now (List.mem_cons_self _ _)
  have hnow_v : now ∈ v := (inv.visited_iff now).mpr (Or.inr (List.mem_cons_self _ _))
  have hq : q.Nodup := (List.nodup_cons.mp inv.queue_nodup).2
  have hnow_q : now ∉ q := (List.nodup_cons.mp inv.queue_nodup).1
  have hsucc_now : ∀ M, M ∈ (nodes1 now).mSuccessors ↔ sccEdge F BBSCC sccs now M := by
    intro M
    rw [b2]
    constructor
    · rintro (h | ⟨_, h⟩)
      · exact absurd h (inv.succ_fresh now hnow_done M)
      · exact h
    · intro h
      exact Or.inr ⟨rfl, h⟩
  have hv2 : ∀ x, x ∈ (pushSuccessors (nodes1 now).mSuccessors q v).2 ↔
      x ∈ (nodes1 now).mSuccessors ∨ x ∈ v := by
    intro x
    rw [p2.mem_iff, List.mem_append]
    exact p5 x
  refine
    { blocks_eq := fun N => (b1 N).trans (inv.blocks_eq N)
      succ_done := ?_
      succ_fresh := ?_
      pred_iff := ?_
      visited_iff := ?_
      done_nodup := ?_
      queue_nodup := ?_
      queue_fresh := ?_
      visited_nodup := ?_
      reach := ?_
      closed := ?_
      entry := (hv2 E).mpr (Or.inr inv.entry) }
  · intro N hN M
    rcases List.mem_append.mp hN with h | h
    · rw [b2, inv.succ_done N h M]
      constructor
      · rintro (h1 | ⟨_, h1⟩)
        · exact h1
        · exact absurd h (by rename_i h2; rw [h2]; exact hnow_done)
      · exact Or.inl
    · simp only [List.mem_singleton] at h
      subst h
      exact hsucc_now M
  · intro N hN M hM
    have hNd : N ∉ done := fun h => hN (List.mem_append_left _ h)
    have hNn : N ≠ now := fun h => hN (List.mem_append_right _ (by simp [h]))
    rcases (b2 N M).mp hM with h | ⟨h, _⟩
    · exact inv.succ_fresh N hNd M h
    · exact hNn h
  · intro N M
    rw [b2, b3, inv.pred_iff N M]
  · intro N
    rw [hv2, p1, List.mem_append, List.mem_append, List.mem_singleton, inv.visited_iff N,
      List.mem_cons]
    have h5 := p5 N
    rw [inv.visited_iff N, List.mem_cons] at h5
    constructor
    · rintro (h | h | h | h)
      · by_cases hv : N ∈ v
        · rcases (inv.visited_iff N).mp hv with h1 | h1
          · exact Or.inl (Or.inl h1)
          · rcases List.mem_cons.mp h1 with h2 | h2
            · exact Or.inl (Or.inr h2)
            · exact Or.inr (Or.inl h2)
        · rcases h5.mpr (Or.inl h) with h1 | h1
          · exact Or.inr (Or.inr h1)
          · exact absurd ((inv.visited_iff N).mpr (by
              rcases h1 with h2 | h2 | h2
              · exact Or.inl h2
              · exact Or.inr (List.mem_cons.mpr (Or.inl h2))
              · exact Or.inr (List.mem_cons.mpr (Or.inr h2)))) hv
      · exact Or.inl (Or.inl h)
      · exact Or.inl (Or.inr h)
      · exact Or.inr (Or.inl h)
    · rintro ((h | h) | h | h)
      · exact Or.inr (Or.inl h)
      · exact Or.inr (Or.inr (Or.inl h))
      · exact Or.inr (Or.inr (Or.inr h))
      · rcases h5.mp (Or.inl h) with h1 | h1
        · exact Or.inl h1
        · exact Or.inr h1
  · exact List.nodup_append.mpr ⟨inv.done_nodup, List.nodup_singleton _, by
      intro x hx hx1
      simp only [List.mem_singleton] at hx1
      subst hx1
      exact hnow_done hx⟩
  · rw [p1]
    refine List.nodup_append.mpr ⟨hq, p3, ?_⟩
    intro x hx hx1
    exact p4 x hx1 ((inv.visited_iff x).mpr (Or.inr (List.mem_cons_of_mem _ hx)))
  · intro N hN hNd
    rw [p1] at hN
    rcases List.mem_append.mp hNd with h | h
    · rcases List.mem_append.mp hN with h1 | h1
      · exact inv.queue_fresh N (List.mem_cons_of_mem _ h1) h
      · exact p4 N h1 ((inv.visited_iff N).mpr (Or.inl h))
    · simp only [List.mem_singleton] at h
      subst h
      rcases List.mem_append.mp hN with h1 | h1
      · exact hnow_q h1
      · exact p4 N h1 hnow_v
  · exact p2.nodup_iff.mpr (List.nodup_append.mpr ⟨p3, inv.visited_nodup, by
      intro x hx hx1
      exact p4 x hx hx1⟩)
  · intro N hN
    rcases (hv2 N).mp hN with h | h
    · exact Relation.ReflTransGen.tail (inv.reach now hnow_v) ((hsucc_now N).mp h)
    · exact inv.reach N h
  · intro N hN M hM
    rcases List.mem_append.mp hN with h | h
    · exact (hv2 M).mpr (Or.inr (inv.closed N h M hM))
    · simp only [List.mem_singleton] at h
      subst h
      exact (hv2 M).mpr (Or.inl ((hsucc_now M).mpr hM))

/-- The loop of `buildGraph` ends in a state that satisfies the invariant with
an empty queue. -/
theorem BuildInv.loop {m : Nat} (F : Function) (BBSCC : BasicBlock → Option (Fin m))
    (sccs : Fin m → List BasicBlock) (E : Fin m) (fuel : Nat) :
    ∀ (q v : List (Fin m)) (nodes : Fin m → SCCNode m) (done : List (Fin m))
      (r : (Fin m → SCCNode m) × List (Fin m)),
      BuildInv F BBSCC sccs E q v nodes done →
      buildLoopTrace F BBSCC fuel q v nodes done = some r →
      ∃ v1, BuildInv F BBSCC sccs E [] v1 r.1 r.2 := by
  induction fuel with
  | zero =>
    intro q v nodes done r inv e
    cases q with
    | nil =>
      simp only [buildLoopTrace, Option.some.injEq] at e
      subst e
      exact ⟨v, inv⟩
    | cons x rest => simp [buildLoopTrace] at e
  | succ fuel ih =>
    intro q v nodes done r inv e
    cases q with
    | nil =>
      simp only [buildLoopTrace, Option.some.injEq] at e
      subst e
      exact ⟨v, inv⟩
    | cons x rest =>
      unfold buildLoopTrace at e
      cases hb : buildRelation F BBSCC x nodes with
      | none => simp [hb] at e
      | some nodes1 =>
        simp only [hb] at e
        exact ih _ _ nodes1 _ r (BuildInv.step F BBSCC sccs E x rest v nodes nodes1 done inv hb) e

/-- The loop of `buildGraph` returns when `getSCC` knows every control-flow
successor of a block of a component and there is fuel for every node not yet
visited and every node in the queue. -/
theorem BuildInv.total {m : Nat} (F : Function) (BBSCC : BasicBlock → Option (Fin m))
    (sccs : Fin m → List BasicBlock) (E : Fin m)
    (hknown : ∀ i, ∀ b ∈ sccs i, ∀ s ∈ F.succ b, ∃ M, getSCC BBSCC s = some M) (fuel : Nat) :
    ∀ (q v : List (Fin m)) (nodes : Fin m → SCCNode m) (done : List (Fin m)),
      BuildInv F BBSCC sccs E q v nodes done → (m - v.length) + q.length ≤ fuel →
      ∃ r, buildLoopTrace F BBSCC fuel q v nodes done = some r := by
  induction fuel with
  | zero =>
    intro q v nodes done inv hle
    cases q with
    | nil => exact ⟨_, rfl⟩
    | cons x rest => simp at hle
  | succ fuel ih =>
    intro q v nodes done inv hle
    cases q with
    | nil => exact ⟨_, rfl⟩
    | cons x rest =>
      obtain ⟨nodes1, hb⟩ := buildRelation_total F BBSCC x nodes
        (by rw [inv.blocks_eq x]; exact hknown x)
      have inv1 := BuildInv.step F BBSCC sccs E x rest v nodes nodes1 done inv hb
      obtain ⟨extra, p1, p2, _, _, _⟩ := pushSuccessors_spec (nodes1 x).mSuccessors rest v
      have hlen : (pushSuccessors (nodes1 x).mSuccessors rest v).2.length ≤ m := by
        have := List.Nodup.length_le_card inv1.visited_nodup
        simpa using this
      unfold buildLoopTrace
      simp only [hb]
      apply ih _ _ nodes1 _ inv1
      have h2 := p2.length_eq
      rw [List.length_append] at h2
      rw [p1, List.length_append]
      simp only [List.length_cons] at hle
      omega

/-- C18: when `buildGraph` returns the graph `g` for the components `sccs`,
`buildRelation` has been called on the nodes of a duplicate-free list `done`,
which holds exactly the nodes reachable from the entry node; the successor set
of every reachable node `N` is exactly the set of the components `getSCC(s)`
for `s` a control-flow successor of a block of `N`; and `M` is a successor of
`N` if and only if `N` is a predecessor of `M`, for all nodes. The call returns
when `getSCC` knows every control-flow successor of a block of a component and
the fuel allows one iteration per node. -/
theorem C18_buildGraph_relation {m : Nat} (F : Function) (sccs : Fin m → List BasicBlock)
    (g0 : SCCGraph m) (h0 : SCCGraph.new F sccs = some g0) :
    (∀ fuel g, g0.buildGraph F (buildBBSCC sccs) fuel = some g →
      ∃ done,
        buildLoopTrace F (buildBBSCC sccs) fuel [g0.EntryNode] (setInsert [] g0.EntryNode)
          g0.SCCNodes [] = some (g.SCCNodes, done) ∧
        done.Nodup ∧ (∀ N, N ∈ done ↔ g.reachable N) ∧
        (∀ N, g.reachable N → ∀ M, M ∈ (g.SCCNodes N).mSuccessors ↔
          ∃ b ∈ (g.SCCNodes N).blocks, ∃ s ∈ F.succ b,
            getSCC (buildBBSCC sccs) s = some M) ∧
        (∀ N M, M ∈ (g.SCCNodes N).mSuccessors ↔ N ∈ (g.SCCNodes M).mPredecessors)) ∧
    ((∀ i, ∀ b ∈ sccs i, ∀ s ∈ F.succ b, ∃ M, getSCC (buildBBSCC sccs) s = some M) →
      ∀ fuel, m ≤ fuel → ∃ g, g0.buildGraph F (buildBBSCC sccs) fuel = some g) := by
  have hnodes : g0.SCCNodes = fun i => (⟨sccs i, [], []⟩ : SCCNode m) := by
    unfold SCCGraph.new at h0
    cases he : F.blocks.head? with
    | none => simp [he] at h0
    | some e =>
      simp only [he] at h0
      cases hE : getSCC (buildBBSCC sccs) e with
      | none => simp [hE] at h0
      | some E =>
        simp only [hE, Option.some.injEq] at h0
        subst h0
        rfl
  have inv0 : BuildInv F (buildBBSCC sccs) sccs g0.EntryNode [g0.EntryNode]
      (setInsert [] g0.EntryNode) g0.SCCNodes [] := by
    rw [hnodes]
    exact
      { blocks_eq := fun _ => rfl
        succ_done := by intro N hN; simp at hN
        succ_fresh := by intro N _ M; simp
        pred_iff := by intro N M; simp
        visited_iff := by intro N; simp [setInsert]
        done_nodup := List.nodup_nil
        queue_nodup := List.nodup_singleton _
        queue_fresh := by intro N _; simp
        visited_nodup := by simp [setInsert]
        reach := by
          intro N hN
          simp only [setInsert, List.mem_singleton] at hN
          subst hN
          exact Relation.ReflTransGen.refl
        closed := by intro N hN; simp at hN
        entry := by simp [setInsert] }
  refine ⟨?_, ?_⟩
  · intro fuel g hg
    unfold SCCGraph.buildGraph at hg
    rw [← buildLoopTrace_erase F (buildBBSCC sccs) fuel _ _ _ []] at hg
    cases ht : buildLoopTrace F (buildBBSCC sccs) fuel [g0.EntryNode]
        (setInsert [] g0.EntryNode) g0.SCCNodes [] with
    | none => simp [ht] at hg
    | some r =>
      simp only [ht, Option.map_some', Option.some.injEq] at hg
      subst hg
      obtain ⟨v1, inv⟩ := BuildInv.loop F (buildBBSCC sccs) sccs g0.EntryNode fuel _ _ _ _ r
        inv0 ht
      have hvd : ∀ N, N ∈ v1 ↔ N ∈ r.2 := fun N => by
        rw [inv.visited_iff N]; simp
      have hreach : ∀ N, SCCGraph.reachable ⟨r.1, g0.EntryNode⟩ N → N ∈ r.2 := by
        intro N hN
        induction hN with
        | refl => exact (hvd _).mp inv.entry
        | tail _ hstep ih =>
          exact (hvd _).mp (inv.closed _ ih _ ((inv.succ_done _ ih _).mp hstep))
      have hreach2 : ∀ N, Relation.ReflTransGen (sccEdge F (buildBBSCC sccs) sccs)
          g0.EntryNode N → N ∈ r.2 ∧ SCCGraph.reachable ⟨r.1, g0.EntryNode⟩ N := by
        intro N hN
        induction hN with
        | refl => exact ⟨(hvd _).mp inv.entry, Relation.ReflTransGen.refl⟩
        | tail _ hstep ih =>
          exact ⟨(hvd _).mp (inv.closed _ ih.1 _ hstep),
            Relation.ReflTransGen.tail ih.2 ((inv.succ_done _ ih.1 _).mpr hstep)⟩
      refine ⟨r.2, rfl, inv.done_nodup, ?_, ?_, inv.pred_iff⟩
      · intro N
        exact ⟨fun h => (hreach2 N (inv.reach N ((hvd N).mpr h))).2, hreach N⟩
      · intro N hN M
        have := inv.succ_done N (hreach N hN) M
        unfold sccEdge at this
        simp only [inv.blocks_eq N]
        exact this
  · intro hknown fuel hfuel
    obtain ⟨r, hr⟩ := BuildInv.total F (buildBBSCC sccs) sccs g0.EntryNode hknown fuel _ _ _ _
      inv0 (by
        have hm : 0 < m := Fin.pos g0.EntryNode
        simp only [setInsert, List.length_singleton]
        omega)
    refine ⟨{ g0 with SCCNodes := r.1 }, ?_⟩
    unfold SCCGraph.buildGraph
    rw [← buildLoopTrace_erase F (buildBBSCC sccs) fuel _ _ _ []]
    rw [hr]
    rfl

/-- C18, applied to the procedure `leakF` and its four components: the search
returns with fuel 4. -/
theorem C18_buildGraph_relation_witness :
    ∃ g, (SCCGraph.mk (fun i => (⟨leakSccs i, [], []⟩ : SCCNode 4)) 3).buildGraph leakF
      (buildBBSCC leakSccs) 4 = some g :=
  (C18_buildGraph_relation leakF leakSccs ⟨fun i => ⟨leakSccs i, [], []⟩, 3⟩ (by rfl)).2
    (by decide) 4 (by decide)

section ShareComponent

variable (MD5encoding : String → hash_t)

/-! ## The calls of `dfsSDDG` that `check` makes -/

/-- Every node that the loop of `check` adds to `visited` is added by one of its
calls of `dfsSDDG`: the call on some node `v` of the list, made after the loop
has run over the nodes before `v` without success. -/
theorem checkLoop_call_of_visited {n : Nat} (G : SDDG n) (U : List BasicBlock) (fuel : Nat)
    (L : List (Fin n)) : ∀ (I : itemSet) (V : List (Fin n))
      (r : Bool × itemSet × List (Fin n)),
      checkLoop MD5encoding G U fuel L I V = some r → ∀ x ∈ r.2.2, x ∉ V →
      ∃ pre v post I1 V1 st, L = pre ++ v :: post ∧
        checkLoop MD5encoding G U fuel pre I V = some (false, I1, V1) ∧ v ∉ V1 ∧
        dfsSDDG MD5encoding G U fuel v ⟨I1, itemSet.empty, V1⟩ = some st ∧
        x ∈ st.visited ∧ x ∉ V1 := by
  induction L with
  | nil =>
    intro I V r e x hx hxV
    simp only [checkLoop, Option.some.injEq] at e
    subst e
    exact absurd hx hxV
  | cons u rest ih =>
    intro I V r e x hx hxV
    unfold checkLoop at e
    by_cases hu : u ∈ V
    · simp only [hu, if_true] at e
      obtain ⟨pre, v, post, I1, V1, st, e1, e2, e3, e4, e5⟩ := ih I V r e x hx hxV
      refine ⟨u :: pre, v, post, I1, V1, st, by rw [e1]; rfl, ?_, e3, e4, e5⟩
      unfold checkLoop
      simp only [hu, if_true]
      exact e2
    · simp only [hu, if_false] at e
      cases e1 : dfsSDDG MD5encoding G U fuel u ⟨I, itemSet.empty, V⟩ with
      | none => simp [e1] at e
      | some st1 =>
        simp only [e1] at e
        have here : x ∈ st1.visited →
            ∃ pre v post I1 V1 st, u :: rest = pre ++ v :: post ∧
              checkLoop MD5encoding G U fuel pre I V = some (false, I1, V1) ∧ v ∉ V1 ∧
              dfsSDDG MD5encoding G U fuel v ⟨I1, itemSet.empty, V1⟩ = some st ∧
              x ∈ st.visited ∧ x ∉ V1 :=
          fun hx1 => ⟨[], u, rest, I, V, st1, rfl, rfl, hu, e1, hx1, hxV⟩
        by_cases hl : (st1.nowSet.islarger st1.I).1 = true
        · simp only [hl, if_true, Option.some.injEq] at e
          subst e
          exact here hx
        · simp only [hl, if_false] at e
          by_cases hx1 : x ∈ st1.visited
          · exact here hx1
          · obtain ⟨pre, v, post, I1, V1, st, e2, e3, e4, e5, e6⟩ :=
              ih st1.I st1.visited r e x hx hx1
            refine ⟨u :: pre, v, post, I1, V1, st, by rw [e2]; rfl, ?_, e4, e5, e6⟩
            unfold checkLoop
            simp only [hu, if_false, e1, hl]
            exact e3

/-- When the loop of `check` ends without success, it has visited every useful
node of its list. -/
theorem checkLoop_false_visits {n : Nat} (G : SDDG n) (U : List BasicBlock) (c : hash_t → Int)
    (fuel : Nat) (L : List (Fin n)) : ∀ (I : itemSet) (V : List (Fin n))
      (r : Bool × itemSet × List (Fin n)), (∀ k, I.count k = c k) → V.Nodup →
      closedSet MD5encoding G U c V →
      checkLoop MD5encoding G U fuel L I V = some r → r.1 = false →
      ∀ x ∈ L, usefulAt MD5encoding G U c x → x ∈ r.2.2 := by
  induction L with
  | nil => intro I V r _ _ _ _ _ x hx; simp at hx
  | cons u rest ih =>
    intro I V r hc hnd hcl e hr x hx hxu
    have hinv := checkLoop_inv MD5encoding G U c fuel (u :: rest) I V r hc hnd hcl e
    unfold checkLoop at e
    by_cases hu : u ∈ V
    · simp only [hu, if_true] at e
      rcases List.mem_cons.mp hx with hx | hx
      · subst hx; exact hinv.2.2.2.2 x hu
      · exact ih I V r hc hnd hcl e hr x hx hxu
    · simp only [hu, if_false] at e
      cases e1 : dfsSDDG MD5encoding G U fuel u ⟨I, itemSet.empty, V⟩ with
      | none => simp [e1] at e
      | some st1 =>
        simp only [e1] at e
        obtain ⟨new, s1⟩ := dfsSDDG_spec_of_eq MD5encoding G U c fuel u _ st1 hc hnd e1
        have hc1 : ∀ k, st1.I.count k = c k := fun k => (s1.count_I k).trans (hc k)
        have hcl1 := StepSpec.closedSet MD5encoding G U c _ _ _ _ s1 hcl
        by_cases hl : (st1.nowSet.islarger st1.I).1 = true
        · simp only [hl, if_true, Option.some.injEq] at e
          subst e
          simp at hr
        · simp only [hl, if_false] at e
          rcases List.mem_cons.mp hx with hx | hx
          · subst hx
            have h1 : x ∈ st1.visited := s1.roots_in x (by simp) hxu
            exact (checkLoop_inv MD5encoding G U c fuel rest st1.I st1.visited r hc1
              (s1.nodup hnd) hcl1 e).2.2.2.2 x h1
          · exact ih st1.I st1.visited r hc1 (s1.nodup hnd) hcl1 e hr x hx hxu

/-! ## Share edges -/

/-- Two distinct members of a duplicate-free list that satisfy a test are
counted twice. -/
theorem two_le_countP {α : Type} [DecidableEq α] (p : α → Bool) (l : List α) (a b : α)
    (hab : a ≠ b) (ha : a ∈ l) (hb : b ∈ l) (pa : p a = true) (pb : p b = true) :
    2 ≤ l.countP p := by
  have hnd : [a, b].Nodup := by simp [hab]
  have hsub : [a, b] ⊆ l := by
    intro x hx
    simp only [List.mem_cons, List.mem_singleton, List.not_mem_nil, or_false] at hx
    rcases hx with rfl | rfl
    · exact ha
    · exact hb
  have h1 := (List.subperm_of_subset hnd hsub).countP_le p
  simpa [List.countP_cons, pa, pb] using h1

/-- C6: after `addShare`, take two interesting nodes `a` and `b` with
`inShare(a, b)` that are both useful, whatever the dependence edges. Consider
a call of `dfsSDDG` that `check` makes: on an unvisited interesting node `v`,
after its loop has run over the nodes before `v` without success. (1) When the
call returns, it has newly visited `a` if and only if it has newly visited `b`;
it has newly visited both when `v` is `a` or `b`; when it has, both lie in the
component of `v`, and the item-set it has collected counts every newly visited
node exactly once under its hash, so at least one occurrence for the hash of
`a` and for the hash of `b`, and at least two when the two hashes are equal
and `a` and `b` are distinct. (2) With fuel for every node each such call
returns, `check` returns, at its return `a` has been visited if and only if `b`
has, both have been visited when `check` answers false, and when one of them
has been visited there is one call of `dfsSDDG` among those that `check` made
that newly visited both. -/
theorem C6_share_edge_same_component {n : Nat} (G : SDDG n) (inShare : Fin n → Fin n → Bool)
    (U : List BasicBlock) (I : itemSet) (a b : Fin n) (ha : a ∈ G.interesting)
    (hb : b ∈ G.interesting) (hshare : inShare a b = true)
    (hua : usefulAt MD5encoding G U I.count a) (hub : usefulAt MD5encoding G U I.count b)
    (fuel : Nat) :
    (∀ pre v post I1 V1 st, (addShare inShare G).interesting = pre ++ v :: post →
      checkLoop MD5encoding (addShare inShare G) U fuel pre I [] = some (false, I1, V1) →
      v ∉ V1 →
      dfsSDDG MD5encoding (addShare inShare G) U fuel v ⟨I1, itemSet.empty, V1⟩ = some st →
      ((a ∈ st.visited ∧ a ∉ V1) ↔ (b ∈ st.visited ∧ b ∉ V1)) ∧
      (v = a ∨ v = b → (a ∈ st.visited ∧ a ∉ V1) ∧ (b ∈ st.visited ∧ b ∉ V1)) ∧
      (a ∈ st.visited ∧ a ∉ V1 →
        inComponent MD5encoding (addShare inShare G) U I.count v a ∧
        inComponent MD5encoding (addShare inShare G) U I.count v b) ∧
      (∀ h, st.nowSet.count h = st.visited.countP (fun x =>
        decide (x ∉ V1) &&
          decide (nodeHash MD5encoding ((addShare inShare G).node x).mInst = h))) ∧
      (a ∈ st.visited ∧ a ∉ V1 →
        1 ≤ st.nowSet.count (nodeHash MD5encoding (G.node a).mInst) ∧
        1 ≤ st.nowSet.count (nodeHash MD5encoding (G.node b).mInst) ∧
        (a ≠ b → nodeHash MD5encoding (G.node a).mInst = nodeHash MD5encoding (G.node b).mInst →
          2 ≤ st.nowSet.count (nodeHash MD5encoding (G.node a).mInst)))) ∧
    (n ≤ fuel →
      (∀ pre v post I1 V1, (addShare inShare G).interesting = pre ++ v :: post →
        checkLoop MD5encoding (addShare inShare G) U fuel pre I [] = some (false, I1, V1) →
        v ∉ V1 →
        ∃ st, dfsSDDG MD5encoding (addShare inShare G) U fuel v ⟨I1, itemSet.empty, V1⟩
          = some st) ∧
      ∃ r, checkLoop MD5encoding (addShare inShare G) U fuel
          (addShare inShare G).interesting I [] = some r ∧
        (a ∈ r.2.2 ↔ b ∈ r.2.2) ∧
        (r.1 = false → a ∈ r.2.2 ∧ b ∈ r.2.2) ∧
        (a ∈ r.2.2 ∨ b ∈ r.2.2 →
          ∃ pre v post I1 V1 st, (addShare inShare G).interesting = pre ++ v :: post ∧
            checkLoop MD5encoding (addShare inShare G) U fuel pre I [] = some (false, I1, V1) ∧
            v ∉ V1 ∧
            dfsSDDG MD5encoding (addShare inShare G) U fuel v ⟨I1, itemSet.empty, V1⟩
              = some st ∧
            (a ∈ st.visited ∧ a ∉ V1) ∧ (b ∈ st.visited ∧ b ∉ V1))) := by
  have hext := addShare_extends inShare G
  have hlink := addShare_linked inShare G a b ha hb hshare
  have hua1 := (usefulAt_of_extendedBy MD5encoding G _ hext U I.count a).mpr hua
  have hub1 := (usefulAt_of_extendedBy MD5encoding G _ hext U I.count b).mpr hub
  have hia : (G.node a).mInst = ((addShare inShare G).node a).mInst := ((hext.2 a).1).symm
  have hib : (G.node b).mInst = ((addShare inShare G).node b).mInst := ((hext.2 b).1).symm
  have hnil : closedSet MD5encoding (addShare inShare G) U I.count [] := by
    intro x hx; simp at hx
  -- what a call made by `check` does
  have call : ∀ pre v I1 V1 st,
      checkLoop MD5encoding (addShare inShare G) U fuel pre I [] = some (false, I1, V1) →
      v ∉ V1 →
      dfsSDDG MD5encoding (addShare inShare G) U fuel v ⟨I1, itemSet.empty, V1⟩ = some st →
      ∃ new, StepSpec MD5encoding (addShare inShare G) U I.count [v]
          ⟨I1, itemSet.empty, V1⟩ st new ∧
        closedSet MD5encoding (addShare inShare G) U I.count V1 ∧ V1.Nodup ∧
        (∀ x, x ∈ st.visited ∧ x ∉ V1 ↔ x ∈ new) ∧ (a ∈ new ↔ b ∈ new) := by
    intro pre v I1 V1 st hpre _ hdfs
    obtain ⟨hc1, _, hnd1, hcl1, _⟩ := checkLoop_inv MD5encoding (addShare inShare G) U I.count
      fuel pre I [] (false, I1, V1) (fun _ => rfl) List.nodup_nil hnil hpre
    simp only at hc1 hnd1 hcl1
    obtain ⟨new, s1⟩ := dfsSDDG_spec_of_eq MD5encoding (addShare inShare G) U I.count fuel v
      ⟨I1, itemSet.empty, V1⟩ st hc1 hnd1 hdfs
    have hmem : ∀ x, x ∈ st.visited ∧ x ∉ V1 ↔ x ∈ new := by
      intro x
      rw [s1.perm.mem_iff, List.mem_append]
      constructor
      · rintro ⟨h1 | h1, h2⟩
        · exact h1
        · exact absurd h1 h2
      · intro h1
        exact ⟨Or.inl h1, (s1.new_spec x h1).2.1⟩
    refine ⟨new, s1, hcl1, hnd1, hmem, ?_, ?_⟩
    · intro hx
      apply (hmem b).mp
      refine ⟨s1.closed a hx b (Or.inl hlink.1) hub1, ?_⟩
      intro hbV
      exact (s1.new_spec a hx).2.1 ((hcl1 b hbV).2 a (Or.inl hlink.2.2.1) hua1)
    · intro hx
      apply (hmem a).mp
      refine ⟨s1.closed b hx a (Or.inl hlink.2.2.1) hua1, ?_⟩
      intro haV
      exact (s1.new_spec b hx).2.1 ((hcl1 a haV).2 b (Or.inl hlink.1) hub1)
  constructor
  · intro pre v post I1 V1 st _ hpre hv hdfs
    obtain ⟨new, s1, hcl1, hnd1, hmem, hab⟩ := call pre v I1 V1 st hpre hv hdfs
    have hcount : ∀ h, st.nowSet.count h = new.countP (fun x =>
        decide (nodeHash MD5encoding ((addShare inShare G).node x).mInst = h)) := by
      intro h
      rw [s1.count_now, empty_count, zero_add]
    have hvnew : usefulAt MD5encoding (addShare inShare G) U I.count v → v ∈ new := fun hvu =>
      (hmem v).mp ⟨s1.roots_in v (by simp) hvu, hv⟩
    have hcomp : ∀ x, x ∈ new → inComponent MD5encoding (addShare inShare G) U I.count v x := by
      intro x hx
      obtain ⟨_, _, y, hy, hyu, _, hpath⟩ := s1.new_spec x hx
      simp only [List.mem_singleton] at hy
      subst hy
      exact ⟨hyu, Relation.ReflTransGen.mono (fun p q hpq => ⟨hpq.1, hpq.2.1⟩) hpath⟩
    refine ⟨?_, ?_, ?_, ?_, ?_⟩
    · rw [hmem, hmem]; exact hab
    · rw [hmem, hmem]
      rintro (rfl | rfl)
      · exact ⟨hvnew hua1, hab.mp (hvnew hua1)⟩
      · exact ⟨hab.mpr (hvnew hub1), hvnew hub1⟩
    · rw [hmem]
      intro hx
      exact ⟨hcomp a hx, hcomp b (hab.mp hx)⟩
    · intro h
      rw [hcount, s1.perm.countP_eq, List.countP_append]
      have h1 : List.countP (fun x => decide (x ∉ V1) &&
          decide (nodeHash MD5encoding ((addShare inShare G).node x).mInst = h)) V1 = 0 := by
        rw [List.countP_eq_zero]
        intro x hx
        simp [hx]
      have h2 : List.countP (fun x => decide (x ∉ V1) &&
          decide (nodeHash MD5encoding ((addShare inShare G).node x).mInst = h)) new =
          List.countP (fun x =>
            decide (nodeHash MD5encoding ((addShare inShare G).node x).mInst = h)) new := by
        apply List.countP_congr
        intro x hx
        have := (s1.new_spec x hx).2.1
        simp [this]
      rw [h1, h2]
      simp
    · rw [hmem]
      intro hx
      have hbn := hab.mp hx
      rw [hcount, hcount]
      refine ⟨?_, ?_, ?_⟩
      · have : 0 < new.countP (fun x => decide
            (nodeHash MD5encoding ((addShare inShare G).node x).mInst =
              nodeHash MD5encoding (G.node a).mInst)) :=
          List.countP_pos_iff.mpr ⟨a, hx, by simp [hia]⟩
        omega
      · have : 0 < new.countP (fun x => decide
            (nodeHash MD5encoding ((addShare inShare G).node x).mInst =
              nodeHash MD5encoding (G.node b).mInst)) :=
          List.countP_pos_iff.mpr ⟨b, hbn, by simp [hib]⟩
        omega
      · intro hne heq
        have := two_le_countP (fun x => decide
            (nodeHash MD5encoding ((addShare inShare G).node x).mInst =
              nodeHash MD5encoding (G.node a).mInst)) new a b hne hx hbn
          (by simp [hia]) (by simp [← hib, heq])
        omega
  · intro hfuel
    constructor
    · intro pre v post I1 V1 _ hpre _
      obtain ⟨hc1, _, hnd1, _, _⟩ := checkLoop_inv MD5encoding (addShare inShare G) U I.count
        fuel pre I [] (false, I1, V1) (fun _ => rfl) List.nodup_nil hnil hpre
      obtain ⟨st, _, e, _⟩ := dfsSDDG_spec MD5encoding (addShare inShare G) U I.count fuel v
        ⟨I1, itemSet.empty, V1⟩ hc1 hnd1 (by simp only at *; omega)
      exact ⟨st, e⟩
    · obtain ⟨r, hr⟩ := checkLoop_total MD5encoding (addShare inShare G) U fuel hfuel
        (addShare inShare G).interesting I [] List.nodup_nil
      obtain ⟨_, _, _, hclr, _⟩ := checkLoop_inv MD5encoding (addShare inShare G) U I.count
        fuel _ I [] r (fun _ => rfl) List.nodup_nil hnil hr
      have hiff : a ∈ r.2.2 ↔ b ∈ r.2.2 :=
        ⟨fun h => (hclr a h).2 b (Or.inl hlink.1) hub1,
          fun h => (hclr b h).2 a (Or.inl hlink.2.2.1) hua1⟩
      refine ⟨r, hr, hiff, ?_, ?_⟩
      · intro hfalse
        have h1 := checkLoop_false_visits MD5encoding (addShare inShare G) U I.count fuel
          (addShare inShare G).interesting I [] r (fun _ => rfl) List.nodup_nil hnil hr hfalse
          a (by rw [hext.1]; exact ha) hua1
        exact ⟨h1, hiff.mp h1⟩
      · intro hor
        have har : a ∈ r.2.2 := hor.elim id hiff.mpr
        obtain ⟨pre, v, post, I1, V1, st, e1, e2, e3, e4, e5, e6⟩ :=
          checkLoop_call_of_visited MD5encoding (addShare inShare G) U fuel
            (addShare inShare G).interesting I [] r hr a har (by simp)
        obtain ⟨new, _, _, _, hmem, hab⟩ := call pre v I1 V1 st e2 e3 e4
        exact ⟨pre, v, post, I1, V1, st, e1, e2, e3, e4, ⟨e5, e6⟩,
          (hmem b).mpr (hab.mp ((hmem a).mp ⟨e5, e6⟩))⟩

end ShareComponent

/-- C6, applied to two calls `f(i32)` in block 0 that only the share relation
links, the target `{f(i32): 2}` and the call of `dfsSDDG` on the first of
them: it visits both and collects `{f(i32): 2}`. -/
theorem C6_share_edge_same_component_witness :
    ((((0 : Fin 2) ∈ ([0, 1] : List (Fin 2)) ∧ (0 : Fin 2) ∉ ([] : List (Fin 2))) ↔
        ((1 : Fin 2) ∈ ([0, 1] : List (Fin 2)) ∧ (1 : Fin 2) ∉ ([] : List (Fin 2)))) ∧
      ((0 : Fin 2) = 0 ∨ (0 : Fin 2) = 1 →
        ((0 : Fin 2) ∈ ([0, 1] : List (Fin 2)) ∧ (0 : Fin 2) ∉ ([] : List (Fin 2))) ∧
        ((1 : Fin 2) ∈ ([0, 1] : List (Fin 2)) ∧ (1 : Fin 2) ∉ ([] : List (Fin 2)))) ∧
      ((0 : Fin 2) ∈ ([0, 1] : List (Fin 2)) ∧ (0 : Fin 2) ∉ ([] : List (Fin 2)) →
        inComponent sampleHash (addShare share01 twoCallsApart) [0]
          (itemSet.count ⟨[(sampleHash "f(i32)", 2)]⟩) 0 0 ∧
        inComponent sampleHash (addShare share01 twoCallsApart) [0]
          (itemSet.count ⟨[(sampleHash "f(i32)", 2)]⟩) 0 1) ∧
      (∀ h, itemSet.count ⟨[(sampleHash "f(i32)", 2)]⟩ h =
        ([0, 1] : List (Fin 2)).countP (fun x =>
          decide (x ∉ ([] : List (Fin 2))) &&
            decide (nodeHash sampleHash ((addShare share01 twoCallsApart).node x).mInst = h))) ∧
      ((0 : Fin 2) ∈ ([0, 1] : List (Fin 2)) ∧ (0 : Fin 2) ∉ ([] : List (Fin 2)) →
        1 ≤ itemSet.count ⟨[(sampleHash "f(i32)", 2)]⟩
          (nodeHash sampleHash (twoCallsApart.node 0).mInst) ∧
        1 ≤ itemSet.count ⟨[(sampleHash "f(i32)", 2)]⟩
          (nodeHash sampleHash (twoCallsApart.node 1).mInst) ∧
        ((0 : Fin 2) ≠ 1 →
          nodeHash sampleHash (twoCallsApart.node 0).mInst =
            nodeHash sampleHash (twoCallsApart.node 1).mInst →
          2 ≤ itemSet.count ⟨[(sampleHash "f(i32)", 2)]⟩
            (nodeHash sampleHash (twoCallsApart.node 0).mInst)))) ∧
    ∃ r, checkLoop sampleHash (addShare share01 twoCallsApart) [0] 2
        (addShare share01 twoCallsApart).interesting ⟨[(sampleHash "f(i32)", 2)]⟩ [] = some r ∧
      ((0 : Fin 2) ∈ r.2.2 ↔ (1 : Fin 2) ∈ r.2.2) ∧
      (r.1 = false → (0 : Fin 2) ∈ r.2.2 ∧ (1 : Fin 2) ∈ r.2.2) ∧
      ((0 : Fin 2) ∈ r.2.2 ∨ (1 : Fin 2) ∈ r.2.2 →
        ∃ pre v post I1 V1 st,
          (addShare share01 twoCallsApart).interesting = pre ++ v :: post ∧
          checkLoop sampleHash (addShare share01 twoCallsApart) [0] 2 pre
            ⟨[(sampleHash "f(i32)", 2)]⟩ [] = some (false, I1, V1) ∧
          v ∉ V1 ∧
          dfsSDDG sampleHash (addShare share01 twoCallsApart) [0] 2 v
            ⟨I1, itemSet.empty, V1⟩ = some st ∧
          ((0 : Fin 2) ∈ st.visited ∧ (0 : Fin 2) ∉ V1) ∧
          ((1 : Fin 2) ∈ st.visited ∧ (1 : Fin 2) ∉ V1)) :=
  ⟨(C6_share_edge_same_component sampleHash twoCallsApart share01 [0]
      ⟨[(sampleHash "f(i32)", 2)]⟩ 0 1 (by decide) (by decide) (by decide) (by decide)
      (by decide) 2).1 [] 0 [1] ⟨[(sampleHash "f(i32)", 2)]⟩ []
      ⟨⟨[(sampleHash "f(i32)", 2)]⟩, ⟨[(sampleHash "f(i32)", 2)]⟩, [0, 1]⟩
      (by decide) (by decide) (by decide) (by decide),
    ((C6_share_edge_same_component sampleHash twoCallsApart share01 [0]
      ⟨[(sampleHash "f(i32)", 2)]⟩ 0 1 (by decide) (by decide) (by decide) (by decide)
      (by decide) 2).2 (by decide)).2⟩

end SupportCount
